import Mathlib

/-!
Genetic-algorithm toolkit of `Project/`: Levenshtein distance, mutation, region sampling,
crossover.

Shallow embedding of `src/Project/project.hpp`, `src/Project/beyond_project.hpp` and of
the `mutate` and the `crossover` of `src/Project/project_sina.hpp`.

Conventions of the embedding
* a C++ range is a `List α`; a forward iterator into it is the list of the elements
  that are still ahead of the iterator (`std::advance(it, n)` is `List.drop n`);
* a `std::vector<size_t>` scratch row is a `List Nat`, `v[j]` is `List.getD v j 0`
  and `v[j] = x` is `List.set v j x`;
* `size_t` values are natural numbers (the sizes of the ranges are taken to fit in
  64 bits); the unsigned operations that could leave the range are modelled with their
  64-bit wrap-around: `ncrossover_points + 1`, `--num_in_pop_left_`,
  `--region_.reverse_id` and `to - from`;
* a uniform random bit generator is a value `g : G` of an arbitrary type; a distribution
  applied to it is a function returning the drawn value and the advanced generator, so
  a sequence of draws is one such generator (`scripted_uid`, `scripted_bd`,
  `scripted_ud`); `std::ranges::sample` is likewise a function with its contract
  (`SampleOK`);
* a `double` is the rational number it denotes: the only operation applied to the draws
  and to the rate of `mutate` is their comparison;
* the elements of the sequences of `levenshtein` are compared by equality on a type with
  decidable equality; `levenshtein_by` keeps the `operator!=` of the element type as a
  parameter, for element types on which it is not the negation of an equality
  (`double_value` with its NaN);
* a call that throws has no result: the crossover of `project.hpp` takes the outcome of
  its `reserve` as a parameter (`reserve_ok`) and returns the child with the states in
  which it leaves the two generators;
* a loop whose termination depends on the draws takes a bound on its number of
  iterations (`fuel`) and has no result when the bound is reached; the theorems show
  that a bound of `pop_size + 2` always gives a result.
-/

namespace project

/-- Function `min(a, b)` of `project.hpp`, lines 36-40: `(b < a) ? b : a`. -/
def min2 (a b : Nat) : Nat := if b < a then b else a

/-- Function `min(a, b, rest...)` of `project.hpp`, lines 42-54, at three arguments:
`min(min(a, b), c)`. -/
def min3 (a b c : Nat) : Nat := min2 (min2 a b) c

/-- Inner loop `for (size_t j{}; j != bsize; ++j)` of `project.hpp`, lines 86-92.
The first argument counts the iterations that remain (`bsize - j`). -/
def levenshtein_inner {α : Type} [DecidableEq α] (a b : List α) (i : Nat)
    (prev_row : List Nat) : Nat → Nat → List Nat → List Nat
  | 0, _, cur_row => cur_row
  | n + 1, j, cur_row =>
    let insert_cost := cur_row.getD j 0 + 1
    let subst_cost := prev_row.getD j 0 + (if a[i]? = b[j]? then 0 else 1)
    let del_cost := prev_row.getD (j + 1) 0 + 1
    levenshtein_inner a b i prev_row n (j + 1)
      (cur_row.set (j + 1) (min3 del_cost insert_cost subst_cost))

/-- Outer loop `for (size_t i{}; i != asize; ++i)` of `project.hpp`, lines 83-94.
The first argument counts the iterations that remain (`asize - i`); the rows are
swapped at the end of every iteration. -/
def levenshtein_outer {α : Type} [DecidableEq α] (a b : List α) (bsize : Nat) :
    Nat → Nat → List Nat → List Nat → List Nat
  | 0, _, prev_row, _ => prev_row
  | n + 1, i, prev_row, cur_row =>
    let cur_row := cur_row.set 0 (i + 1)
    let cur_row := levenshtein_inner a b i prev_row bsize 0 cur_row
    levenshtein_outer a b bsize n (i + 1) cur_row prev_row

/-- Function `levenshtein(a, b)` of `project.hpp`, lines 59-96 (sized random-access ranges). -/
def levenshtein {α : Type} [DecidableEq α] (a b : List α) : Nat :=
  let bsize := b.length
  let prev_row := List.range (bsize + 1)
  let cur_row := List.replicate (bsize + 1) 0
  let asize := a.length
  (levenshtein_outer a b bsize asize 0 prev_row cur_row).getLastD 0

end project

namespace beyond_project

open project (min2 min3)

/-- Function `range_size(r)` of `beyond_project.hpp`, lines 170-186: the manual count of the
elements of a range. -/
def range_size {α : Type} : List α → Nat
  | [] => 0
  | _ :: r => range_size r + 1

/-- Function `min_range_size(rs...)` of `beyond_project.hpp`, lines 190-247, at two ranges:
both are traversed in lock step until the first one ends. -/
def min_range_size {α : Type} : List α → List α → Nat
  | _ :: r1, _ :: r2 => min_range_size r1 r2 + 1
  | _, _ => 0

/-- Inner loop over `j` of `beyond_project.hpp`, lines 294-304. The list argument is
what is ahead of the iterator `j` in `b`; the number is the common offset of
`prev_row_iter` and `cur_row_iter` from the beginning of their rows. -/
def levenshtein_inner {α : Type} [DecidableEq α] (ai : α) (prev_row : List Nat) :
    List α → Nat → List Nat → List Nat
  | [], _, cur_row => cur_row
  | bj :: bs, j, cur_row =>
    let insert_cost := cur_row.getD j 0 + 1
    let subst_cost := prev_row.getD j 0 + (if ai ≠ bj then 1 else 0)
    let del_cost := prev_row.getD (j + 1) 0 + 1
    levenshtein_inner ai prev_row bs (j + 1)
      (cur_row.set (j + 1) (min3 del_cost insert_cost subst_cost))

/-- Outer loop over `i` of `beyond_project.hpp`, lines 287-307. The list argument is
what is ahead of the iterator `i` in `a`; the rows are swapped at the end of every
iteration. -/
def levenshtein_outer {α : Type} [DecidableEq α] (b : List α) :
    List α → Nat → List Nat → List Nat → List Nat
  | [], _, prev_row, _ => prev_row
  | ai :: as, i_dist_plus_one, prev_row, cur_row =>
    let cur_row := cur_row.set 0 i_dist_plus_one
    let cur_row := levenshtein_inner ai prev_row b 0 cur_row
    levenshtein_outer b as (i_dist_plus_one + 1) cur_row prev_row

/-- Function `levenshtein(a, b)` of `beyond_project.hpp`, lines 252-309 (forward ranges). -/
def levenshtein {α : Type} [DecidableEq α] (a b : List α) : Nat :=
  let bsize := range_size b
  let prev_row := List.range (bsize + 1)
  let cur_row := List.replicate (bsize + 1) 0
  (levenshtein_outer b a 1 prev_row cur_row).getLastD 0

/-- Number of values of `std::size_t` (64 bits). -/
def SIZE_MOD : Nat := 2 ^ 64

/-- Subtraction `a - b` on `std::size_t`: the difference wraps around below zero. -/
def size_sub (a b : Nat) : Nat := if b ≤ a then a - b else a + SIZE_MOD - b

/-- Addition `a + b` on `std::size_t`: the sum wraps around at `2 ^ 64`. -/
def size_add (a b : Nat) : Nat := (a + b) % SIZE_MOD

/-- The `struct region` of `region_sample_iterator`, lines 372-380; its defaulted
`operator==` is the derived equality. The members `from` and `to` are written `from_`
and `to_`. -/
structure region where
  reverse_id : Nat
  id : Nat
  from_ : Nat
  to_ : Nat
deriving DecidableEq, Repr

/-- Data members of `region_sample_iterator`, lines 393-398. `urbg_` is the optional
reference to the generator: the embedding keeps the generator's current state there. -/
structure region_sample_iterator (G : Type) where
  urbg_ : Option G
  pop_size_ : Nat
  num_in_pop_left_ : Nat
  last_i_ : Nat
  i_ : Nat
  region_ : region

namespace region_sample_iterator

/-- The loop `for (bool not_found = true; not_found; ++i_)` of `next()`, lines 407-426.
`uid a b g` is `std::uniform_int_distribution<uint_type>(a, b)(g)`: the value drawn
and the advanced generator. The first argument bounds the number of iterations;
dereferencing an empty `urbg_` has no result. -/
def next_loop {G : Type} (uid : Nat → Nat → G → Nat × G) :
    Nat → region_sample_iterator G → Option (region_sample_iterator G)
  | 0, _ => none
  | fuel + 1, it =>
    match it.urbg_ with
    | none => none
    | some g =>
      let num_in_pop_left := size_sub it.num_in_pop_left_ 1
      let draw := uid 0 num_in_pop_left g
      let r := draw.1
      if r < it.region_.reverse_id then
        let id := if it.last_i_ > 0 then it.region_.id + 1 else it.region_.id
        let reverse_id := size_sub it.region_.reverse_id 1
        let to_ := if reverse_id > 0 then it.i_ else it.pop_size_
        some
          { urbg_ := some draw.2
            pop_size_ := it.pop_size_
            num_in_pop_left_ := num_in_pop_left
            last_i_ := it.i_
            i_ := it.i_ + 1
            region_ := { reverse_id := reverse_id, id := id, from_ := it.last_i_, to_ := to_ } }
      else
        next_loop uid fuel
          { urbg_ := some draw.2
            pop_size_ := it.pop_size_
            num_in_pop_left_ := num_in_pop_left
            last_i_ := it.last_i_
            i_ := it.i_ + 1
            region_ := it.region_ }

/-- Member function `next()`, lines 400-428. -/
def next {G : Type} (uid : Nat → Nat → G → Nat × G) (fuel : Nat)
    (it : region_sample_iterator G) : Option (region_sample_iterator G) :=
  if it.region_.reverse_id = 0 then
    some { it with urbg_ := none }
  else
    next_loop uid fuel it

/-- The default constructor, line 431: the end iterator (value-initialised, no
generator). -/
def default_ctor (G : Type) : region_sample_iterator G :=
  { urbg_ := none
    pop_size_ := 0
    num_in_pop_left_ := 0
    last_i_ := 0
    i_ := 0
    region_ := { reverse_id := 0, id := 0, from_ := 0, to_ := 0 } }

/-- The constructor `region_sample_iterator(urbg, pop_size, num_regions)`,
lines 437-476. -/
def ctor {G : Type} (uid : Nat → Nat → G → Nat × G) (fuel : Nat) (urbg : G)
    (pop_size num_regions : Nat) : Option (region_sample_iterator G) :=
  let it : region_sample_iterator G :=
    { urbg_ := some urbg
      pop_size_ := pop_size
      num_in_pop_left_ := pop_size
      last_i_ := 0
      i_ := 1
      region_ := { reverse_id := min2 num_regions pop_size, id := 0, from_ := 0, to_ := 0 } }
  if num_regions = 0 then
    some { it with region_ := { reverse_id := 0, id := 0, from_ := 0, to_ := 0 } }
  else if num_regions ≤ 1 then
    some { it with region_ := { reverse_id := 0, id := 0, from_ := 0, to_ := pop_size } }
  else
    next uid fuel it

/-- Member `operator==`, lines 478-484. `*urbg_ == *b.urbg_` is the generators' own `==`. -/
def operator_eq {G : Type} [BEq G] (a b : region_sample_iterator G) : Bool :=
  let region_match := decide (a.region_ = b.region_)
  let urbg_same :=
    match a.urbg_, b.urbg_ with
    | some ga, some gb => ga == gb
    | _, _ => false
  let urbg_both_are_end := ((!a.urbg_.isSome) == (!b.urbg_.isSome))
  urbg_both_are_end || (urbg_same && region_match)

/-- Member `operator!=`, lines 486-489. -/
def operator_ne {G : Type} [BEq G] (a b : region_sample_iterator G) : Bool :=
  !operator_eq a b

/-- The traversal idiom `for (; i != i_end; ++i)` with `i_end` default-constructed
(as in `crossover`, lines 586-589): the regions `*i` seen by the loop body, in order.
`fuel_next` bounds the inner loop of every `++i`, the next argument the number of
iterations of the traversal. -/
def traverse {G : Type} [BEq G] (uid : Nat → Nat → G → Nat × G) (fuel_next : Nat) :
    Nat → region_sample_iterator G → Option (List region)
  | 0, _ => none
  | fuel + 1, i =>
    if operator_ne i (default_ctor G) then
      match next uid fuel_next i with
      | none => none
      | some i' =>
        match traverse uid fuel_next fuel i' with
        | none => none
        | some rs => some (i.region_ :: rs)
    else
      some []

/-- Construction followed by one full traversal: the regions visited. -/
def regions {G : Type} [BEq G] (uid : Nat → Nat → G → Nat × G) (fuel : Nat) (urbg : G)
    (pop_size num_regions : Nat) : Option (List region) :=
  match ctor uid fuel urbg pop_size num_regions with
  | none => none
  | some i => traverse uid fuel fuel i

end region_sample_iterator

/-- State of `crossover` between two iterations of its loop: the flag `which_parent`,
the iterators `p1it` and `p2it`, and what has been written through `out`. -/
structure crossover_state (α : Type) where
  which_parent : Bool
  p1it : List α
  p2it : List α
  out : List α

/-- The loop `for (; i != i_end; ++i)` of `crossover`, lines 589-601. The output
iterator appends: `out` is the list of the elements written so far. -/
def crossover_loop {G α : Type} [BEq G] (uid : Nat → Nat → G → Nat × G) (fuel_next : Nat) :
    Nat → region_sample_iterator G → crossover_state α → Option (crossover_state α)
  | 0, _, _ => none
  | fuel + 1, i, s =>
    if region_sample_iterator.operator_ne i (region_sample_iterator.default_ctor G) then
      let sz := size_sub i.region_.to_ i.region_.from_
      let out := if s.which_parent then s.out ++ s.p1it.take sz else s.out ++ s.p2it.take sz
      match region_sample_iterator.next uid fuel_next i with
      | none => none
      | some i' =>
        crossover_loop uid fuel_next fuel i'
          { which_parent := !s.which_parent
            p1it := s.p1it.drop sz
            p2it := s.p2it.drop sz
            out := out }
    else
      some s

/-- Function `crossover(ncrossover_points, urbg_starting_parent, urbg_crossover_points, parent1,
parent2, out, copy_longer_range_tail)` of `beyond_project.hpp`, lines 548-611.
`bd g` is `std::bernoulli_distribution(0.5)(g)`, `uid a b g` is
`std::uniform_int_distribution<size_t>(a, b)(g)`. The result is everything written
through `out`, the argument `out` being what had been written before the call. -/
def crossover {G1 G2 α : Type} [BEq G2] (bd : G1 → Bool × G1)
    (uid : Nat → Nat → G2 → Nat × G2) (fuel : Nat) (ncrossover_points : Nat)
    (urbg_starting_parent : G1) (urbg_crossover_points : G2) (parent1 parent2 : List α)
    (out : List α) (copy_longer_range_tail : Bool) : Option (List α) :=
  let sz := min_range_size parent1 parent2
  let which_parent := (bd urbg_starting_parent).1
  match region_sample_iterator.ctor uid fuel urbg_crossover_points sz
      (size_add ncrossover_points 1) with
  | none => none
  | some i =>
    match crossover_loop uid fuel fuel i
        { which_parent := which_parent, p1it := parent1, p2it := parent2, out := out } with
    | none => none
    | some s =>
      if copy_longer_range_tail then
        if !s.which_parent then
          some (s.out ++ s.p1it)
        else
          some (s.out ++ s.p2it)
      else
        some s.out

end beyond_project

/-- The standard recursive edit distance, written after the specification:
`lev([], b) = |b|`, `lev(a, []) = |a|` and
`lev(x::a, y::b) = min(lev(a, y::b) + 1, lev(x::a, b) + 1, lev(a, b) + (0 if x = y else 1))`. -/
def lev {α : Type} [DecidableEq α] : List α → List α → Nat
  | [], b => b.length
  | x :: a, [] => (x :: a).length
  | x :: a, y :: b =>
    min (lev a (y :: b) + 1) (min (lev (x :: a) b + 1) (lev a b + (if x = y then 0 else 1)))
termination_by a b => a.length + b.length

/-- The sequence `a` is transformed into `b` by `n` single-element insertions, deletions
and substitutions, applied from left to right; an element that is kept costs nothing. -/
inductive Edits {α : Type} : List α → List α → Nat → Prop
  | done : Edits [] [] 0
  | keep (x : α) {a b : List α} {n : Nat} : Edits a b n → Edits (x :: a) (x :: b) n
  | substitute (x y : α) {a b : List α} {n : Nat} :
      Edits a b n → Edits (x :: a) (y :: b) (n + 1)
  | delete (x : α) {a b : List α} {n : Nat} : Edits a b n → Edits (x :: a) b (n + 1)
  | insert (y : α) {a b : List α} {n : Nat} : Edits a b n → Edits a (y :: b) (n + 1)

/-! ## Definitions used to state the properties -/

/-- A scratch row is right for the sequence `A` when it has `|b| + 1` entries and its
entry `k` is the distance from `A` to the first `k` elements of `b`. -/
def RowOK {α : Type} [DecidableEq α] (A b : List α) (row : List Nat) : Prop :=
  row.length = b.length + 1 ∧ ∀ k, k ≤ b.length → row.getD k 0 = lev A (b.take k)

/-- Contract of `std::uniform_int_distribution(a, b)`: every draw lies in `[a, b]`. -/
def InBounds {G : Type} (uid : Nat → Nat → G → Nat × G) : Prop :=
  ∀ a b g, a ≤ b → a ≤ (uid a b g).1 ∧ (uid a b g).1 ≤ b

/-- A randomness source that replays a fixed sequence of integer draws; a draw outside
of the requested bounds (or past the end of the sequence) is replaced by the lower
bound. -/
def scripted_uid (a b : Nat) : List Nat → Nat × List Nat
  | [] => (a, [])
  | d :: ds => (if a ≤ d ∧ d ≤ b then d else a, ds)

/-- A randomness source that replays a fixed sequence of coin flips. -/
def scripted_bd : List Bool → Bool × List Bool
  | [] => (false, [])
  | c :: cs => (c, cs)

/-- Invariant of a `region_sample_iterator` over a population of `n` that has not
reached the end: it holds a generator, `i_` and `num_in_pop_left_` move in step,
at most `num_in_pop_left_` regions are still to be found, and `i_` is ahead of `last_i_`. -/
structure IterInv {G : Type} (n : Nat) (it : beyond_project.region_sample_iterator G) : Prop where
  urbg : it.urbg_.isSome = true
  pop : it.pop_size_ = n
  left : it.i_ + it.num_in_pop_left_ = n + 1
  rid : it.region_.reverse_id ≤ it.num_in_pop_left_
  last : it.last_i_ < it.i_

/-- The regions `rs` are non-empty, each starts where the one before it stops, the first
starts at `c` and the last stops at `n` (no region at all when `c = n`). -/
def Partition : Nat → Nat → List beyond_project.region → Prop
  | c, n, [] => c = n
  | c, n, r :: rs => r.from_ = c ∧ c < r.to_ ∧ Partition r.to_ n rs

/-- Like `Partition`, but a region may be empty. -/
def Contiguous : Nat → Nat → List beyond_project.region → Prop
  | c, n, [] => c = n
  | c, n, r :: rs => r.from_ = c ∧ c ≤ r.to_ ∧ Contiguous r.to_ n rs

/-- What the loop of `crossover` does with a given list of regions. -/
def copy_regions {α : Type} : List beyond_project.region → beyond_project.crossover_state α →
    beyond_project.crossover_state α
  | [], s => s
  | r :: rs, s =>
    copy_regions rs
      { which_parent := !s.which_parent
        p1it := s.p1it.drop (beyond_project.size_sub r.to_ r.from_)
        p2it := s.p2it.drop (beyond_project.size_sub r.to_ r.from_)
        out := if s.which_parent then
            s.out ++ s.p1it.take (beyond_project.size_sub r.to_ r.from_)
          else
            s.out ++ s.p2it.take (beyond_project.size_sub r.to_ r.from_) }

/-- Every element of `child` is the element of `p1` or of `p2` at the same position. -/
def Mix {α : Type} (p1 p2 child : List α) : Prop :=
  ∀ (i : Nat) (v : α), child[i]? = some v → p1[i]? = some v ∨ p2[i]? = some v

/-! ## Mutation and the value-returning crossover of `project.hpp` -/

namespace project

/-- The loop `ranges::for_each(individual, ...)` of `mutate`, `project.hpp` lines 156-163.
`ud g` is `std::uniform_real_distribution<double>(0.0, 1.0)(g)`: the value drawn (the
doubles are taken as the rational numbers they denote, only `<` is applied to them) and
the advanced generator. The operator `m` may carry a state of its own (as `char_mutator`
does): `m s x` is the value returned by `m(x)` called in the state `s`, with the state
it leaves. The result is the individual after the loop, with the operator's state and
the generator. -/
def mutate_for_each {G S α : Type} (ud : G → ℚ × G) (rate : ℚ) (m : S → α → α × S) :
    List α → S → G → List α × S × G
  | [], s, urbg => ([], s, urbg)
  | element :: rest, s, urbg =>
    let draw := ud urbg
    if draw.1 < rate then
      let r := m s element
      let tl := mutate_for_each ud rate m rest r.2 draw.2
      (r.1 :: tl.1, tl.2)
    else
      let tl := mutate_for_each ud rate m rest s draw.2
      (element :: tl.1, tl.2)

/-- Function `mutate(individual, rate, m, urbg)` of `project.hpp`, lines 135-164. -/
def mutate {G S α : Type} (ud : G → ℚ × G) (individual : List α) (rate : ℚ)
    (m : S → α → α × S) (s : S) (urbg : G) : List α × S × G :=
  if individual.isEmpty then
    (individual, s, urbg)
  else
    mutate_for_each ud rate m individual s urbg

/-- Function `std::adjacent_difference(first, last, first)` after its first element:
every element is replaced by its difference (on `std::size_t`) with the element before
it, `prev`. -/
def adjacent_difference_from (prev : Nat) : List Nat → List Nat
  | [] => []
  | x :: xs => beyond_project.size_sub x prev :: adjacent_difference_from x xs

/-- Function `std::adjacent_difference(first, last, first)`: the first element is kept,
every other one is replaced by its difference with the element before it. -/
def adjacent_difference : List Nat → List Nat
  | [] => []
  | x :: xs => x :: adjacent_difference_from x xs

/-- State of `crossover` between two iterations of its loop: the flag `which_parent`,
the iterators `p1pos` and `p2pos`, and what has been written through `out`. -/
structure crossover_state (α : Type) where
  which_parent : Bool
  p1pos : List α
  p2pos : List α
  out : List α

/-- The loop `for (auto const& offset : crossover_offsets)` of `crossover`,
`project.hpp` lines 245-256. -/
def crossover_loop {α : Type} : List Nat → crossover_state α → crossover_state α
  | [], s => s
  | offset :: offsets, s =>
    crossover_loop offsets
      { which_parent := !s.which_parent
        p1pos := s.p1pos.drop offset
        p2pos := s.p2pos.drop offset
        out := if s.which_parent then s.out ++ s.p1pos.take offset
          else s.out ++ s.p2pos.take offset }

/-- Function `crossover(ncrossover_points, urbg_starting_parent, urbg_crossover_points,
parent1, parent2)` of `project.hpp`, lines 176-264. `bd g` is
`std::bernoulli_distribution(0.5)(g)`; `sample r n g` is
`std::ranges::sample(r, back_inserter(crossover_offsets), n, g)`: the elements selected
and the advanced generator. `reserve_ok n` tells whether the call
`reserve_or_noop(crossover_offsets, n)` of lines 216-217 returns: it is
`crossover_offsets.reserve(n)` (`utils.hpp` lines 26-31), which throws
`std::length_error` when `n > max_size()` and `std::bad_alloc` when the storage cannot be
obtained; `crossover` has no result then. The result is the child together with the
states in which the call leaves the two generators, which are passed by reference. The
vectors `crossover_indices` and `retval`, whose sizes are bounded by the sizes of the
parents, are taken to be allocated. -/
def crossover {G1 G2 α : Type} (bd : G1 → Bool × G1)
    (sample : List Nat → Nat → G2 → List Nat × G2) (reserve_ok : Nat → Bool)
    (ncrossover_points : Nat) (urbg_starting_parent : G1) (urbg_crossover_points : G2)
    (parent1 parent2 : List α) : Option (List α × G1 × G2) :=
  let psize_truncated := min2 parent1.length parent2.length
  let draw := bd urbg_starting_parent
  let which_parent := draw.1
  if psize_truncated = 0 ∨ ncrossover_points = 0 then
    some (if which_parent then parent1 else parent2, draw.2, urbg_crossover_points)
  else
    let crossover_indices := List.range' 1 (psize_truncated - 1)
    if reserve_ok ncrossover_points then
      let sampled := sample crossover_indices ncrossover_points urbg_crossover_points
      let crossover_offsets := adjacent_difference sampled.1
      let s := crossover_loop crossover_offsets
        { which_parent := which_parent, p1pos := parent1, p2pos := parent2, out := [] }
      some (if s.which_parent then s.out ++ s.p1pos else s.out ++ s.p2pos, draw.2, sampled.2)
    else
      none

end project

namespace project_sina

/-- Function `mutate(individual, rate, m, urbg)` of `project_sina.hpp`, lines 161-177:
the same loop as in `project.hpp`, without the test for an empty individual. -/
def mutate {G S α : Type} (ud : G → ℚ × G) (individual : List α) (rate : ℚ)
    (m : S → α → α × S) (s : S) (urbg : G) : List α × S × G :=
  project.mutate_for_each ud rate m individual s urbg

end project_sina

/-- Contract of `std::uniform_real_distribution<double>(0.0, 1.0)`: every draw lies in
`[0, 1)`. -/
def UnitDraws {G : Type} (ud : G → ℚ × G) : Prop :=
  ∀ g, 0 ≤ (ud g).1 ∧ (ud g).1 < 1

/-- Contract of `std::ranges::sample` on a range with forward iterators: it selects
`min(n, size)` elements and keeps them in their order. -/
def SampleOK {G : Type} (sample : List Nat → Nat → G → List Nat × G) : Prop :=
  ∀ r n g, List.Sublist (sample r n g).1 r ∧ (sample r n g).1.length = min n r.length

/-- A randomness source that replays a fixed sequence of real draws; a draw outside of
`[0, 1)` (or past the end of the sequence) is replaced by `0`. -/
def scripted_ud : List ℚ → ℚ × List ℚ
  | [] => (0, [])
  | d :: ds => (if 0 ≤ d ∧ d < 1 then d else 0, ds)

/-- A sampler that selects a window of consecutive elements, the window's position being
read from a sequence of numbers. -/
def scripted_sample (r : List Nat) (n : Nat) : List Nat → List Nat × List Nat
  | [] => (r.take n, [])
  | d :: ds => ((r.drop (d % (r.length - min n r.length + 1))).take n, ds)

/-- The outcome of `std::vector<std::size_t>::reserve(n)` in an environment where it
fails only by the test against `max_size()`: it returns when `n <= max_size()`. -/
def reserve_within (max_size n : Nat) : Bool := decide (n ≤ max_size)

/-- The generator after `k` draws of `ud`. -/
def after_draws {G : Type} (ud : G → ℚ × G) : Nat → G → G
  | 0, g => g
  | k + 1, g => after_draws ud k (ud g).2

/-- The operator `m` applied to every element in turn, its state being threaded from
one call to the next. -/
def map_op {S α : Type} (m : S → α → α × S) : List α → S → List α × S
  | [], s => ([], s)
  | x :: xs, s =>
    let r := m s x
    let tl := map_op m xs r.2
    (r.1 :: tl.1, tl.2)

/-! ## The probes of the region sampling iterator -/

/-- One iteration of the loop of `next()`, `beyond_project.hpp` lines 407-426 (the body
followed by `++i_`): whether the current position was accepted as a boundary (the loop
stops) and the state the iteration leaves. The loop `next_loop` repeats it
(`next_loop_succ`). -/
def probe {G : Type} (uid : Nat → Nat → G → Nat × G)
    (it : beyond_project.region_sample_iterator G) :
    Option (Bool × beyond_project.region_sample_iterator G) :=
  match it.urbg_ with
  | none => none
  | some g =>
    let num_in_pop_left := beyond_project.size_sub it.num_in_pop_left_ 1
    let draw := uid 0 num_in_pop_left g
    if draw.1 < it.region_.reverse_id then
      some (true,
        { urbg_ := some draw.2
          pop_size_ := it.pop_size_
          num_in_pop_left_ := num_in_pop_left
          last_i_ := it.i_
          i_ := it.i_ + 1
          region_ :=
            { reverse_id := beyond_project.size_sub it.region_.reverse_id 1
              id := if it.last_i_ > 0 then it.region_.id + 1 else it.region_.id
              from_ := it.last_i_
              to_ := if beyond_project.size_sub it.region_.reverse_id 1 > 0 then it.i_
                else it.pop_size_ } })
    else
      some (false,
        { urbg_ := some draw.2
          pop_size_ := it.pop_size_
          num_in_pop_left_ := num_in_pop_left
          last_i_ := it.last_i_
          i_ := it.i_ + 1
          region_ := it.region_ })

/-- The state set up by the member initialisers of the constructor, lines 442-451, in
which the constructor calls `next()` when `num_regions >= 2` (`ctor_eq_next`). -/
def ctor_init {G : Type} (urbg : G) (pop_size num_regions : Nat) :
    beyond_project.region_sample_iterator G :=
  { urbg_ := some urbg
    pop_size_ := pop_size
    num_in_pop_left_ := pop_size
    last_i_ := 0
    i_ := 1
    region_ :=
      { reverse_id := project.min2 num_regions pop_size, id := 0, from_ := 0, to_ := 0 } }

/-- The states in which a probe can start during the life of an iterator constructed
with `(urbg, pop_size, num_regions)`, `num_regions >= 2`, with the number of probes made
so far: the state set up by the constructor, and the state left by a probe that was
made in such a state with `reverse_id > 0` (with `reverse_id == 0` the next increment
makes no probe: it ends the iteration). -/
inductive ProbeReach {G : Type} (uid : Nat → Nat → G → Nat × G) (urbg : G)
    (pop_size num_regions : Nat) : Nat → beyond_project.region_sample_iterator G → Prop
  | start : ProbeReach uid urbg pop_size num_regions 0 (ctor_init urbg pop_size num_regions)
  | step {d : Nat} {it it' : beyond_project.region_sample_iterator G} {found : Bool} :
      ProbeReach uid urbg pop_size num_regions d it → 0 < it.region_.reverse_id →
      probe uid it = some (found, it') →
      ProbeReach uid urbg pop_size num_regions (d + 1) it'

/-! ## The variadic `min`, the sized branch of `min_range_size`, the crossover of
`project_sina.hpp`, and the rows of `levenshtein` between two iterations -/

namespace project

/-- The overload set `min(a)`, `min(a, b)`, `min(a, b, rest...)` of `project.hpp`,
lines 28-54, on a first argument and the list of the other arguments: `min(a)` is `a`,
`min(a, b)` is `(b < a) ? b : a`, and `min(a, b, rest...)` with a non-empty `rest` is
`min(min(a, b), rest...)`. The empty call `min()` is deleted. -/
def min {T : Type} [LinearOrder T] : T → List T → T
  | a, [] => a
  | a, [b] => if b < a then b else a
  | a, b :: c :: rest => min (if b < a then b else a) (c :: rest)

end project

namespace beyond_project

/-- The branch of `min_range_size(rs...)` for sized ranges, `beyond_project.hpp` lines
197-202, at two ranges: `min(size(r1), size(r2))` with the `min` of `project.hpp`. -/
def min_range_size_sized {α : Type} (r1 r2 : List α) : Nat :=
  project.min2 r1.length r2.length

end beyond_project

namespace project_sina

/-- An iterator into one of the two parents of `crossover`: the parent it points into
(the parents are two distinct objects) and its offset from the beginning. -/
structure parent_iterator where
  in_parent2 : Bool
  index : Nat
deriving DecidableEq, Repr

/-- The call `std::generate(begin(crossover_indices), end(crossover_indices), ...)` of
`crossover`, `project_sina.hpp` lines 205-208: `n` draws of
`std::uniform_int_distribution<std::size_t>{0, psize}`, in order. -/
def generate {G : Type} (uid : Nat → Nat → G → Nat × G) (psize : Nat) :
    Nat → G → List Nat × G
  | 0, g => ([], g)
  | n + 1, g =>
    let draw := uid 0 psize g
    let tl := generate uid psize n draw.2
    (draw.1 :: tl.1, tl.2)

/-- The loop `for (std::size_t i = 0; i < psize; ++i, ++it_parent)` of `crossover`,
`project_sina.hpp` lines 221-232. The first argument counts the iterations that remain
(`psize - i`); `next_crossover_point` is the part of the sorted `crossover_indices` from
the iterator of that name on; dereferencing an iterator outside of its parent has no
result. -/
def crossover_loop {α : Type} [DecidableEq α] (parent1 parent2 : List α)
    (start_in_parent2 : Bool) :
    Nat → Nat → parent_iterator → List Nat → List α → Option (List α)
  | 0, _, _, _, retval => some retval
  | n + 1, i, it_parent, next_crossover_point, retval =>
    let starting_parent := if start_in_parent2 then parent2 else parent1
    if it_parent = { in_parent2 := start_in_parent2, index := starting_parent.length } then
      let it_parent : parent_iterator :=
        { in_parent2 := decide (starting_parent = parent1), index := 0 }
      match (if it_parent.in_parent2 then parent2 else parent1)[it_parent.index]? with
      | none => none
      | some v =>
        crossover_loop parent1 parent2 start_in_parent2 n (i + 1)
          { in_parent2 := it_parent.in_parent2, index := it_parent.index + 1 }
          next_crossover_point (retval ++ [v])
    else
      let crossed : Bool :=
        match next_crossover_point with
        | [] => false
        | cp :: _ => decide (i = cp)
      let it_parent : parent_iterator :=
        if crossed then
          { in_parent2 := decide (it_parent = { in_parent2 := start_in_parent2, index := 0 })
            index := 0 }
        else it_parent
      let next_crossover_point :=
        if crossed then next_crossover_point.tail else next_crossover_point
      match (if it_parent.in_parent2 then parent2 else parent1)[it_parent.index]? with
      | none => none
      | some v =>
        crossover_loop parent1 parent2 start_in_parent2 n (i + 1)
          { in_parent2 := it_parent.in_parent2, index := it_parent.index + 1 }
          next_crossover_point (retval ++ [v])

/-- Function `crossover(ncrossover_points, urbg_starting_parent, urbg_crossover_points,
parent1, parent2)` of `project_sina.hpp`, lines 184-236. `uid1 a b g` and `uid2 a b g` are
`std::uniform_int_distribution<std::size_t>(a, b)(g)` on the two generators. -/
def crossover {G1 G2 α : Type} [DecidableEq α] (uid1 : Nat → Nat → G1 → Nat × G1)
    (uid2 : Nat → Nat → G2 → Nat × G2) (ncrossover_points : Nat)
    (urbg_starting_parent : G1) (urbg_crossover_points : G2) (parent1 parent2 : List α) :
    Option (List α) :=
  let psize := Nat.min parent1.length parent2.length
  let crossover_indices :=
    (generate uid2 psize ncrossover_points urbg_crossover_points).1
  let crossover_indices := List.insertionSort (fun a b => a ≤ b) crossover_indices
  let start_in_parent2 := !decide ((uid1 0 1 urbg_starting_parent).1 = 0)
  crossover_loop parent1 parent2 start_in_parent2 psize 0
    { in_parent2 := start_in_parent2, index := 0 } crossover_indices []

end project_sina

/-- The two rows of `levenshtein` (`beyond_project.hpp`) after the outer loop has
processed the given elements of `a`, started in the rows `prev_row`, `cur_row` with the
counter `i_dist_plus_one`: what `levenshtein_outer` does, keeping both rows
(`outer_eq_rows_after`, `rows_after_append`). -/
def rows_after {α : Type} [DecidableEq α] (b : List α) :
    List α → Nat → List Nat → List Nat → List Nat × List Nat
  | [], _, prev_row, cur_row => (prev_row, cur_row)
  | ai :: as, i_dist_plus_one, prev_row, cur_row =>
    rows_after b as (i_dist_plus_one + 1)
      (beyond_project.levenshtein_inner ai prev_row b 0 (cur_row.set 0 i_dist_plus_one))
      prev_row

/-- The two rows of `levenshtein(a, b)` after the outer loop has processed the first `i`
elements of `a`, from the rows set up at lines 282-285. -/
def rows_at {α : Type} [DecidableEq α] (a b : List α) (i : Nat) : List Nat × List Nat :=
  rows_after b (a.take i) 1 (List.range (beyond_project.range_size b + 1))
    (List.replicate (beyond_project.range_size b + 1) 0)

/-! ## The edit distance over an element type with its own `operator!=` -/

namespace beyond_project

/-- Inner loop over `j` of `beyond_project.hpp`, lines 294-304, for an element type whose
`operator!=` is `ne`: `*i != *j` is `ne ai bj`, converted to `std::size_t`. -/
def levenshtein_inner_by {α : Type} (ne : α → α → Bool) (ai : α) (prev_row : List Nat) :
    List α → Nat → List Nat → List Nat
  | [], _, cur_row => cur_row
  | bj :: bs, j, cur_row =>
    let insert_cost := cur_row.getD j 0 + 1
    let subst_cost := prev_row.getD j 0 + (if ne ai bj then 1 else 0)
    let del_cost := prev_row.getD (j + 1) 0 + 1
    levenshtein_inner_by ne ai prev_row bs (j + 1)
      (cur_row.set (j + 1) (project.min3 del_cost insert_cost subst_cost))

/-- Outer loop over `i` of `beyond_project.hpp`, lines 287-307, for an element type whose
`operator!=` is `ne`. -/
def levenshtein_outer_by {α : Type} (ne : α → α → Bool) (b : List α) :
    List α → Nat → List Nat → List Nat → List Nat
  | [], _, prev_row, _ => prev_row
  | ai :: as, i_dist_plus_one, prev_row, cur_row =>
    let cur_row := cur_row.set 0 i_dist_plus_one
    let cur_row := levenshtein_inner_by ne ai prev_row b 0 cur_row
    levenshtein_outer_by ne b as (i_dist_plus_one + 1) cur_row prev_row

/-- Function `levenshtein(a, b)` of `beyond_project.hpp`, lines 252-309, for an element
type whose `operator!=` is `ne`. The template constrains the element type only by
`std::same_as` on the two value types, so `ne` need not be the negation of an equality
(on `double`, `NaN != NaN` is true); `levenshtein` above is the instance where `ne` is
the inequality of a type with decidable equality (`levenshtein_by_decide`). -/
def levenshtein_by {α : Type} (ne : α → α → Bool) (a b : List α) : Nat :=
  let bsize := range_size b
  let prev_row := List.range (bsize + 1)
  let cur_row := List.replicate (bsize + 1) 0
  (levenshtein_outer_by ne b a 1 prev_row cur_row).getLastD 0

end beyond_project

/-- Values of the type `double` that suffice here: the doubles that are integers, and a
NaN. -/
inductive double_value where
  | of_int : Int → double_value
  | nan : double_value
deriving DecidableEq, Repr

/-- The comparison `x != y` of `double`: a NaN differs from every value, itself
included. -/
def double_ne : double_value → double_value → Bool
  | double_value.of_int x, double_value.of_int y => decide (x ≠ y)
  | _, _ => true

/-! ## Edit distance: the recursive definition and its "last element" recurrence -/

section EditDistance

variable {α : Type} [DecidableEq α]

theorem lev_nil_left (b : List α) : lev [] b = b.length := by
  rw [lev]

theorem lev_nil_right (a : List α) : lev a [] = a.length := by
  cases a with
  | nil => rw [lev]
  | cons x a => rw [lev]

theorem lev_cons_cons (x y : α) (a b : List α) :
    lev (x :: a) (y :: b)
      = min (lev a (y :: b) + 1)
          (min (lev (x :: a) b + 1) (lev a b + (if x = y then 0 else 1))) := by
  rw [lev]

/-- The recurrence of `lev` on the last elements of both sequences: this is the form
in which the two-row dynamic programme computes the distance. -/
theorem lev_snoc_snoc (x y : α) (a b : List α) :
    lev (a ++ [x]) (b ++ [y])
      = min (lev a (b ++ [y]) + 1)
          (min (lev (a ++ [x]) b + 1) (lev a b + (if x = y then 0 else 1))) := by
  induction a generalizing b with
  | nil =>
    induction b with
    | nil => simp [lev_cons_cons, lev_nil_left, lev_nil_right]
    | cons y' b' ihb =>
      have h1 := ihb
      simp only [List.nil_append, List.cons_append] at h1 ⊢
      rw [lev_cons_cons x y' [] (b' ++ [y]), h1, lev_cons_cons x y' [] b']
      simp only [lev_nil_left, List.length_cons, List.length_append, List.length_nil]
      generalize (if x = y then 0 else 1) = c
      generalize (if x = y' then 0 else 1) = c'
      generalize lev [x] b' = t
      omega
  | cons x' a' iha =>
    induction b with
    | nil =>
      have h1 := iha []
      simp only [List.nil_append, List.cons_append] at h1 ⊢
      rw [lev_cons_cons x' y (a' ++ [x]) [], h1, lev_cons_cons x' y a' []]
      simp only [lev_nil_right, List.length_cons, List.length_append, List.length_nil]
      generalize (if x = y then 0 else 1) = c
      generalize (if x' = y then 0 else 1) = c'
      generalize lev a' [y] = t
      omega
    | cons y' b' ihb =>
      have h1 := iha (y' :: b')
      have h2 := iha b'
      have h3 := ihb
      simp only [List.cons_append] at h1 h2 h3 ⊢
      rw [lev_cons_cons x' y' (a' ++ [x]) (b' ++ [y]), h1, h2, h3,
        lev_cons_cons x' y' a' (b' ++ [y]), lev_cons_cons x' y' (a' ++ [x]) b',
        lev_cons_cons x' y' a' b']
      generalize (if x = y then 0 else 1) = c
      generalize (if x' = y' then 0 else 1) = c'
      simp only [← min_add_add_right]
      ac_rfl

theorem min3_eq_min (a b c : Nat) : project.min3 a b c = min (min a b) c := by
  unfold project.min3 project.min2
  split <;> split <;> omega

omit [DecidableEq α] in
theorem range_size_eq_length (r : List α) : beyond_project.range_size r = r.length := by
  induction r with
  | nil => rfl
  | cons x r ih => simp [beyond_project.range_size, ih]

theorem rowOK_iota (b : List α) : RowOK [] b (List.range (b.length + 1)) := by
  refine ⟨by simp, ?_⟩
  intro k hk
  rw [lev_nil_left, List.getD_eq_getElem?_getD, List.getElem?_range (by omega)]
  simp [hk]

theorem rowOK_back {A b : List α} {row : List Nat} (h : RowOK A b row) :
    row.getLastD 0 = lev A b := by
  obtain ⟨hlen, hrow⟩ := h
  have hne : row ≠ [] := by
    intro h0
    rw [h0] at hlen
    simp at hlen
  have h1 := hrow b.length (le_refl _)
  rw [List.take_length] at h1
  rw [← h1, List.getLastD_eq_getLast?, List.getLast?_eq_getElem?, hlen,
    List.getD_eq_getElem?_getD]
  simp

theorem inner_spec (A : List α) (ai : α) (prev : List Nat) (b : List α)
    (hprev : RowOK A b prev) :
    ∀ (bs : List α) (j : Nat) (cur : List Nat), b.drop j = bs →
      cur.length = b.length + 1 →
      (∀ k, k ≤ j → cur.getD k 0 = lev (A ++ [ai]) (b.take k)) →
      RowOK (A ++ [ai]) b (beyond_project.levenshtein_inner ai prev bs j cur) := by
  intro bs
  induction bs with
  | nil =>
    intro j cur hdrop hlen hcur
    have hj : b.length ≤ j := by
      have := congrArg List.length hdrop
      simp at this
      omega
    exact ⟨hlen, fun k hk => hcur k (by omega)⟩
  | cons bj bs ih =>
    intro j cur hdrop hlen hcur
    have hj : j < b.length := by
      have := congrArg List.length hdrop
      simp at this
      omega
    have hbj : b[j] = bj := by
      have h1 := List.drop_eq_getElem_cons hj
      rw [hdrop] at h1
      exact (List.cons.inj h1).1.symm
    have hdrop1 : b.drop (j + 1) = bs := by
      have h1 := List.drop_eq_getElem_cons hj
      rw [hdrop] at h1
      exact (List.cons.inj h1).2.symm
    have htake : b.take (j + 1) = b.take j ++ [bj] := by
      rw [List.take_succ, List.getElem?_eq_getElem hj, hbj]
      rfl
    unfold beyond_project.levenshtein_inner
    apply ih (j + 1) _ hdrop1 (by simpa using hlen)
    intro k hk
    rcases Nat.lt_or_ge k (j + 1) with hlt | hge
    · have hne : j + 1 ≠ k := by omega
      rw [List.getD_eq_getElem?_getD, List.getElem?_set_ne hne,
        ← List.getD_eq_getElem?_getD]
      exact hcur k (by omega)
    · have hk1 : k = j + 1 := by omega
      subst hk1
      rw [List.getD_eq_getElem?_getD, List.getElem?_set_self (by omega)]
      simp only [Option.getD_some]
      rw [hprev.2 (j + 1) (by omega), hprev.2 j (by omega), hcur j (le_refl _), htake,
        lev_snoc_snoc, min3_eq_min]
      simp only [ne_eq, ite_not, min_assoc]

theorem outer_spec (b : List α) :
    ∀ (as A : List α) (i1 : Nat) (prev cur : List Nat), i1 = A.length + 1 →
      RowOK A b prev → cur.length = b.length + 1 →
      RowOK (A ++ as) b (beyond_project.levenshtein_outer b as i1 prev cur) := by
  intro as
  induction as with
  | nil =>
    intro A i1 prev cur _ hprev _
    simpa [beyond_project.levenshtein_outer] using hprev
  | cons ai as ih =>
    intro A i1 prev cur hi hprev hcur
    unfold beyond_project.levenshtein_outer
    have hrow : RowOK (A ++ [ai]) b
        (beyond_project.levenshtein_inner ai prev b 0 (cur.set 0 i1)) := by
      apply inner_spec A ai prev b hprev b 0 _ (by simp) (by simpa using hcur)
      intro k hk
      have hk0 : k = 0 := by omega
      subst hk0
      rw [List.getD_eq_getElem?_getD, List.getElem?_set_self (by omega)]
      simp [lev_nil_right, hi]
    have := ih (A ++ [ai]) (i1 + 1) _ prev (by simp [hi]) hrow hprev.1
    simpa using this

/-- The forward-range `levenshtein` of `beyond_project.hpp` computes `lev`. -/
theorem beyond_levenshtein_eq_lev (a b : List α) :
    beyond_project.levenshtein a b = lev a b := by
  unfold beyond_project.levenshtein
  simp only [range_size_eq_length]
  have h := outer_spec b a [] 1 (List.range (b.length + 1))
    (List.replicate (b.length + 1) 0) (by simp) (rowOK_iota b) (by simp)
  simpa using rowOK_back h

theorem project_inner_eq (a b : List α) (i : Nat) (ai : α) (hai : a[i]? = some ai)
    (prev : List Nat) :
    ∀ (n j : Nat) (cur : List Nat), j + n = b.length →
      project.levenshtein_inner a b i prev n j cur
        = beyond_project.levenshtein_inner ai prev (b.drop j) j cur := by
  intro n
  induction n with
  | zero =>
    intro j cur hj
    rw [List.drop_eq_nil_of_le (by omega)]
    rfl
  | succ n ih =>
    intro j cur hj
    have hlt : j < b.length := by omega
    rw [List.drop_eq_getElem_cons hlt]
    unfold project.levenshtein_inner beyond_project.levenshtein_inner
    rw [ih (j + 1) _ (by omega), hai, List.getElem?_eq_getElem hlt]
    simp only [Option.some.injEq, ne_eq, ite_not]

theorem project_outer_eq (a b : List α) :
    ∀ (n i : Nat) (prev cur : List Nat), i + n = a.length →
      project.levenshtein_outer a b b.length n i prev cur
        = beyond_project.levenshtein_outer b (a.drop i) (i + 1) prev cur := by
  intro n
  induction n with
  | zero =>
    intro i prev cur hi
    rw [List.drop_eq_nil_of_le (by omega)]
    rfl
  | succ n ih =>
    intro i prev cur hi
    have hlt : i < a.length := by omega
    rw [List.drop_eq_getElem_cons hlt]
    unfold project.levenshtein_outer beyond_project.levenshtein_outer
    simp only
    rw [project_inner_eq a b i a[i] (List.getElem?_eq_getElem hlt) prev b.length 0 _
      (by simp), ih (i + 1) _ _ (by omega)]
    rfl

/-- The random-access `levenshtein` of `project.hpp` computes `lev`. -/
theorem project_levenshtein_eq_lev (a b : List α) : project.levenshtein a b = lev a b := by
  rw [← beyond_levenshtein_eq_lev]
  unfold project.levenshtein beyond_project.levenshtein
  simp only [range_size_eq_length]
  rw [project_outer_eq a b a.length 0 _ _ (by simp)]
  rfl

theorem lev_comm (a b : List α) : lev a b = lev b a := by
  induction a generalizing b with
  | nil => rw [lev_nil_left, lev_nil_right]
  | cons x a iha =>
    induction b with
    | nil => rw [lev_nil_left, lev_nil_right]
    | cons y b ihb =>
      rw [lev_cons_cons, lev_cons_cons, iha (y :: b), ihb, iha b]
      have hc : (if x = y then 0 else 1) = (if y = x then 0 else 1) := by
        simp only [eq_comm]
      rw [hc]
      ac_rfl

theorem lev_self (a : List α) : lev a a = 0 := by
  induction a with
  | nil => rw [lev_nil_left]; rfl
  | cons x a ih => rw [lev_cons_cons, ih]; simp

theorem lev_cons_left_le (x : α) (a b : List α) : lev (x :: a) b ≤ lev a b + 1 := by
  cases b with
  | nil => simp [lev_nil_right]
  | cons y b =>
    rw [lev_cons_cons]
    exact min_le_left _ _

theorem lev_cons_right_le (y : α) (a b : List α) : lev a (y :: b) ≤ lev a b + 1 := by
  cases a with
  | nil => simp [lev_nil_left]
  | cons x a =>
    rw [lev_cons_cons]
    exact le_trans (min_le_right _ _) (min_le_left _ _)

/-- No sequence of edits from `a` to `b` is shorter than `lev a b`. -/
theorem lev_le_of_edits {a b : List α} {n : Nat} (h : Edits a b n) : lev a b ≤ n := by
  induction h with
  | done => simp [lev_nil_left]
  | keep x _ ih =>
    rw [lev_cons_cons]
    simp only [if_true, Nat.add_zero]
    exact le_trans (le_trans (min_le_right _ _) (min_le_right _ _)) ih
  | substitute x y _ ih =>
    rw [lev_cons_cons]
    refine le_trans (le_trans (min_le_right _ _) (min_le_right _ _)) ?_
    split <;> omega
  | delete x _ ih => exact le_trans (lev_cons_left_le x _ _) (by omega)
  | insert y _ ih => exact le_trans (lev_cons_right_le y _ _) (by omega)

/-- Some sequence of edits from `a` to `b` has exactly `lev a b` edits. -/
theorem edits_lev (a b : List α) : Edits a b (lev a b) := by
  induction a generalizing b with
  | nil =>
    induction b with
    | nil =>
      rw [lev_nil_left]
      exact Edits.done
    | cons y b ih =>
      rw [lev_nil_left] at ih ⊢
      exact Edits.insert y ih
  | cons x a iha =>
    induction b with
    | nil =>
      have h := iha []
      rw [lev_nil_right] at h ⊢
      exact Edits.delete x h
    | cons y b ihb =>
      have hA := Edits.delete x (iha (y :: b))
      have hB := Edits.insert y ihb
      have hC : Edits (x :: a) (y :: b) (lev a b + (if x = y then 0 else 1)) := by
        by_cases hxy : x = y
        · subst hxy
          simpa using Edits.keep x (iha b)
        · simpa [hxy] using Edits.substitute x y (iha b)
      rw [lev_cons_cons]
      rcases min_choice (lev a (y :: b) + 1)
        (min (lev (x :: a) b + 1) (lev a b + (if x = y then 0 else 1))) with h | h
      · rw [h]; exact hA
      · rw [h]
        rcases min_choice (lev (x :: a) b + 1) (lev a b + (if x = y then 0 else 1)) with h' | h'
        · rw [h']; exact hB
        · rw [h']; exact hC

end EditDistance

/-! ## Claims on the edit distance -/

/-- C1. For all finite sequences `a` and `b` over a type with decidable equality,
`levenshtein(a, b)`, in the forward-range variant of `beyond_project.hpp` and in the
random-access variant of `project.hpp`, equals the standard recursive edit distance
`lev` (`lev([], b) = |b|`, `lev(a, []) = |a|`,
`lev(x::a, y::b) = min(lev(a, y::b) + 1, lev(x::a, b) + 1, lev(a, b) + [x ≠ y])`),
which is the minimum number of single-element insertions, deletions and substitutions
that transform `a` into `b`: some sequence of edits has that length and none is
shorter. -/
theorem levenshtein_eq_edit_distance {α : Type} [DecidableEq α] (a b : List α) :
    beyond_project.levenshtein a b = lev a b ∧ project.levenshtein a b = lev a b ∧
      Edits a b (lev a b) ∧ ∀ n, Edits a b n → lev a b ≤ n :=
  ⟨beyond_levenshtein_eq_lev a b, project_levenshtein_eq_lev a b, edits_lev a b,
    fun _ h => lev_le_of_edits h⟩

/-- C2. `levenshtein(a, b) == levenshtein(b, a)` for all finite sequences `a`, `b`,
although the rows are sized by `b` and the outer loop runs over `a`. -/
theorem levenshtein_symmetric {α : Type} [DecidableEq α] (a b : List α) :
    beyond_project.levenshtein a b = beyond_project.levenshtein b a := by
  rw [beyond_levenshtein_eq_lev, beyond_levenshtein_eq_lev, lev_comm]

/-! ## The region sampling iterator -/

section Regions

open beyond_project beyond_project.region_sample_iterator

variable {G : Type}

theorem next_loop_spec (uid : Nat → Nat → G → Nat × G) (hb : InBounds uid) (n : Nat) :
    ∀ (fuel : Nat) (it : region_sample_iterator G), IterInv n it →
      0 < it.region_.reverse_id → it.num_in_pop_left_ ≤ fuel →
      ∃ it', next_loop uid fuel it = some it' ∧ IterInv n it' ∧
        it'.region_.reverse_id + 1 = it.region_.reverse_id ∧
        it'.region_.from_ = it.last_i_ ∧
        it'.region_.to_ = (if 0 < it'.region_.reverse_id then it'.last_i_ else n) ∧
        it.last_i_ < it'.last_i_ ∧ it'.last_i_ ≤ n ∧
        it'.region_.id = (if 0 < it.last_i_ then it.region_.id + 1 else it.region_.id) := by
  intro fuel
  induction fuel with
  | zero =>
    intro it hinv hrid hfuel
    have := hinv.rid
    omega
  | succ fuel ih =>
    intro it hinv hrid hfuel
    obtain ⟨hu, hpop, hleft, hr, hlast⟩ := hinv
    rcases hg : it.urbg_ with _ | g
    · rw [hg] at hu
      simp at hu
    · have hdec : size_sub it.num_in_pop_left_ 1 = it.num_in_pop_left_ - 1 := by
        unfold size_sub
        rw [if_pos (by omega)]
      have hdec' : size_sub it.region_.reverse_id 1 = it.region_.reverse_id - 1 := by
        unfold size_sub
        rw [if_pos (by omega)]
      have hdraw := (hb 0 (it.num_in_pop_left_ - 1) g (Nat.zero_le _)).2
      unfold next_loop
      simp only [hg, hdec, hdec']
      by_cases hacc : (uid 0 (it.num_in_pop_left_ - 1) g).1 < it.region_.reverse_id
      · rw [if_pos hacc]
        refine ⟨_, rfl, ⟨rfl, hpop, ?_, ?_, ?_⟩, ?_, rfl, ?_, ?_, ?_, ?_⟩
        · show it.i_ + 1 + (it.num_in_pop_left_ - 1) = n + 1
          omega
        · show it.region_.reverse_id - 1 ≤ it.num_in_pop_left_ - 1
          omega
        · show it.i_ < it.i_ + 1
          omega
        · show it.region_.reverse_id - 1 + 1 = it.region_.reverse_id
          omega
        · show (if it.region_.reverse_id - 1 > 0 then it.i_ else it.pop_size_)
            = (if 0 < it.region_.reverse_id - 1 then it.i_ else n)
          rw [hpop]
        · exact hlast
        · show it.i_ ≤ n
          omega
        · rfl
      · rw [if_neg hacc]
        have hinv1 : IterInv n
            { urbg_ := some (uid 0 (it.num_in_pop_left_ - 1) g).2
              pop_size_ := it.pop_size_
              num_in_pop_left_ := it.num_in_pop_left_ - 1
              last_i_ := it.last_i_
              i_ := it.i_ + 1
              region_ := it.region_ } := by
          refine ⟨rfl, hpop, ?_, ?_, ?_⟩
          · show it.i_ + 1 + (it.num_in_pop_left_ - 1) = n + 1
            omega
          · show it.region_.reverse_id ≤ it.num_in_pop_left_ - 1
            omega
          · show it.last_i_ < it.i_ + 1
            omega
        obtain ⟨it', h1, h2, h3, h4, h5, h6, h7, h8⟩ := ih _ hinv1 hrid (by
          show it.num_in_pop_left_ - 1 ≤ fuel
          omega)
        exact ⟨it', h1, h2, h3, h4, h5, h6, h7, h8⟩

theorem operator_ne_end [BEq G] (it : region_sample_iterator G) :
    operator_ne it (default_ctor G) = it.urbg_.isSome := by
  unfold operator_ne operator_eq default_ctor
  cases it.urbg_ <;> simp

theorem min2_eq_min (a b : Nat) : project.min2 a b = min a b := by
  unfold project.min2
  split <;> omega

theorem partition_contiguous :
    ∀ (rs : List region) (c n : Nat), Partition c n rs → Contiguous c n rs := by
  intro rs
  induction rs with
  | nil => intro c n h; exact h
  | cons r rs ih =>
    intro c n h
    exact ⟨h.1, Nat.le_of_lt h.2.1, ih _ _ h.2.2⟩

/-- An iterator on its last region: the traversal visits this region and stops. -/
theorem traverse_last [BEq G] (uid : Nat → Nat → G → Nat × G) (fuel_next fuel : Nat)
    (it : region_sample_iterator G) (hu : it.urbg_.isSome = true)
    (hrid : it.region_.reverse_id = 0) (hfuel : 2 ≤ fuel) :
    traverse uid fuel_next fuel it = some [it.region_] := by
  obtain ⟨f, rfl⟩ : ∃ f, fuel = f + 2 := ⟨fuel - 2, by omega⟩
  have hend : operator_ne ({ it with urbg_ := none } : region_sample_iterator G)
      (default_ctor G) = false := by
    rw [operator_ne_end]
    rfl
  simp only [region_sample_iterator.traverse, operator_ne_end, hu, next, hrid, if_true, hend]
  simp

theorem traverse_spec [BEq G] (uid : Nat → Nat → G → Nat × G) (hb : InBounds uid)
    (n fuel_next : Nat) (hfn : n ≤ fuel_next) :
    ∀ (rid fuel : Nat) (it : region_sample_iterator G), IterInv n it →
      it.region_.reverse_id = rid → rid + 2 ≤ fuel →
      it.region_.from_ < it.region_.to_ →
      it.region_.to_ = (if 0 < rid then it.last_i_ else n) →
      ∃ rs, traverse uid fuel_next fuel it = some rs ∧
        Partition it.region_.from_ n rs ∧ rs.length = rid + 1 := by
  intro rid
  induction rid with
  | zero =>
    intro fuel it hinv hrid hfuel hlt hto
    refine ⟨[it.region_], traverse_last uid fuel_next fuel it hinv.urbg hrid (by omega), ?_, rfl⟩
    exact ⟨rfl, hlt, by simpa using hto⟩
  | succ r ih =>
    intro fuel it hinv hrid hfuel hlt hto
    obtain ⟨f, rfl⟩ : ∃ f, fuel = f + 1 := ⟨fuel - 1, by omega⟩
    have hleft := hinv.left
    have hr := hinv.rid
    have hlast := hinv.last
    obtain ⟨it', h1, h2, h3, h4, h5, h6, h7, _⟩ :=
      next_loop_spec uid hb n fuel_next it hinv (by omega) (by omega)
    have hrid' : it'.region_.reverse_id = r := by omega
    have hto' : it.region_.to_ = it.last_i_ := by simpa using hto
    obtain ⟨rs, hrs, hpart, hlen⟩ := ih f it' h2 hrid' (by omega)
      (by
        rw [h4, h5]
        split <;> omega)
      (by rw [h5, hrid'])
    refine ⟨it.region_ :: rs, ?_, ⟨rfl, hlt, ?_⟩, by simp [hlen]⟩
    · have hne : ¬ it.region_.reverse_id = 0 := by omega
      simp only [region_sample_iterator.traverse, operator_ne_end, hinv.urbg, next, hne, if_true, if_false, h1, hrs]
    · rw [hto', ← h4]
      exact hpart

/-- What one construction and full traversal visits, for every population size and
every requested number of regions. -/
theorem regions_spec [BEq G] (uid : Nat → Nat → G → Nat × G) (hb : InBounds uid)
    (fuel : Nat) (g : G) (n k : Nat) (hfuel : n + 2 ≤ fuel) :
    ∃ rs, regions uid fuel g n k = some rs ∧
      rs.length = (if k ≤ 1 then 1 else min k n) ∧
      Contiguous 0 (if k = 0 then 0 else n) rs ∧
      (1 ≤ k → 0 < n → Partition 0 n rs) := by
  by_cases hk0 : k = 0
  · subst hk0
    refine ⟨[⟨0, 0, 0, 0⟩], ?_, by simp, ⟨rfl, le_refl _, rfl⟩, by omega⟩
    simp only [regions, ctor, if_true]
    exact traverse_last uid fuel fuel _ rfl rfl (by omega)
  by_cases hk1 : k ≤ 1
  · refine ⟨[⟨0, 0, 0, n⟩], ?_, by simp [hk1], ?_, ?_⟩
    · simp only [regions, ctor, if_neg hk0, if_pos hk1]
      exact traverse_last uid fuel fuel _ rfl rfl (by omega)
    · rw [if_neg hk0]
      exact ⟨rfl, Nat.zero_le _, rfl⟩
    · intro _ hn
      exact ⟨rfl, hn, rfl⟩
  by_cases hn : n = 0
  · subst hn
    refine ⟨[], ?_, by simp [hk1], by simp [hk0, Contiguous], fun _ h => absurd h (by omega)⟩
    obtain ⟨f, rfl⟩ : ∃ f, fuel = f + 1 := ⟨fuel - 1, by omega⟩
    simp only [regions, ctor, if_neg hk0, if_neg hk1, next, min2_eq_min, Nat.min_zero,
      if_true, region_sample_iterator.traverse, operator_ne_end]
    simp
  · have hinv0 : IterInv n
        ({ urbg_ := some g
           pop_size_ := n
           num_in_pop_left_ := n
           last_i_ := 0
           i_ := 1
           region_ := { reverse_id := project.min2 k n, id := 0, from_ := 0, to_ := 0 } } :
          region_sample_iterator G) := by
      refine ⟨rfl, rfl, ?_, ?_, ?_⟩
      · show 1 + n = n + 1
        omega
      · show project.min2 k n ≤ n
        rw [min2_eq_min]
        omega
      · show 0 < 1
        omega
    have hpos : 0 < project.min2 k n := by
      rw [min2_eq_min]
      omega
    obtain ⟨it', h1, h2, h3, h4, h5, h6, h7, _⟩ :=
      next_loop_spec uid hb n fuel _ hinv0 hpos (by show n ≤ fuel; omega)
    have h3' : it'.region_.reverse_id + 1 = min k n := by
      rw [← min2_eq_min]
      exact h3
    have h4' : it'.region_.from_ = 0 := h4
    obtain ⟨rs, hrs, hpart, hlen⟩ := traverse_spec uid hb n fuel (by omega)
      it'.region_.reverse_id fuel it' h2 rfl (by omega)
      (by
        rw [h4', h5]
        have h6' : 0 < it'.last_i_ := h6
        split <;> omega)
      h5
    rw [h4'] at hpart
    refine ⟨rs, ?_, ?_, ?_, fun _ _ => hpart⟩
    · have hne : ¬ project.min2 k n = 0 := by omega
      simp only [regions, ctor, if_neg hk0, if_neg hk1, next, hne, if_false, h1, hrs]
    · rw [hlen, if_neg hk1, ← h3']
    · rw [if_neg hk0]
      exact partition_contiguous _ _ _ hpart

theorem partition_le : ∀ (rs : List region) (c n : Nat), Partition c n rs → c ≤ n := by
  intro rs
  induction rs with
  | nil => intro c n h; exact Nat.le_of_eq h
  | cons r rs ih =>
    intro c n h
    have := ih _ _ h.2.2
    have := h.2.1
    omega

theorem partition_mem : ∀ (rs : List region) (c n : Nat), Partition c n rs →
    ∀ r ∈ rs, c ≤ r.from_ ∧ r.from_ < r.to_ ∧ r.to_ ≤ n := by
  intro rs
  induction rs with
  | nil => intro c n _ r hr; simp at hr
  | cons r0 rs ih =>
    intro c n h r hr
    obtain ⟨h1, h2, h3⟩ := h
    rcases List.mem_cons.1 hr with rfl | hmem
    · exact ⟨Nat.le_of_eq h1.symm, by omega, partition_le _ _ _ h3⟩
    · have := ih _ _ h3 r hmem
      omega

theorem partition_chain : ∀ (rs : List region) (c n : Nat), Partition c n rs →
    List.Chain' (fun r s => s.from_ = r.to_) rs := by
  intro rs
  induction rs with
  | nil => intro c n _; exact List.chain'_nil
  | cons r0 rs ih =>
    intro c n h
    rw [List.chain'_cons']
    refine ⟨?_, ih _ _ h.2.2⟩
    intro s hs
    cases rs with
    | nil => simp at hs
    | cons r1 rs =>
      simp only [List.head?_cons, Option.mem_def, Option.some.injEq] at hs
      subst hs
      exact h.2.2.1

theorem partition_pairwise : ∀ (rs : List region) (c n : Nat), Partition c n rs →
    List.Pairwise (fun r s => r.to_ ≤ s.from_) rs := by
  intro rs
  induction rs with
  | nil => intro c n _; exact List.Pairwise.nil
  | cons r0 rs ih =>
    intro c n h
    refine List.Pairwise.cons ?_ (ih _ _ h.2.2)
    intro s hs
    exact (partition_mem _ _ _ h.2.2 s hs).1

theorem partition_last : ∀ (rs : List region) (c n : Nat), Partition c n rs → c < n →
    ∃ r, rs.getLast? = some r ∧ r.to_ = n := by
  intro rs
  induction rs with
  | nil =>
    intro c n h hlt
    have : c = n := h
    omega
  | cons r0 rs ih =>
    intro c n h hlt
    cases rs with
    | nil =>
      refine ⟨r0, rfl, ?_⟩
      exact h.2.2
    | cons r1 rs =>
      have h3 := h.2.2
      have hlt' : r0.to_ < n := by
        have := partition_le _ _ _ h3.2.2
        have := h3.2.1
        omega
      obtain ⟨r, hr, hto⟩ := ih _ _ h3 hlt'
      exact ⟨r, by rw [List.getLast?_cons_cons]; exact hr, hto⟩

theorem partition_cover : ∀ (rs : List region) (c n : Nat), Partition c n rs →
    ∀ x, (c ≤ x ∧ x < n) ↔ ∃ r ∈ rs, r.from_ ≤ x ∧ x < r.to_ := by
  intro rs
  induction rs with
  | nil =>
    intro c n h x
    have : c = n := h
    constructor
    · intro hx
      omega
    · rintro ⟨r, hr, _⟩
      simp at hr
  | cons r0 rs ih =>
    intro c n h x
    obtain ⟨h1, h2, h3⟩ := h
    have hle := partition_le _ _ _ h3
    have hrec := ih _ _ h3 x
    constructor
    · intro hx
      by_cases hx0 : x < r0.to_
      · exact ⟨r0, List.mem_cons_self _ _, by omega, hx0⟩
      · obtain ⟨r, hr, hr'⟩ := hrec.1 ⟨by omega, hx.2⟩
        exact ⟨r, List.mem_cons_of_mem _ hr, hr'⟩
    · rintro ⟨r, hr, hr1, hr2⟩
      rcases List.mem_cons.1 hr with rfl | hmem
      · omega
      · have := hrec.2 ⟨r, hmem, hr1, hr2⟩
        omega

theorem scripted_uid_inBounds : InBounds scripted_uid := by
  intro a b g hab
  cases g with
  | nil => exact ⟨le_refl _, hab⟩
  | cons d ds =>
    unfold scripted_uid
    by_cases h : a ≤ d ∧ d ≤ b
    · simp only [if_pos h]
      exact h
    · simp only [if_neg h]
      exact ⟨le_refl _, hab⟩

end Regions

/-! ## Claims on the region sampling iterator -/

/-- C4. For every population size `> 0`, every number of regions `≥ 1` and every
randomness source whose integer draws stay within the requested bounds, the regions
visited by one full traversal (from construction until the iterator equals the
default-constructed end iterator) are contiguous and non-overlapping: the first region
has `from == 0`, each later region starts at the previous region's `to`, the last region
has `to == pop_size`, every region is non-empty, and their union is `[0, pop_size)`. -/
theorem regions_cover_population {G : Type} [BEq G] (uid : Nat → Nat → G → Nat × G)
    (hb : InBounds uid) (g : G) (pop_size num_regions fuel : Nat)
    (hpop : 0 < pop_size) (hk : 1 ≤ num_regions) (hfuel : pop_size + 2 ≤ fuel) :
    ∃ rs, beyond_project.region_sample_iterator.regions uid fuel g pop_size num_regions
        = some rs ∧
      (∃ r, rs.head? = some r ∧ r.from_ = 0) ∧
      List.Chain' (fun r s => s.from_ = r.to_) rs ∧
      (∃ r, rs.getLast? = some r ∧ r.to_ = pop_size) ∧
      (∀ r ∈ rs, r.from_ < r.to_) ∧
      List.Pairwise (fun r s => r.to_ ≤ s.from_) rs ∧
      (∀ x, x < pop_size ↔ ∃ r ∈ rs, r.from_ ≤ x ∧ x < r.to_) := by
  obtain ⟨rs, hrs, _, _, hpart⟩ := regions_spec uid hb fuel g pop_size num_regions hfuel
  have hp := hpart hk hpop
  refine ⟨rs, hrs, ?_, partition_chain _ _ _ hp, partition_last _ _ _ hp hpop,
    fun r hr => (partition_mem _ _ _ hp r hr).2.1, partition_pairwise _ _ _ hp, ?_⟩
  · cases rs with
    | nil =>
      have : 0 = pop_size := hp
      omega
    | cons r rs => exact ⟨r, rfl, hp.1⟩
  · intro x
    rw [← partition_cover _ _ _ hp x]
    simp

/-- Witness of C4: a population of 10, three regions, scripted draws. -/
theorem regions_cover_population_witness :
    InBounds scripted_uid ∧ 0 < 10 ∧ 1 ≤ 3 ∧ 10 + 2 ≤ 12 ∧
    ∃ rs, beyond_project.region_sample_iterator.regions scripted_uid 12 [9, 3, 1, 7, 0] 10 3
        = some rs ∧
      (∃ r, rs.head? = some r ∧ r.from_ = 0) ∧
      List.Chain' (fun r s => s.from_ = r.to_) rs ∧
      (∃ r, rs.getLast? = some r ∧ r.to_ = 10) ∧
      (∀ r ∈ rs, r.from_ < r.to_) ∧
      List.Pairwise (fun r s => r.to_ ≤ s.from_) rs ∧
      (∀ x, x < 10 ↔ ∃ r ∈ rs, r.from_ ≤ x ∧ x < r.to_) :=
  ⟨scripted_uid_inBounds, by decide, by decide, by decide,
    regions_cover_population scripted_uid scripted_uid_inBounds [9, 3, 1, 7, 0] 10 3 12
      (by decide) (by decide) (by decide)⟩

/-- C5 as stated fails: on an empty population with one requested region the loop
`for (; i != end; ++i)` runs once, which is more than `min(1, 0) = 0` times. -/
theorem region_count_counterexample :
    ∃ rs, beyond_project.region_sample_iterator.regions scripted_uid 2 [] 0 1 = some rs ∧
      ¬ rs.length ≤ min 1 0 :=
  ⟨[⟨0, 0, 0, 0⟩], by decide, by decide⟩

/-- C5, amended. For every population size, every number of regions and every
randomness source whose integer draws stay within the requested bounds, one full
traversal visits exactly one region when `num_regions ≤ 1` (the single, possibly empty,
region set by the constructor) and exactly `min(num_regions, pop_size)` regions when
`num_regions ≥ 2`. So the count never exceeds `max(1, min(num_regions, pop_size))`, and
never exceeds `min(num_regions, pop_size)` when both are at least 1. -/
theorem region_count {G : Type} [BEq G] (uid : Nat → Nat → G → Nat × G)
    (hb : InBounds uid) (g : G) (pop_size num_regions fuel : Nat)
    (hfuel : pop_size + 2 ≤ fuel) :
    ∃ rs, beyond_project.region_sample_iterator.regions uid fuel g pop_size num_regions
        = some rs ∧
      rs.length = (if num_regions ≤ 1 then 1 else min num_regions pop_size) ∧
      rs.length ≤ max 1 (min num_regions pop_size) ∧
      (1 ≤ num_regions → 1 ≤ pop_size → rs.length ≤ min num_regions pop_size) := by
  obtain ⟨rs, hrs, hlen, _, _⟩ := regions_spec uid hb fuel g pop_size num_regions hfuel
  refine ⟨rs, hrs, hlen, ?_, ?_⟩
  · rw [hlen]
    split <;> omega
  · intro h1 h2
    rw [hlen]
    split <;> omega

/-- Witness of C5 (amended): a population of 3 with 5 requested regions. -/
theorem region_count_witness :
    InBounds scripted_uid ∧ 3 + 2 ≤ 5 ∧
    ∃ rs, beyond_project.region_sample_iterator.regions scripted_uid 5 [2, 1, 1] 3 5
        = some rs ∧
      rs.length = (if 5 ≤ 1 then 1 else min 5 3) ∧
      rs.length ≤ max 1 (min 5 3) ∧
      (1 ≤ 5 → 1 ≤ 3 → rs.length ≤ min 5 3) :=
  ⟨scripted_uid_inBounds, by decide,
    region_count scripted_uid scripted_uid_inBounds [2, 1, 1] 3 5 5 (by decide)⟩

/-! ## The crossover engine -/

section Crossover

open beyond_project beyond_project.region_sample_iterator

variable {G G1 α : Type}

theorem min_range_size_eq (p1 p2 : List α) :
    min_range_size p1 p2 = min p1.length p2.length := by
  induction p1 generalizing p2 with
  | nil => cases p2 <;> simp [min_range_size]
  | cons x p1 ih =>
    cases p2 with
    | nil => simp [min_range_size]
    | cons y p2 => simp [min_range_size, ih, Nat.succ_min_succ]

/-- The loop of `crossover` only depends on the regions that the traversal visits. -/
theorem crossover_loop_eq [BEq G] (uid : Nat → Nat → G → Nat × G) (fuel_next : Nat) :
    ∀ (fuel : Nat) (it : region_sample_iterator G) (s : crossover_state α),
      crossover_loop uid fuel_next fuel it s
        = (region_sample_iterator.traverse uid fuel_next fuel it).map
            (fun rs => copy_regions rs s) := by
  intro fuel
  induction fuel with
  | zero => intro it s; rfl
  | succ f ih =>
    intro it s
    rw [crossover_loop, region_sample_iterator.traverse]
    by_cases h : operator_ne it (default_ctor G) = true
    · simp only [h, if_true]
      cases hn : next uid fuel_next it with
      | none => rfl
      | some i' =>
        simp only []
        rw [ih]
        cases region_sample_iterator.traverse uid fuel_next f i' with
        | none => rfl
        | some rs => rfl
    · simp only [h]
      rfl

/-- Function `crossover` in terms of the regions visited by the traversal. -/
theorem crossover_of_regions [BEq G] (bd : G1 → Bool × G1) (uid : Nat → Nat → G → Nat × G)
    (fuel ncp : Nat) (g1 : G1) (g2 : G) (p1 p2 out : List α) (tail : Bool)
    (rs : List region)
    (hrs : regions uid fuel g2 (min_range_size p1 p2) (size_add ncp 1) = some rs) :
    crossover bd uid fuel ncp g1 g2 p1 p2 out tail
      = some (if tail then
          (if !(copy_regions rs ⟨(bd g1).1, p1, p2, out⟩).which_parent then
            (copy_regions rs ⟨(bd g1).1, p1, p2, out⟩).out
              ++ (copy_regions rs ⟨(bd g1).1, p1, p2, out⟩).p1it
          else
            (copy_regions rs ⟨(bd g1).1, p1, p2, out⟩).out
              ++ (copy_regions rs ⟨(bd g1).1, p1, p2, out⟩).p2it)
        else (copy_regions rs ⟨(bd g1).1, p1, p2, out⟩).out) := by
  unfold regions at hrs
  unfold crossover
  cases hc : ctor uid fuel g2 (min_range_size p1 p2) (size_add ncp 1) with
  | none => rw [hc] at hrs; simp at hrs
  | some i =>
    rw [hc] at hrs
    simp only [hc] at hrs ⊢
    rw [crossover_loop_eq, hrs]
    simp only [Option.map_some']
    cases tail <;> simp
    split <;> rfl

theorem contiguous_le : ∀ (rs : List region) (c e : Nat), Contiguous c e rs → c ≤ e := by
  intro rs
  induction rs with
  | nil => intro c e h; exact Nat.le_of_eq h
  | cons r rs ih =>
    intro c e h
    have := ih _ _ h.2.2
    have := h.2.1
    omega

theorem mix_append (p1 p2 a b : List α) (ha : Mix p1 p2 a)
    (hb : Mix (p1.drop a.length) (p2.drop a.length) b) : Mix p1 p2 (a ++ b) := by
  intro i v hv
  by_cases hi : i < a.length
  · rw [List.getElem?_append_left hi] at hv
    exact ha i v hv
  · rw [List.getElem?_append_right (by omega)] at hv
    have := hb (i - a.length) v hv
    rw [List.getElem?_drop, List.getElem?_drop] at this
    have hidx : a.length + (i - a.length) = i := by omega
    rw [hidx] at this
    exact this

theorem mix_take_left (p1 p2 : List α) (n : Nat) : Mix p1 p2 (p1.take n) := by
  intro i v hv
  rw [List.getElem?_take] at hv
  split at hv
  · exact Or.inl hv
  · simp at hv

theorem mix_take_right (p1 p2 : List α) (n : Nat) : Mix p1 p2 (p2.take n) := by
  intro i v hv
  rw [List.getElem?_take] at hv
  split at hv
  · exact Or.inr hv
  · simp at hv

theorem mix_drop_left (p1 p2 : List α) (n : Nat) : Mix (p1.drop n) (p2.drop n) (p1.drop n) :=
  fun _ _ hv => Or.inl hv

theorem mix_drop_right (p1 p2 : List α) (n : Nat) : Mix (p1.drop n) (p2.drop n) (p2.drop n) :=
  fun _ _ hv => Or.inr hv

/-- Copying contiguous regions that stop at `e` within both parents, starting with
both iterators at `c`: both iterators end at `e`, exactly `e - c` elements are written,
each one taken from one of the parents at its own position, and the flag has been
flipped once per region. -/
theorem copy_regions_spec (p1 p2 : List α) :
    ∀ (rs : List region) (c e : Nat) (w : Bool) (out : List α), Contiguous c e rs →
      e ≤ p1.length → e ≤ p2.length →
      ∃ m, copy_regions rs ⟨w, p1.drop c, p2.drop c, out⟩
          = ⟨if rs.length % 2 = 0 then w else !w, p1.drop e, p2.drop e, out ++ m⟩ ∧
        m.length = e - c ∧ Mix (p1.drop c) (p2.drop c) m := by
  intro rs
  induction rs with
  | nil =>
    intro c e w out h _ _
    have hce : c = e := h
    subst hce
    exact ⟨[], by simp [copy_regions], by simp, fun i v hv => by simp at hv⟩
  | cons r rs ih =>
    intro c e w out h h1 h2
    obtain ⟨hfrom, hle, hrest⟩ := h
    have hto := contiguous_le _ _ _ hrest
    have hsz : size_sub r.to_ r.from_ = r.to_ - c := by
      unfold size_sub
      rw [hfrom, if_pos hle]
    have hd1 : (p1.drop c).drop (r.to_ - c) = p1.drop r.to_ := by
      rw [List.drop_drop]
      congr 1
      omega
    have hd2 : (p2.drop c).drop (r.to_ - c) = p2.drop r.to_ := by
      rw [List.drop_drop]
      congr 1
      omega
    obtain ⟨m, hm, hlen, hmix⟩ := ih r.to_ e (!w)
      (if w then out ++ (p1.drop c).take (r.to_ - c) else out ++ (p2.drop c).take (r.to_ - c))
      hrest h1 h2
    refine ⟨(if w then (p1.drop c).take (r.to_ - c) else (p2.drop c).take (r.to_ - c)) ++ m,
      ?_, ?_, ?_⟩
    · rw [copy_regions]
      simp only [hsz, hd1, hd2]
      rw [hm]
      have hpar : (if rs.length % 2 = 0 then !w else !!w)
          = (if (r :: rs).length % 2 = 0 then w else !w) := by
        rw [List.length_cons]
        rcases Nat.mod_two_eq_zero_or_one rs.length with h0 | h0
        · have h0' : (rs.length + 1) % 2 = 1 := by omega
          simp [h0, h0']
        · have h0' : (rs.length + 1) % 2 = 0 := by omega
          simp [h0, h0']
      rw [hpar]
      cases w <;> simp
    · rw [List.length_append, hlen]
      cases w <;> simp <;> omega
    · have hlenpiece : (if w then (p1.drop c).take (r.to_ - c)
          else (p2.drop c).take (r.to_ - c)).length = r.to_ - c := by
        cases w <;> simp <;> omega
      apply mix_append
      · cases w
        · exact mix_take_right _ _ _
        · exact mix_take_left _ _ _
      · rw [hlenpiece, hd1, hd2]
        exact hmix

/-- The child written by `crossover`, for every number of crossover points: the
regions contribute a `body` of aligned elements (as long as the common length of the
parents, unless `ncrossover_points + 1` wraps to zero), and the tail copy appends the
rest of the parent selected by the flag after the loop, which is the parent the last
region was copied from. -/
theorem crossover_spec [BEq G] (bd : G1 → Bool × G1) (uid : Nat → Nat → G → Nat × G)
    (hb : InBounds uid) (fuel ncp : Nat) (g1 : G1) (g2 : G) (p1 p2 out : List α)
    (hfuel : min p1.length p2.length + 2 ≤ fuel) :
    ∃ rs body,
      regions uid fuel g2 (min p1.length p2.length) (size_add ncp 1) = some rs ∧
      body.length = (if size_add ncp 1 = 0 then 0 else min p1.length p2.length) ∧
      Mix p1 p2 body ∧
      crossover bd uid fuel ncp g1 g2 p1 p2 out false = some (out ++ body) ∧
      crossover bd uid fuel ncp g1 g2 p1 p2 out true
        = some (out ++ body ++
            (if (if rs.length % 2 = 0 then !(bd g1).1 else (bd g1).1) then p1
              else p2).drop body.length) := by
  obtain ⟨rs, hrs, _, hcont, _⟩ :=
    regions_spec uid hb fuel g2 (min p1.length p2.length) (size_add ncp 1) hfuel
  have he1 : (if size_add ncp 1 = 0 then 0 else min p1.length p2.length) ≤ p1.length := by
    split <;> omega
  have he2 : (if size_add ncp 1 = 0 then 0 else min p1.length p2.length) ≤ p2.length := by
    split <;> omega
  obtain ⟨m, hm, hlen, hmix⟩ := copy_regions_spec p1 p2 rs 0 _ (bd g1).1 out hcont he1 he2
  simp only [List.drop_zero, Nat.sub_zero] at hm hlen hmix
  have hrs' : regions uid fuel g2 (min_range_size p1 p2) (size_add ncp 1) = some rs := by
    rw [min_range_size_eq]
    exact hrs
  refine ⟨rs, m, hrs, hlen, hmix, ?_, ?_⟩
  · rw [crossover_of_regions bd uid fuel ncp g1 g2 p1 p2 out false rs hrs', hm]
    rfl
  · rw [crossover_of_regions bd uid fuel ncp g1 g2 p1 p2 out true rs hrs', hm, hlen]
    rcases Nat.mod_two_eq_zero_or_one rs.length with h0 | h0
    · cases hw : (bd g1).1 <;> simp [h0]
    · cases hw : (bd g1).1 <;> simp [h0]

/-- With no crossover point the traversal visits the single region `[0, sz)`. -/
theorem regions_one [BEq G] (uid : Nat → Nat → G → Nat × G) (fuel : Nat) (g : G) (n : Nat)
    (hfuel : 2 ≤ fuel) : regions uid fuel g n 1 = some [⟨0, 0, 0, n⟩] := by
  simp only [regions, ctor]
  exact traverse_last uid fuel fuel _ rfl rfl hfuel

/-- What `operator==` computes: whether both iterators hold a generator or both hold
none; the regions and the generators themselves never decide. -/
theorem operator_eq_eq [BEq G] (a b : region_sample_iterator G) :
    operator_eq a b = (a.urbg_.isSome == b.urbg_.isSome) := by
  unfold operator_eq
  cases a.urbg_ <;> cases b.urbg_ <;> simp

end Crossover

/-! ## Claims on the crossover engine and on the iterator's equality -/

/-- C6. For the output-sink `crossover` of `beyond_project.hpp`, for every number of
crossover points, every pair of parents, every parent-choice draw, every randomness
source whose integer draws stay within the requested bounds, and both values of the
tail flag: the element written at child position `i` equals `parent1[i]` or
`parent2[i]` for every `i < min(|parent1|, |parent2|)`. (Unless `ncrossover_points + 1`
wraps around, at least that many elements are written.) -/
theorem crossover_elements_from_parents {G1 G2 α : Type} [BEq G2] (bd : G1 → Bool × G1)
    (uid : Nat → Nat → G2 → Nat × G2) (hb : InBounds uid) (fuel ncrossover_points : Nat)
    (g1 : G1) (g2 : G2) (parent1 parent2 out : List α) (copy_longer_range_tail : Bool)
    (hfuel : min parent1.length parent2.length + 2 ≤ fuel) :
    ∃ child, beyond_project.crossover bd uid fuel ncrossover_points g1 g2 parent1 parent2
        out copy_longer_range_tail = some (out ++ child) ∧
      (∀ (i : Nat) (v : α), i < min parent1.length parent2.length → child[i]? = some v →
        parent1[i]? = some v ∨ parent2[i]? = some v) ∧
      (ncrossover_points + 1 < 2 ^ 64 →
        min parent1.length parent2.length ≤ child.length) := by
  obtain ⟨rs, body, _, hlen, hmix, hfalse, htrue⟩ :=
    crossover_spec bd uid hb fuel ncrossover_points g1 g2 parent1 parent2 out hfuel
  have hk : ncrossover_points + 1 < 2 ^ 64 → ¬ beyond_project.size_add ncrossover_points 1 = 0 := by
    intro h
    unfold beyond_project.size_add beyond_project.SIZE_MOD
    rw [Nat.mod_eq_of_lt h]
    omega
  cases copy_longer_range_tail with
  | false =>
    refine ⟨body, hfalse, fun i v _ hv => hmix i v hv, ?_⟩
    intro h
    rw [hlen, if_neg (hk h)]
  | true =>
    refine ⟨body ++ (if (if rs.length % 2 = 0 then !(bd g1).1 else (bd g1).1) then parent1
        else parent2).drop body.length, by rw [htrue, List.append_assoc], ?_, ?_⟩
    · intro i v _ hv
      refine mix_append parent1 parent2 body _ hmix ?_ i v hv
      generalize (if rs.length % 2 = 0 then !(bd g1).1 else (bd g1).1) = sel
      cases sel
      · exact mix_drop_right _ _ _
      · exact mix_drop_left _ _ _
    · intro h
      rw [List.length_append, hlen, if_neg (hk h)]
      omega

/-- Witness of C6: one crossover point on `[1,2,3,4,5,6]` and `[11,12,13,14,15,16]`. -/
theorem crossover_elements_from_parents_witness :
    InBounds scripted_uid ∧ min [1, 2, 3, 4, 5, 6].length [11, 12, 13, 14, 15, 16].length + 2 ≤ 8 ∧
    ∃ child, beyond_project.crossover scripted_bd scripted_uid 8 1 [true] [5, 2, 0]
        [1, 2, 3, 4, 5, 6] [11, 12, 13, 14, 15, 16] [] true = some ([] ++ child) ∧
      (∀ (i : Nat) (v : Nat), i < min [1, 2, 3, 4, 5, 6].length [11, 12, 13, 14, 15, 16].length →
        child[i]? = some v →
        [1, 2, 3, 4, 5, 6][i]? = some v ∨ [11, 12, 13, 14, 15, 16][i]? = some v) ∧
      (1 + 1 < 2 ^ 64 →
        min [1, 2, 3, 4, 5, 6].length [11, 12, 13, 14, 15, 16].length ≤ child.length) :=
  ⟨scripted_uid_inBounds, by decide,
    crossover_elements_from_parents scripted_bd scripted_uid scripted_uid_inBounds 8 1 [true]
      [5, 2, 0] [1, 2, 3, 4, 5, 6] [11, 12, 13, 14, 15, 16] [] true (by decide)⟩

/-- C7. For `crossover` called with `copy_longer_range_tail = true` on two parents of
equal length `L`, for every number of crossover points and all in-bounds draws, exactly
`L` elements are appended to the output. -/
theorem crossover_equal_length {G1 G2 α : Type} [BEq G2] (bd : G1 → Bool × G1)
    (uid : Nat → Nat → G2 → Nat × G2) (hb : InBounds uid) (fuel ncrossover_points : Nat)
    (g1 : G1) (g2 : G2) (parent1 parent2 out : List α) (L : Nat)
    (h1 : parent1.length = L) (h2 : parent2.length = L) (hfuel : L + 2 ≤ fuel) :
    ∃ child, beyond_project.crossover bd uid fuel ncrossover_points g1 g2 parent1 parent2
        out true = some (out ++ child) ∧ child.length = L := by
  obtain ⟨rs, body, _, hlen, _, _, htrue⟩ :=
    crossover_spec bd uid hb fuel ncrossover_points g1 g2 parent1 parent2 out
      (by rw [h1, h2, Nat.min_self]; exact hfuel)
  refine ⟨body ++ (if (if rs.length % 2 = 0 then !(bd g1).1 else (bd g1).1) then parent1
      else parent2).drop body.length, by rw [htrue, List.append_assoc], ?_⟩
  have hbody : body.length ≤ L := by
    rw [hlen, h1, h2]
    split <;> simp
  rw [List.length_append, List.length_drop]
  generalize (if rs.length % 2 = 0 then !(bd g1).1 else (bd g1).1) = sel
  cases sel <;> simp <;> omega

/-- Witness of C7: two parents of length 6, two crossover points. -/
theorem crossover_equal_length_witness :
    InBounds scripted_uid ∧ [1, 2, 3, 4, 5, 6].length = 6 ∧
    [11, 12, 13, 14, 15, 16].length = 6 ∧ 6 + 2 ≤ 8 ∧
    ∃ child, beyond_project.crossover scripted_bd scripted_uid 8 2 [false] [1, 4, 0, 3]
        [1, 2, 3, 4, 5, 6] [11, 12, 13, 14, 15, 16] [] true = some ([] ++ child) ∧
      child.length = 6 :=
  ⟨scripted_uid_inBounds, by decide, by decide, by decide,
    crossover_equal_length scripted_bd scripted_uid scripted_uid_inBounds 8 2 [false]
      [1, 4, 0, 3] [1, 2, 3, 4, 5, 6] [11, 12, 13, 14, 15, 16] [] 6 (by decide) (by decide)
      (by decide)⟩

/-- C8 as stated fails: with parents `[1, 2]` and `[3]`, no crossover point and a
parent-choice draw of `false`, the only region is copied from `parent2` and the tail
copy is then taken from `parent2` as well, whose remainder is empty: the child is `[3]`,
the remainder `[2]` of the longer parent is not appended, and the child's length is
`1`, not `max(2, 1)`. -/
theorem crossover_tail_counterexample :
    beyond_project.crossover scripted_bd scripted_uid 3 0 [false] [] [1, 2] [3] [] true
        = some [3] ∧
      [3] ≠ [3] ++ [1, 2].drop (min [1, 2].length [3].length) ∧
      [3].length ≠ max [1, 2].length [3].length := by
  decide

/-- C8, amended. With the tail-copy flag set, after all regions have been copied the
elements appended are the remainder of the parent that the active-parent flag selects
after the loop (`parent1` when the flag is false, that is the parent the last region
was copied from: the parent-choice draw flipped once per region), read from the
current cursor to that parent's end; the child has that parent's length, which is
`|parent1|` or `|parent2|` and not always the larger one. The cursor is
`min(|parent1|, |parent2|)` unless `ncrossover_points + 1` wraps around. -/
theorem crossover_tail_from_last_parent {G1 G2 α : Type} [BEq G2] (bd : G1 → Bool × G1)
    (uid : Nat → Nat → G2 → Nat × G2) (hb : InBounds uid) (fuel ncrossover_points : Nat)
    (g1 : G1) (g2 : G2) (parent1 parent2 out : List α)
    (hfuel : min parent1.length parent2.length + 2 ≤ fuel) :
    ∃ rs body,
      beyond_project.region_sample_iterator.regions uid fuel g2
        (min parent1.length parent2.length) (beyond_project.size_add ncrossover_points 1)
        = some rs ∧
      beyond_project.crossover bd uid fuel ncrossover_points g1 g2 parent1 parent2 out false
        = some (out ++ body) ∧
      beyond_project.crossover bd uid fuel ncrossover_points g1 g2 parent1 parent2 out true
        = some (out ++ body ++
            (if (if rs.length % 2 = 0 then !(bd g1).1 else (bd g1).1) then parent1
              else parent2).drop body.length) ∧
      (body ++ (if (if rs.length % 2 = 0 then !(bd g1).1 else (bd g1).1) then parent1
              else parent2).drop body.length).length
        = (if (if rs.length % 2 = 0 then !(bd g1).1 else (bd g1).1) then parent1
              else parent2).length ∧
      (ncrossover_points + 1 < 2 ^ 64 →
        body.length = min parent1.length parent2.length) := by
  obtain ⟨rs, body, hrs, hlen, _, hfalse, htrue⟩ :=
    crossover_spec bd uid hb fuel ncrossover_points g1 g2 parent1 parent2 out hfuel
  refine ⟨rs, body, hrs, hfalse, htrue, ?_, ?_⟩
  · have hbody : body.length ≤ min parent1.length parent2.length := by
      rw [hlen]
      split <;> omega
    rw [List.length_append, List.length_drop]
    generalize (if rs.length % 2 = 0 then !(bd g1).1 else (bd g1).1) = sel
    cases sel <;> simp <;> omega
  · intro h
    rw [hlen, if_neg]
    unfold beyond_project.size_add beyond_project.SIZE_MOD
    rw [Nat.mod_eq_of_lt h]
    omega

/-- Witness of C8 (amended): parents of lengths 2 and 5, one crossover point. -/
theorem crossover_tail_from_last_parent_witness :
    InBounds scripted_uid ∧ min [1, 2].length [11, 12, 13, 14, 15].length + 2 ≤ 4 ∧
    ∃ rs body,
      beyond_project.region_sample_iterator.regions scripted_uid 4 [0, 0]
        (min [1, 2].length [11, 12, 13, 14, 15].length) (beyond_project.size_add 1 1)
        = some rs ∧
      beyond_project.crossover scripted_bd scripted_uid 4 1 [true] [0, 0] [1, 2]
        [11, 12, 13, 14, 15] [] false = some ([] ++ body) ∧
      beyond_project.crossover scripted_bd scripted_uid 4 1 [true] [0, 0] [1, 2]
        [11, 12, 13, 14, 15] [] true
        = some ([] ++ body ++
            (if (if rs.length % 2 = 0 then !(scripted_bd [true]).1 else (scripted_bd [true]).1)
              then [1, 2] else [11, 12, 13, 14, 15]).drop body.length) ∧
      (body ++ (if (if rs.length % 2 = 0 then !(scripted_bd [true]).1
              else (scripted_bd [true]).1) then [1, 2]
              else [11, 12, 13, 14, 15]).drop body.length).length
        = (if (if rs.length % 2 = 0 then !(scripted_bd [true]).1
              else (scripted_bd [true]).1) then [1, 2]
              else [11, 12, 13, 14, 15]).length ∧
      (1 + 1 < 2 ^ 64 → body.length = min [1, 2].length [11, 12, 13, 14, 15].length) :=
  ⟨scripted_uid_inBounds, by decide,
    crossover_tail_from_last_parent scripted_bd scripted_uid scripted_uid_inBounds 4 1 [true]
      [0, 0] [1, 2] [11, 12, 13, 14, 15] [] (by decide)⟩

/-- C9, the code at a failing input: two iterators constructed over the same generator,
one with one region over a population of 10 (current region `[0, 10)`), one with no
region (current region `[0, 0)`), hold the same randomness source and different region
states, and `operator==` returns `true` for them. -/
theorem operator_eq_differing_regions :
    ∃ a b : beyond_project.region_sample_iterator (List Nat),
      beyond_project.region_sample_iterator.ctor scripted_uid 2 [4, 2] 10 1 = some a ∧
      beyond_project.region_sample_iterator.ctor scripted_uid 2 [4, 2] 10 0 = some b ∧
      a.urbg_ = some [4, 2] ∧ b.urbg_ = some [4, 2] ∧ a.region_ ≠ b.region_ ∧
      beyond_project.region_sample_iterator.operator_eq a b = true :=
  ⟨_, _, rfl, rfl, rfl, rfl, by decide, by decide⟩

/-- C10. With `ncrossover_points == 0` the first `min(|parent1|, |parent2|)` elements
of the child are the prefix of a single parent, `parent1` when the parent-choice draw
is `true` and `parent2` otherwise, whatever the other randomness source does; for
parents of equal length the child is that parent's full content, as for `"AAAA"` and
`"BBBB"`. -/
theorem crossover_no_points {G1 G2 α : Type} [BEq G2] (bd : G1 → Bool × G1)
    (uid : Nat → Nat → G2 → Nat × G2) (fuel : Nat) (g1 : G1) (g2 : G2)
    (parent1 parent2 : List α) (copy_longer_range_tail : Bool) (hfuel : 2 ≤ fuel) :
    ∃ child, beyond_project.crossover bd uid fuel 0 g1 g2 parent1 parent2 []
        copy_longer_range_tail = some child ∧
      child.take (min parent1.length parent2.length)
        = (if (bd g1).1 then parent1 else parent2).take (min parent1.length parent2.length) ∧
      (parent1.length = parent2.length → child = if (bd g1).1 then parent1 else parent2) ∧
      (∀ (uid' : Nat → Nat → G2 → Nat × G2) (g2' : G2),
        beyond_project.crossover bd uid' fuel 0 g1 g2' parent1 parent2 []
          copy_longer_range_tail = some child) := by
  have hk : beyond_project.size_add 0 1 = 1 := by decide
  have hreg : ∀ (u : Nat → Nat → G2 → Nat × G2) (g : G2),
      beyond_project.region_sample_iterator.regions u fuel g
        (beyond_project.min_range_size parent1 parent2) (beyond_project.size_add 0 1)
        = some [⟨0, 0, 0, beyond_project.min_range_size parent1 parent2⟩] := by
    intro u g
    rw [hk]
    exact regions_one u fuel g _ hfuel
  have hsz : beyond_project.size_sub (min parent1.length parent2.length) 0
      = min parent1.length parent2.length := by
    simp [beyond_project.size_sub]
  have hcross : ∀ (u : Nat → Nat → G2 → Nat × G2) (g : G2),
      beyond_project.crossover bd u fuel 0 g1 g parent1 parent2 [] copy_longer_range_tail
        = some (if copy_longer_range_tail then (if (bd g1).1 then parent1 else parent2)
            else (if (bd g1).1 then parent1 else parent2).take
              (min parent1.length parent2.length)) := by
    intro u g
    rw [crossover_of_regions bd u fuel 0 g1 g parent1 parent2 [] copy_longer_range_tail _
      (hreg u g)]
    simp only [copy_regions, min_range_size_eq, hsz]
    cases copy_longer_range_tail <;> cases (bd g1).1 <;> simp
  refine ⟨_, hcross uid g2, ?_, ?_, fun u g => hcross u g⟩
  · cases copy_longer_range_tail <;> simp
  · intro hlen
    cases copy_longer_range_tail
    · cases (bd g1).1 <;> simp [hlen]
    · simp

/-- Witness of C10: the parents `"AAAA"` and `"BBBB"`, parent-choice draw `true`. -/
theorem crossover_no_points_witness :
    2 ≤ 2 ∧
    ∃ child, beyond_project.crossover scripted_bd scripted_uid 2 0 [true] [3, 1]
        "AAAA".toList "BBBB".toList [] true = some child ∧
      child.take (min "AAAA".toList.length "BBBB".toList.length)
        = (if (scripted_bd [true]).1 then "AAAA".toList else "BBBB".toList).take
            (min "AAAA".toList.length "BBBB".toList.length) ∧
      ("AAAA".toList.length = "BBBB".toList.length →
        child = if (scripted_bd [true]).1 then "AAAA".toList else "BBBB".toList) ∧
      (∀ (uid' : Nat → Nat → List Nat → Nat × List Nat) (g2' : List Nat),
        beyond_project.crossover scripted_bd uid' 2 0 [true] g2' "AAAA".toList "BBBB".toList []
          true = some child) :=
  ⟨le_refl 2, crossover_no_points scripted_bd scripted_uid 2 [true] [3, 1] "AAAA".toList
    "BBBB".toList true (le_refl 2)⟩

/-! ## Further claims on the edit distance -/

/-- C15. The function `levenshtein` returns the documented values on the documented
inputs, in both variants: `("kitten", "sitting")` gives 3, `("Saturday", "Sunday")` 3,
`("", "")` 0, `("house", "mouse")` 1, `("flaw", "lawn")` 2,
`("thou shalt not", "you should not")` 5, `(['c','a','r'], ['b','a','t'])` 2,
`(['V','s','a','u','c','e'], "apple sauce")` 6 and, for the sorted list of `kitten`
against the sorted set of `sitting`, `("eikntt", "ginst")` 3. The values are the same
when both arguments are string literals, which carry their terminating `'\0'` as a last
element, as in the first lines of the test. -/
theorem levenshtein_documented_values :
    (beyond_project.levenshtein "kitten".toList "sitting".toList = 3 ∧
      beyond_project.levenshtein "Saturday".toList "Sunday".toList = 3 ∧
      beyond_project.levenshtein "".toList "".toList = 0 ∧
      beyond_project.levenshtein "house".toList "mouse".toList = 1 ∧
      beyond_project.levenshtein "flaw".toList "lawn".toList = 2 ∧
      beyond_project.levenshtein "thou shalt not".toList "you should not".toList = 5 ∧
      beyond_project.levenshtein ['c', 'a', 'r'] ['b', 'a', 't'] = 2 ∧
      beyond_project.levenshtein ['V', 's', 'a', 'u', 'c', 'e'] "apple sauce".toList = 6 ∧
      beyond_project.levenshtein "eikntt".toList "ginst".toList = 3) ∧
    (project.levenshtein "kitten".toList "sitting".toList = 3 ∧
      project.levenshtein "Saturday".toList "Sunday".toList = 3 ∧
      project.levenshtein "".toList "".toList = 0 ∧
      project.levenshtein "house".toList "mouse".toList = 1 ∧
      project.levenshtein "flaw".toList "lawn".toList = 2 ∧
      project.levenshtein "thou shalt not".toList "you should not".toList = 5 ∧
      project.levenshtein ['c', 'a', 'r'] ['b', 'a', 't'] = 2 ∧
      project.levenshtein ['V', 's', 'a', 'u', 'c', 'e'] "apple sauce".toList = 6 ∧
      project.levenshtein "eikntt".toList "ginst".toList = 3) ∧
    (project.levenshtein ("kitten".toList ++ [Char.ofNat 0])
        ("sitting".toList ++ [Char.ofNat 0]) = 3 ∧
      project.levenshtein ("Saturday".toList ++ [Char.ofNat 0])
        ("Sunday".toList ++ [Char.ofNat 0]) = 3 ∧
      project.levenshtein ("thou shalt not".toList ++ [Char.ofNat 0])
        ("you should not".toList ++ [Char.ofNat 0]) = 5 ∧
      project.levenshtein [Char.ofNat 0] [Char.ofNat 0] = 0) := by
  refine ⟨⟨?_, ?_, ?_, ?_, ?_, ?_, ?_, ?_, ?_⟩, ⟨?_, ?_, ?_, ?_, ?_, ?_, ?_, ?_, ?_⟩,
    ⟨?_, ?_, ?_, ?_⟩⟩ <;> decide

/-- C16. For all finite sequences `a` and `b`, the index-based `levenshtein` of
`project.hpp` and the iterator-based `levenshtein` of `beyond_project.hpp` (whose
length of `b` is computed by `range_size`) return the same value: the result depends on
the element sequences only. -/
theorem levenshtein_variants_agree {α : Type} [DecidableEq α] (a b : List α) :
    project.levenshtein a b = beyond_project.levenshtein a b := by
  rw [project_levenshtein_eq_lev, beyond_levenshtein_eq_lev]

/-- C17. For every finite sequence `b`, `levenshtein(empty, b) == |b|`, and for every
finite sequence `a`, `levenshtein(a, empty) == |a|`, in both variants; in particular the
empty string against the one-element sequence made of a terminating `'\0'` gives 1. -/
theorem levenshtein_empty {α : Type} [DecidableEq α] (a b : List α) :
    beyond_project.levenshtein [] b = b.length ∧
      beyond_project.levenshtein a [] = a.length ∧
      project.levenshtein [] b = b.length ∧
      project.levenshtein a [] = a.length ∧
      project.levenshtein [] [Char.ofNat 0] = 1 := by
  refine ⟨?_, ?_, ?_, ?_, ?_⟩
  · rw [beyond_levenshtein_eq_lev, lev_nil_left]
  · rw [beyond_levenshtein_eq_lev, lev_nil_right]
  · rw [project_levenshtein_eq_lev, lev_nil_left]
  · rw [project_levenshtein_eq_lev, lev_nil_right]
  · rw [project_levenshtein_eq_lev, lev_nil_left]
    rfl

/-! ## Further claims on the region sampling iterator -/

/-- C18. For every population size, a `region_sample_iterator` constructed with one
region consumes no random draw (whatever the distribution does, its generator is as it
was given), holds the region `from == 0`, `to == pop_size`, `id == 0`,
`reverse_id == 0`, is not the end iterator, and becomes the end iterator after a single
increment; a full traversal visits exactly this region. -/
theorem ctor_one_region {G : Type} [BEq G] (uid : Nat → Nat → G → Nat × G) (fuel : Nat)
    (g : G) (pop_size : Nat) :
    ∃ it, beyond_project.region_sample_iterator.ctor uid fuel g pop_size 1 = some it ∧
      it.urbg_ = some g ∧
      it.region_ = { reverse_id := 0, id := 0, from_ := 0, to_ := pop_size } ∧
      beyond_project.region_sample_iterator.operator_eq it
        (beyond_project.region_sample_iterator.default_ctor G) = false ∧
      (∃ it', beyond_project.region_sample_iterator.next uid fuel it = some it' ∧
        it'.urbg_ = none ∧
        beyond_project.region_sample_iterator.operator_eq it'
          (beyond_project.region_sample_iterator.default_ctor G) = true) ∧
      (2 ≤ fuel → beyond_project.region_sample_iterator.regions uid fuel g pop_size 1
        = some [{ reverse_id := 0, id := 0, from_ := 0, to_ := pop_size }]) :=
  ⟨_, rfl, rfl, rfl, by simp [operator_eq_eq, beyond_project.region_sample_iterator.default_ctor],
    ⟨_, rfl, rfl, by
      simp [operator_eq_eq, beyond_project.region_sample_iterator.default_ctor]⟩,
    fun h => regions_one uid fuel g pop_size h⟩

/-- C19. For every population size, a `region_sample_iterator` constructed with no
region consumes no random draw (whatever the distribution does, its generator is as it
was given), holds the empty span `from == to == 0` with `id == 0` and
`reverse_id == 0`, and becomes equal to the end iterator after a single increment. -/
theorem ctor_no_region {G : Type} [BEq G] (uid : Nat → Nat → G → Nat × G) (fuel : Nat)
    (g : G) (pop_size : Nat) :
    ∃ it, beyond_project.region_sample_iterator.ctor uid fuel g pop_size 0 = some it ∧
      it.urbg_ = some g ∧
      it.region_ = { reverse_id := 0, id := 0, from_ := 0, to_ := 0 } ∧
      (∃ it', beyond_project.region_sample_iterator.next uid fuel it = some it' ∧
        it'.urbg_ = none ∧
        beyond_project.region_sample_iterator.operator_eq it'
          (beyond_project.region_sample_iterator.default_ctor G) = true) :=
  ⟨_, rfl, rfl, rfl, ⟨_, rfl, rfl, by
    simp [operator_eq_eq, beyond_project.region_sample_iterator.default_ctor]⟩⟩

section RegionIds

open beyond_project beyond_project.region_sample_iterator

variable {G : Type}

/-- From an iterator past its first region, the traversal numbers the regions upwards
in `id` and downwards in `reverse_id`. -/
theorem traverse_ids [BEq G] (uid : Nat → Nat → G → Nat × G) (hb : InBounds uid)
    (n fuel_next : Nat) (hfn : n ≤ fuel_next) :
    ∀ (rid fuel : Nat) (it : region_sample_iterator G), IterInv n it →
      it.region_.reverse_id = rid → rid + 2 ≤ fuel → 0 < it.last_i_ →
      ∃ rs, region_sample_iterator.traverse uid fuel_next fuel it = some rs ∧
        rs.length = rid + 1 ∧
        ∀ (j : Nat) (r : region), rs[j]? = some r →
          r.id = it.region_.id + j ∧ r.reverse_id + j = rid := by
  intro rid
  induction rid with
  | zero =>
    intro fuel it hinv hrid hfuel _
    refine ⟨[it.region_], traverse_last uid fuel_next fuel it hinv.urbg hrid (by omega),
      rfl, ?_⟩
    intro j r hj
    cases j with
    | zero =>
      simp only [List.getElem?_cons_zero, Option.some.injEq] at hj
      subst hj
      exact ⟨rfl, hrid⟩
    | succ j => simp at hj
  | succ k ih =>
    intro fuel it hinv hrid hfuel hpos
    obtain ⟨f, rfl⟩ : ∃ f, fuel = f + 1 := ⟨fuel - 1, by omega⟩
    have hleft := hinv.left
    have hr := hinv.rid
    have hlast := hinv.last
    obtain ⟨it', h1, h2, h3, _, _, h6, _, h8⟩ :=
      next_loop_spec uid hb n fuel_next it hinv (by omega) (by omega)
    have hrid' : it'.region_.reverse_id = k := by omega
    rw [if_pos hpos] at h8
    obtain ⟨rs, hrs, hlen, hids⟩ := ih f it' h2 hrid' (by omega) (by omega)
    refine ⟨it.region_ :: rs, ?_, by simp [hlen], ?_⟩
    · have hne : ¬ it.region_.reverse_id = 0 := by omega
      simp only [region_sample_iterator.traverse, operator_ne_end, hinv.urbg, next, hne,
        if_true, if_false, h1, hrs]
    · intro j r hj
      cases j with
      | zero =>
        simp only [List.getElem?_cons_zero, Option.some.injEq] at hj
        subst hj
        exact ⟨rfl, hrid⟩
      | succ j =>
        simp only [List.getElem?_cons_succ] at hj
        obtain ⟨hid, hrev⟩ := hids j r hj
        constructor
        · rw [hid, h8]
          omega
        · omega

/-- The numbering of the regions visited by one construction and full traversal. -/
theorem regions_ids [BEq G] (uid : Nat → Nat → G → Nat × G) (hb : InBounds uid)
    (fuel : Nat) (g : G) (n k : Nat) (hn : 1 ≤ n) (hk : 1 ≤ k) (hfuel : n + 2 ≤ fuel) :
    ∃ rs, regions uid fuel g n k = some rs ∧
      ∀ (j : Nat) (r : region), rs[j]? = some r →
        r.id = j ∧ r.reverse_id + j + 1 = rs.length := by
  by_cases hk1 : k ≤ 1
  · have hk' : k = 1 := by omega
    subst hk'
    refine ⟨[⟨0, 0, 0, n⟩], regions_one uid fuel g n (by omega), ?_⟩
    intro j r hj
    cases j with
    | zero =>
      simp only [List.getElem?_cons_zero, Option.some.injEq] at hj
      subst hj
      exact ⟨rfl, rfl⟩
    | succ j => simp at hj
  · have hk0 : ¬ k = 0 := by omega
    have hinv0 : IterInv n
        ({ urbg_ := some g
           pop_size_ := n
           num_in_pop_left_ := n
           last_i_ := 0
           i_ := 1
           region_ := { reverse_id := project.min2 k n, id := 0, from_ := 0, to_ := 0 } } :
          region_sample_iterator G) := by
      refine ⟨rfl, rfl, ?_, ?_, ?_⟩
      · show 1 + n = n + 1
        omega
      · show project.min2 k n ≤ n
        rw [min2_eq_min]
        omega
      · show 0 < 1
        omega
    have hpos : 0 < project.min2 k n := by
      rw [min2_eq_min]
      omega
    obtain ⟨it', h1, h2, _, _, _, h6, _, h8⟩ :=
      next_loop_spec uid hb n fuel _ hinv0 hpos (by show n ≤ fuel; omega)
    have h8' : it'.region_.id = 0 := h8
    have h6' : 0 < it'.last_i_ := h6
    have hrid := h2.rid
    have hleft := h2.left
    have hlast := h2.last
    obtain ⟨rs, hrs, hlen, hids⟩ := traverse_ids uid hb n fuel (by omega)
      it'.region_.reverse_id fuel it' h2 rfl (by omega) h6'
    refine ⟨rs, ?_, ?_⟩
    · have hne : ¬ project.min2 k n = 0 := by omega
      simp only [regions, ctor, if_neg hk0, if_neg hk1, next, hne, if_false, h1, hrs]
    · intro j r hj
      obtain ⟨hid, hrev⟩ := hids j r hj
      constructor
      · rw [hid, h8']
        omega
      · omega

end RegionIds

/-- C20. For a population of at least 1, at least one requested region and every
randomness source whose integer draws stay within the requested bounds, if one full
traversal visits `n` regions then the `j`-th of them (from 0) has `id == j` and
`reverse_id == n - 1 - j`: `id` counts up from 0, `reverse_id` goes down by one per
region and is 0 exactly at the last region. -/
theorem region_ids_count {G : Type} [BEq G] (uid : Nat → Nat → G → Nat × G)
    (hb : InBounds uid) (g : G) (pop_size num_regions fuel : Nat)
    (hpop : 1 ≤ pop_size) (hk : 1 ≤ num_regions) (hfuel : pop_size + 2 ≤ fuel) :
    ∃ rs, beyond_project.region_sample_iterator.regions uid fuel g pop_size num_regions
        = some rs ∧
      ∀ (j : Nat) (r : beyond_project.region), rs[j]? = some r →
        r.id = j ∧ r.reverse_id = rs.length - 1 - j ∧
        (r.reverse_id = 0 ↔ j + 1 = rs.length) := by
  obtain ⟨rs, hrs, hids⟩ := regions_ids uid hb fuel g pop_size num_regions hpop hk hfuel
  refine ⟨rs, hrs, ?_⟩
  intro j r hj
  obtain ⟨hid, hrev⟩ := hids j r hj
  refine ⟨hid, by omega, by omega⟩

/-- Witness of C20: a population of 10, three regions, scripted draws. -/
theorem region_ids_count_witness :
    InBounds scripted_uid ∧ 1 ≤ 10 ∧ 1 ≤ 3 ∧ 10 + 2 ≤ 12 ∧
    ∃ rs, beyond_project.region_sample_iterator.regions scripted_uid 12 [9, 3, 1, 7, 0] 10 3
        = some rs ∧
      ∀ (j : Nat) (r : beyond_project.region), rs[j]? = some r →
        r.id = j ∧ r.reverse_id = rs.length - 1 - j ∧
        (r.reverse_id = 0 ↔ j + 1 = rs.length) :=
  ⟨scripted_uid_inBounds, by decide, by decide, by decide,
    region_ids_count scripted_uid scripted_uid_inBounds [9, 3, 1, 7, 0] 10 3 12
      (by decide) (by decide) (by decide)⟩

/-! ## The mutation engine -/

section Mutation

variable {G S α : Type}

theorem mutate_eq_for_each (ud : G → ℚ × G) (individual : List α) (rate : ℚ)
    (m : S → α → α × S) (s : S) (g : G) :
    project.mutate ud individual rate m s g
      = project.mutate_for_each ud rate m individual s g := by
  cases individual with
  | nil => rfl
  | cons x xs => rfl

theorem for_each_length (ud : G → ℚ × G) (rate : ℚ) (m : S → α → α × S) :
    ∀ (xs : List α) (s : S) (g : G),
      (project.mutate_for_each ud rate m xs s g).1.length = xs.length := by
  intro xs
  induction xs with
  | nil => intro s g; rfl
  | cons x xs ih =>
    intro s g
    unfold project.mutate_for_each
    by_cases h : (ud g).1 < rate
    · simp only [h, if_true, List.length_cons, ih]
    · simp only [h, if_false, List.length_cons, ih]

theorem for_each_generator (ud : G → ℚ × G) (rate : ℚ) (m : S → α → α × S) :
    ∀ (xs : List α) (s : S) (g : G),
      (project.mutate_for_each ud rate m xs s g).2.2 = after_draws ud xs.length g := by
  intro xs
  induction xs with
  | nil => intro s g; rfl
  | cons x xs ih =>
    intro s g
    unfold project.mutate_for_each
    by_cases h : (ud g).1 < rate
    · simp only [h, if_true, List.length_cons, ih, after_draws]
    · simp only [h, if_false, List.length_cons, ih, after_draws]

theorem for_each_elements (ud : G → ℚ × G) (rate : ℚ) (m : S → α → α × S) :
    ∀ (xs : List α) (s : S) (g : G) (i : Nat) (x : α), xs[i]? = some x →
      if (ud (after_draws ud i g)).1 < rate then
        ∃ s', (project.mutate_for_each ud rate m xs s g).1[i]? = some (m s' x).1
      else
        (project.mutate_for_each ud rate m xs s g).1[i]? = some x := by
  intro xs
  induction xs with
  | nil => intro s g i x hx; simp at hx
  | cons y ys ih =>
    intro s g i x hx
    cases i with
    | zero =>
      simp only [List.getElem?_cons_zero, Option.some.injEq] at hx
      subst hx
      unfold project.mutate_for_each
      simp only [after_draws]
      by_cases h : (ud g).1 < rate
      · simp only [h, if_true, List.getElem?_cons_zero]
        exact ⟨s, rfl⟩
      · simp only [h, if_false, List.getElem?_cons_zero]
    | succ i =>
      simp only [List.getElem?_cons_succ] at hx
      unfold project.mutate_for_each
      simp only [after_draws]
      by_cases h : (ud g).1 < rate
      · simp only [h, if_true, List.getElem?_cons_succ]
        exact ih _ _ i x hx
      · simp only [h, if_false, List.getElem?_cons_succ]
        exact ih _ _ i x hx

theorem for_each_pure (ud : G → ℚ × G) (rate : ℚ) (m : S → α → α × S) (f : α → α)
    (hm : ∀ s x, m s x = (f x, s)) (xs : List α) (s : S) (g : G) (i : Nat) (x : α)
    (hx : xs[i]? = some x) :
    (project.mutate_for_each ud rate m xs s g).1[i]?
      = some (if (ud (after_draws ud i g)).1 < rate then f x else x) := by
  have h := for_each_elements ud rate m xs s g i x hx
  by_cases hd : (ud (after_draws ud i g)).1 < rate
  · rw [if_pos hd] at h ⊢
    obtain ⟨s', hs'⟩ := h
    rw [hs', hm]
  · rw [if_neg hd] at h ⊢
    exact h

/-- With a rate that no draw is below, the loop leaves the individual and the
operator's state as they were. -/
theorem for_each_never (ud : G → ℚ × G) (rate : ℚ) (m : S → α → α × S)
    (hd : ∀ g, ¬ (ud g).1 < rate) :
    ∀ (xs : List α) (s : S) (g : G),
      (project.mutate_for_each ud rate m xs s g).1 = xs ∧
      (project.mutate_for_each ud rate m xs s g).2.1 = s := by
  intro xs
  induction xs with
  | nil => intro s g; exact ⟨rfl, rfl⟩
  | cons x xs ih =>
    intro s g
    unfold project.mutate_for_each
    simp only [hd g, if_false]
    exact ⟨by rw [(ih s _).1], (ih s _).2⟩

/-- With a rate that every draw is below, the loop applies the operator to every
element in turn. -/
theorem for_each_always (ud : G → ℚ × G) (rate : ℚ) (m : S → α → α × S)
    (hd : ∀ g, (ud g).1 < rate) :
    ∀ (xs : List α) (s : S) (g : G),
      (project.mutate_for_each ud rate m xs s g).1 = (map_op m xs s).1 ∧
      (project.mutate_for_each ud rate m xs s g).2.1 = (map_op m xs s).2 := by
  intro xs
  induction xs with
  | nil => intro s g; exact ⟨rfl, rfl⟩
  | cons x xs ih =>
    intro s g
    unfold project.mutate_for_each map_op
    simp only [hd g, if_true]
    exact ⟨by rw [(ih _ _).1], (ih _ _).2⟩

theorem map_op_pure (m : S → α → α × S) (f : α → α) (hm : ∀ s x, m s x = (f x, s)) :
    ∀ (xs : List α) (s : S), (map_op m xs s).1 = xs.map f := by
  intro xs
  induction xs with
  | nil => intro s; rfl
  | cons x xs ih =>
    intro s
    unfold map_op
    simp only [List.map_cons, ih, hm]

theorem scripted_ud_unitDraws : UnitDraws scripted_ud := by
  intro g
  cases g with
  | nil =>
    refine ⟨le_refl _, ?_⟩
    show (0 : ℚ) < 1
    norm_num
  | cons d ds =>
    unfold scripted_ud
    by_cases h : 0 ≤ d ∧ d < 1
    · simp only [if_pos h]
      exact h
    · simp only [if_neg h]
      exact ⟨le_refl _, by norm_num⟩

end Mutation

/-! ## Claims on the mutation engine -/

/-- C12. For `mutate(individual, rate, m, urbg)`: exactly one draw is taken from the
randomness source per element, in order (the generator ends as after `|individual|`
draws, and the decision on element `i` uses the draw `d_i` made after `i` draws); the
length of `individual` is unchanged; and for every index `i` the resulting element is
`m(old element i)` if `d_i < rate` and the old element `i` otherwise (for an operator
with a state of its own, the value it returns on the old element; for an operator that
is a function `f`, the value `f(old element i)`). The `mutate` of `project_sina.hpp`
computes the same. -/
theorem mutate_elementwise {G S α : Type} (ud : G → ℚ × G) (individual : List α)
    (rate : ℚ) (m : S → α → α × S) (s : S) (g : G) :
    (project.mutate ud individual rate m s g).1.length = individual.length ∧
      (project.mutate ud individual rate m s g).2.2
        = after_draws ud individual.length g ∧
      (∀ (i : Nat) (x : α), individual[i]? = some x →
        if (ud (after_draws ud i g)).1 < rate then
          ∃ s', (project.mutate ud individual rate m s g).1[i]? = some (m s' x).1
        else
          (project.mutate ud individual rate m s g).1[i]? = some x) ∧
      (∀ f : α → α, (∀ s x, m s x = (f x, s)) →
        ∀ (i : Nat) (x : α), individual[i]? = some x →
          (project.mutate ud individual rate m s g).1[i]?
            = some (if (ud (after_draws ud i g)).1 < rate then f x else x)) ∧
      project_sina.mutate ud individual rate m s g
        = project.mutate ud individual rate m s g := by
  rw [mutate_eq_for_each]
  exact ⟨for_each_length ud rate m individual s g,
    for_each_generator ud rate m individual s g,
    for_each_elements ud rate m individual s g,
    fun f hm i x hx => for_each_pure ud rate m f hm individual s g i x hx, rfl⟩

/-- C13. For every sequence, every mutation operator and every randomness source whose
real draws lie in `[0, 1)`, `mutate` with `rate == 0` leaves every element of the
sequence unchanged (and never calls the operator: its state is unchanged). -/
theorem mutate_rate_zero {G S α : Type} (ud : G → ℚ × G) (hud : UnitDraws ud)
    (individual : List α) (m : S → α → α × S) (s : S) (g : G) :
    (project.mutate ud individual 0 m s g).1 = individual ∧
      (project.mutate ud individual 0 m s g).2.1 = s := by
  rw [mutate_eq_for_each]
  exact for_each_never ud 0 m (fun g' => not_lt.2 (hud g').1) individual s g

/-- Witness of C13: scripted draws on `[1, 2, 3]` with an operator that adds 10. -/
theorem mutate_rate_zero_witness :
    UnitDraws scripted_ud ∧
      (project.mutate scripted_ud [1, 2, 3] 0 (fun (s : Nat) (x : Nat) => (x + 10, s + 1)) 0
        [1 / 4, 0, 3 / 4]).1 = [1, 2, 3] ∧
      (project.mutate scripted_ud [1, 2, 3] 0 (fun (s : Nat) (x : Nat) => (x + 10, s + 1)) 0
        [1 / 4, 0, 3 / 4]).2.1 = 0 :=
  ⟨scripted_ud_unitDraws,
    mutate_rate_zero scripted_ud scripted_ud_unitDraws [1, 2, 3]
      (fun (s : Nat) (x : Nat) => (x + 10, s + 1)) 0 [1 / 4, 0, 3 / 4]⟩

/-- C14. For every sequence, every mutation operator `m` and every randomness source
whose real draws lie in `[0, 1)`, `mutate` with `rate == 1` replaces every element `x`
of the sequence by `m(x)`: the result is the operator applied to every element in turn
and, for an operator that is a function `f`, the element-wise map of `f` over the
input. -/
theorem mutate_rate_one {G S α : Type} (ud : G → ℚ × G) (hud : UnitDraws ud)
    (individual : List α) (m : S → α → α × S) (s : S) (g : G) :
    (project.mutate ud individual 1 m s g).1 = (map_op m individual s).1 ∧
      (project.mutate ud individual 1 m s g).2.1 = (map_op m individual s).2 ∧
      (∀ f : α → α, (∀ s x, m s x = (f x, s)) →
        (project.mutate ud individual 1 m s g).1 = individual.map f) := by
  rw [mutate_eq_for_each]
  have h := for_each_always ud 1 m (fun g' => (hud g').2) individual s g
  exact ⟨h.1, h.2, fun f hm => by rw [h.1, map_op_pure m f hm]⟩

/-- Witness of C14: scripted draws on `[1, 2, 3]` with an operator that adds 10. -/
theorem mutate_rate_one_witness :
    UnitDraws scripted_ud ∧
      (project.mutate scripted_ud [1, 2, 3] 1 (fun (s : Unit) (x : Nat) => (x + 10, s)) ()
        [1 / 4, 0, 3 / 4]).1
        = (map_op (fun (s : Unit) (x : Nat) => (x + 10, s)) [1, 2, 3] ()).1 ∧
      (project.mutate scripted_ud [1, 2, 3] 1 (fun (s : Unit) (x : Nat) => (x + 10, s)) ()
        [1 / 4, 0, 3 / 4]).2.1
        = (map_op (fun (s : Unit) (x : Nat) => (x + 10, s)) [1, 2, 3] ()).2 ∧
      (∀ f : Nat → Nat, (∀ s x, (fun (s : Unit) (x : Nat) => (x + 10, s)) s x = (f x, s)) →
        (project.mutate scripted_ud [1, 2, 3] 1 (fun (s : Unit) (x : Nat) => (x + 10, s)) ()
          [1 / 4, 0, 3 / 4]).1 = [1, 2, 3].map f) :=
  ⟨scripted_ud_unitDraws,
    mutate_rate_one scripted_ud scripted_ud_unitDraws [1, 2, 3]
      (fun (s : Unit) (x : Nat) => (x + 10, s)) () [1 / 4, 0, 3 / 4]⟩

/-! ## Crossover with one crossover point -/

section OnePoint

open beyond_project beyond_project.region_sample_iterator

variable {G G1 α : Type}

theorem scripted_sample_ok : SampleOK scripted_sample := by
  intro r n g
  cases g with
  | nil =>
    exact ⟨List.take_sublist _ _, by simp [scripted_sample]⟩
  | cons d ds =>
    refine ⟨(List.take_sublist _ _).trans (List.drop_sublist _ _), ?_⟩
    simp only [scripted_sample, List.length_take, List.length_drop]
    have := Nat.mod_lt d (show 0 < r.length - min n r.length + 1 by omega)
    omega

/-- Two regions over a population of `L ≥ 2`: they are `[0, k)` and `[k, L)` with
`1 ≤ k ≤ L - 1`. -/
theorem regions_two [BEq G] (uid : Nat → Nat → G → Nat × G) (hb : InBounds uid)
    (fuel : Nat) (g : G) (L : Nat) (hL : 2 ≤ L) (hfuel : L + 2 ≤ fuel) :
    ∃ r0 r1 : region, regions uid fuel g L 2 = some [r0, r1] ∧
      r0.from_ = 0 ∧ 1 ≤ r0.to_ ∧ r0.to_ ≤ L - 1 ∧ r1.from_ = r0.to_ ∧ r1.to_ = L := by
  obtain ⟨rs, hrs, hlen, _, hpart⟩ := regions_spec uid hb fuel g L 2 hfuel
  have hp := hpart (by omega) (by omega)
  have hlen2 : rs.length = 2 := by
    rw [hlen, if_neg (by omega)]
    omega
  match rs, hlen2, hp with
  | [r0, r1], _, hp =>
    obtain ⟨h1, h2, h3, h4, h5⟩ := hp
    have h5' : r1.to_ = L := h5
    exact ⟨r0, r1, hrs, h1, by omega, by omega, h3, h5'⟩

/-- The child of the crossover of `beyond_project.hpp` with one crossover point on
parents of equal length. -/
theorem beyond_crossover_one_point [BEq G] (bd : G1 → Bool × G1)
    (uid : Nat → Nat → G → Nat × G) (hb : InBounds uid) (fuel : Nat) (g1 : G1) (g2 : G)
    (p1 p2 : List α) (L : Nat) (h1 : p1.length = L) (h2 : p2.length = L) (hL : 2 ≤ L)
    (hfuel : L + 2 ≤ fuel) :
    ∃ k, 1 ≤ k ∧ k ≤ L - 1 ∧ ∀ tail, crossover bd uid fuel 1 g1 g2 p1 p2 [] tail
      = some ((if (bd g1).1 then p1 else p2).take k
          ++ (if (bd g1).1 then p2 else p1).drop k) := by
  obtain ⟨r0, r1, hrs, hf0, hk1, hk2, hf1, ht1⟩ := regions_two uid hb fuel g2 L hL hfuel
  refine ⟨r0.to_, hk1, hk2, ?_⟩
  intro tail
  have hadd : size_add 1 1 = 2 := by decide
  have hrs' : regions uid fuel g2 (min_range_size p1 p2) (size_add 1 1) = some [r0, r1] := by
    rw [min_range_size_eq, h1, h2, Nat.min_self, hadd]
    exact hrs
  have hs0 : size_sub r0.to_ r0.from_ = r0.to_ := by
    rw [hf0]
    simp [size_sub]
  have hs1 : size_sub r1.to_ r1.from_ = L - r0.to_ := by
    rw [hf1, ht1]
    unfold size_sub
    rw [if_pos (by omega)]
  have ht1' : ∀ p : List α, p.length = L → (p.drop r0.to_).take (L - r0.to_) = p.drop r0.to_ := by
    intro p hp
    apply List.take_of_length_le
    rw [List.length_drop, hp]
  have hd1' : ∀ p : List α, p.length = L → (p.drop r0.to_).drop (L - r0.to_) = [] := by
    intro p hp
    apply List.drop_eq_nil_of_le
    rw [List.length_drop, hp]
  rw [crossover_of_regions bd uid fuel 1 g1 g2 p1 p2 [] tail [r0, r1] hrs']
  simp only [copy_regions, hs0, hs1, ht1' p1 h1, ht1' p2 h2, hd1' p1 h1, hd1' p2 h2]
  cases tail <;> cases (bd g1).1 <;> simp

/-- The child of the crossover of `project.hpp` with one crossover point on parents of
equal length. -/
theorem project_crossover_one_point (bd : G1 → Bool × G1)
    (sample : List Nat → Nat → G → List Nat × G) (hs : SampleOK sample)
    (reserve_ok : Nat → Bool) (hr : reserve_ok 1 = true) (g1 : G1) (g2 : G)
    (p1 p2 : List α) (L : Nat) (h1 : p1.length = L) (h2 : p2.length = L) (hL : 2 ≤ L) :
    ∃ k, 1 ≤ k ∧ k ≤ L - 1 ∧ project.crossover bd sample reserve_ok 1 g1 g2 p1 p2
      = some ((if (bd g1).1 then p1 else p2).take k ++ (if (bd g1).1 then p2 else p1).drop k,
          (bd g1).2, (sample (List.range' 1 (L - 1)) 1 g2).2) := by
  obtain ⟨hsub, hlen⟩ := hs (List.range' 1 (L - 1)) 1 g2
  have hlen1 : (sample (List.range' 1 (L - 1)) 1 g2).1.length = 1 := by
    rw [hlen, List.length_range']
    omega
  obtain ⟨k, hk⟩ := List.length_eq_one.1 hlen1
  have hmem : k ∈ List.range' 1 (L - 1) := by
    apply hsub.subset
    rw [hk]
    exact List.mem_singleton_self k
  rw [List.mem_range'_1] at hmem
  refine ⟨k, hmem.1, by omega, ?_⟩
  have hne : ¬ (L = 0 ∨ (1 : Nat) = 0) := by omega
  simp only [project.crossover, h1, h2, min2_eq_min, Nat.min_self, if_neg hne, hr, if_true,
    hk, project.adjacent_difference, project.adjacent_difference_from,
    project.crossover_loop]
  cases (bd g1).1 <;> simp

end OnePoint

/-- C11. For crossover with exactly one crossover point on two parents of equal length
`L ≥ 2`, for every parent-choice draw and every boundary randomness source that
respects its contract, the child is a two-segment sequence: there is a `k` with
`1 ≤ k ≤ L - 1` such that the child is the first `k` elements of one parent followed by
the elements `k .. L - 1` of the other parent. The child is this function of the
parent-choice draw and of the boundary `k` alone. This holds for the crossover of
`beyond_project.hpp` (both values of the tail flag) and for the one of `project.hpp`,
which returns this child, with the two generators advanced by the parent-choice draw and
by the sample, when its reservation of room for the one offset succeeds. -/
theorem crossover_one_point_two_segments {G1 G2 G3 α : Type} [BEq G2]
    (bd : G1 → Bool × G1) (uid : Nat → Nat → G2 → Nat × G2) (hb : InBounds uid)
    (sample : List Nat → Nat → G3 → List Nat × G3) (hs : SampleOK sample)
    (reserve_ok : Nat → Bool) (hr : reserve_ok 1 = true) (fuel : Nat)
    (g1 : G1) (g2 : G2) (g3 : G3) (parent1 parent2 : List α) (L : Nat)
    (h1 : parent1.length = L) (h2 : parent2.length = L) (hL : 2 ≤ L)
    (hfuel : L + 2 ≤ fuel) :
    (∃ k, 1 ≤ k ∧ k ≤ L - 1 ∧
      ∀ tail, beyond_project.crossover bd uid fuel 1 g1 g2 parent1 parent2 [] tail
        = some ((if (bd g1).1 then parent1 else parent2).take k
            ++ (if (bd g1).1 then parent2 else parent1).drop k)) ∧
    (∃ k, 1 ≤ k ∧ k ≤ L - 1 ∧
      project.crossover bd sample reserve_ok 1 g1 g3 parent1 parent2
        = some ((if (bd g1).1 then parent1 else parent2).take k
            ++ (if (bd g1).1 then parent2 else parent1).drop k,
          (bd g1).2, (sample (List.range' 1 (L - 1)) 1 g3).2)) :=
  ⟨beyond_crossover_one_point bd uid hb fuel g1 g2 parent1 parent2 L h1 h2 hL hfuel,
    project_crossover_one_point bd sample hs reserve_ok hr g1 g3 parent1 parent2 L h1 h2 hL⟩

/-- Witness of C11: the parents `"AAAAAA"` and `"BBBBBB"`. -/
theorem crossover_one_point_two_segments_witness :
    InBounds scripted_uid ∧ SampleOK scripted_sample ∧
    reserve_within (2 ^ 60 - 1) 1 = true ∧ "AAAAAA".toList.length = 6 ∧
    "BBBBBB".toList.length = 6 ∧ 2 ≤ 6 ∧ 6 + 2 ≤ 8 ∧
    (∃ k, 1 ≤ k ∧ k ≤ 6 - 1 ∧
      ∀ tail, beyond_project.crossover scripted_bd scripted_uid 8 1 [true] [5, 2, 0]
          "AAAAAA".toList "BBBBBB".toList [] tail
        = some ((if (scripted_bd [true]).1 then "AAAAAA".toList else "BBBBBB".toList).take k
            ++ (if (scripted_bd [true]).1 then "BBBBBB".toList else "AAAAAA".toList).drop k)) ∧
    (∃ k, 1 ≤ k ∧ k ≤ 6 - 1 ∧
      project.crossover scripted_bd scripted_sample (reserve_within (2 ^ 60 - 1)) 1 [true]
          [2] "AAAAAA".toList "BBBBBB".toList
        = some ((if (scripted_bd [true]).1 then "AAAAAA".toList else "BBBBBB".toList).take k
            ++ (if (scripted_bd [true]).1 then "BBBBBB".toList else "AAAAAA".toList).drop k,
          (scripted_bd [true]).2, (scripted_sample (List.range' 1 (6 - 1)) 1 [2]).2)) :=
  ⟨scripted_uid_inBounds, scripted_sample_ok, by decide, by decide, by decide, by decide,
    by decide,
    crossover_one_point_two_segments scripted_bd scripted_uid scripted_uid_inBounds
      scripted_sample scripted_sample_ok (reserve_within (2 ^ 60 - 1)) (by decide) 8 [true]
      [5, 2, 0] [2] "AAAAAA".toList "BBBBBB".toList 6 (by decide) (by decide) (by decide)
      (by decide)⟩

/-! ## Triangle inequality of the edit distance -/

section Triangle

variable {α : Type} [DecidableEq α]

omit [DecidableEq α] in
/-- Sequences of edits compose: edits from `a` to `b` and from `b` to `c` give edits
from `a` to `c` that are not longer than both together. -/
theorem edits_trans : ∀ (N : Nat) (a b c : List α) (n m : Nat),
    a.length + b.length + c.length ≤ N → Edits a b n → Edits b c m →
    ∃ k, k ≤ n + m ∧ Edits a c k := by
  intro N
  induction N with
  | zero =>
    intro a b c n m hN e1 e2
    have ha : a = [] := List.length_eq_zero.1 (by omega)
    have hb : b = [] := List.length_eq_zero.1 (by omega)
    subst ha hb
    cases e1
    exact ⟨m, by omega, e2⟩
  | succ N ih =>
    intro a b c n m hN e1 e2
    cases e1 with
    | done => exact ⟨m, by omega, e2⟩
    | delete x e1' =>
      obtain ⟨k, hk, e⟩ := ih _ _ _ _ _ (by simp only [List.length_cons] at hN ⊢; omega) e1' e2
      exact ⟨k + 1, by omega, Edits.delete x e⟩
    | keep x e1' =>
      cases e2 with
      | keep _ e2' =>
        obtain ⟨k, hk, e⟩ := ih _ _ _ _ _ (by simp only [List.length_cons] at hN ⊢; omega) e1' e2'
        exact ⟨k, by omega, Edits.keep x e⟩
      | substitute _ y e2' =>
        obtain ⟨k, hk, e⟩ := ih _ _ _ _ _ (by simp only [List.length_cons] at hN ⊢; omega) e1' e2'
        exact ⟨k + 1, by omega, Edits.substitute x y e⟩
      | delete _ e2' =>
        obtain ⟨k, hk, e⟩ := ih _ _ _ _ _ (by simp only [List.length_cons] at hN ⊢; omega) e1' e2'
        exact ⟨k + 1, by omega, Edits.delete x e⟩
      | insert y e2' =>
        obtain ⟨k, hk, e⟩ := ih _ _ _ _ _ (by simp only [List.length_cons] at hN ⊢; omega) (Edits.keep x e1') e2'
        exact ⟨k + 1, by omega, Edits.insert y e⟩
    | substitute x y e1' =>
      cases e2 with
      | keep _ e2' =>
        obtain ⟨k, hk, e⟩ := ih _ _ _ _ _ (by simp only [List.length_cons] at hN ⊢; omega) e1' e2'
        exact ⟨k + 1, by omega, Edits.substitute x y e⟩
      | substitute _ z e2' =>
        obtain ⟨k, hk, e⟩ := ih _ _ _ _ _ (by simp only [List.length_cons] at hN ⊢; omega) e1' e2'
        exact ⟨k + 1, by omega, Edits.substitute x z e⟩
      | delete _ e2' =>
        obtain ⟨k, hk, e⟩ := ih _ _ _ _ _ (by simp only [List.length_cons] at hN ⊢; omega) e1' e2'
        exact ⟨k + 1, by omega, Edits.delete x e⟩
      | insert z e2' =>
        obtain ⟨k, hk, e⟩ := ih _ _ _ _ _ (by simp only [List.length_cons] at hN ⊢; omega)
          (Edits.substitute x y e1') e2'
        exact ⟨k + 1, by omega, Edits.insert z e⟩
    | insert y e1' =>
      cases e2 with
      | keep _ e2' =>
        obtain ⟨k, hk, e⟩ := ih _ _ _ _ _ (by simp only [List.length_cons] at hN ⊢; omega) e1' e2'
        exact ⟨k + 1, by omega, Edits.insert y e⟩
      | substitute _ z e2' =>
        obtain ⟨k, hk, e⟩ := ih _ _ _ _ _ (by simp only [List.length_cons] at hN ⊢; omega) e1' e2'
        exact ⟨k + 1, by omega, Edits.insert z e⟩
      | delete _ e2' =>
        obtain ⟨k, hk, e⟩ := ih _ _ _ _ _ (by simp only [List.length_cons] at hN ⊢; omega) e1' e2'
        exact ⟨k, by omega, e⟩
      | insert z e2' =>
        obtain ⟨k, hk, e⟩ := ih _ _ _ _ _ (by simp only [List.length_cons] at hN ⊢; omega) (Edits.insert y e1') e2'
        exact ⟨k + 1, by omega, Edits.insert z e⟩

theorem lev_triangle (a b c : List α) : lev a c ≤ lev a b + lev b c := by
  obtain ⟨k, hk, e⟩ := edits_trans _ a b c _ _ (le_refl _) (edits_lev a b) (edits_lev b c)
  exact le_trans (lev_le_of_edits e) hk

end Triangle

/-- C30. For all finite sequences `a`, `b`, `c` of the same element type,
`levenshtein(a, c) <= levenshtein(a, b) + levenshtein(b, c)`, in both variants. -/
theorem levenshtein_triangle {α : Type} [DecidableEq α] (a b c : List α) :
    beyond_project.levenshtein a c
        ≤ beyond_project.levenshtein a b + beyond_project.levenshtein b c ∧
      project.levenshtein a c ≤ project.levenshtein a b + project.levenshtein b c := by
  simp only [beyond_levenshtein_eq_lev, project_levenshtein_eq_lev]
  exact ⟨lev_triangle a b c, lev_triangle a b c⟩

/-! ## The probes of the region sampling iterator -/

section Probes

open beyond_project beyond_project.region_sample_iterator

variable {G : Type}

/-- The loop of `next()` is the repetition of `probe` until a boundary is found. -/
theorem next_loop_succ (uid : Nat → Nat → G → Nat × G) (fuel : Nat)
    (it : region_sample_iterator G) :
    next_loop uid (fuel + 1) it
      = match probe uid it with
        | none => none
        | some (true, it') => some it'
        | some (false, it') => next_loop uid fuel it' := by
  rw [next_loop, probe]
  cases it.urbg_ with
  | none => rfl
  | some g =>
    simp only []
    split <;> rfl

/-- The constructor with at least two regions calls `next()` in the state `ctor_init`. -/
theorem ctor_eq_next (uid : Nat → Nat → G → Nat × G) (fuel : Nat) (g : G) (n k : Nat)
    (hk : 2 ≤ k) : ctor uid fuel g n k = next uid fuel (ctor_init g n k) := by
  have h0 : ¬ k = 0 := by omega
  have h1 : ¬ k ≤ 1 := by omega
  simp only [ctor, if_neg h0, if_neg h1, ctor_init]

theorem ctor_init_inv (g : G) (n k : Nat) : IterInv n (ctor_init g n k) := by
  refine ⟨rfl, rfl, ?_, ?_, ?_⟩
  · show 1 + n = n + 1
    omega
  · show project.min2 k n ≤ n
    rw [min2_eq_min]
    omega
  · show 0 < 1
    omega

/-- One probe in a state that satisfies the invariant, with a region still to find:
the counter is at least 1 and goes down by one without wrapping, and the invariant
holds again. -/
theorem probe_inv (uid : Nat → Nat → G → Nat × G) (hb : InBounds uid) (n : Nat)
    (it it' : region_sample_iterator G) (found : Bool) (hinv : IterInv n it)
    (hrid : 0 < it.region_.reverse_id) (hp : probe uid it = some (found, it')) :
    IterInv n it' ∧ it'.num_in_pop_left_ + 1 = it.num_in_pop_left_ := by
  obtain ⟨hu, hpop, hleft, hr, hlast⟩ := hinv
  rcases hg : it.urbg_ with _ | g
  · rw [hg] at hu
    simp at hu
  · have hdec : size_sub it.num_in_pop_left_ 1 = it.num_in_pop_left_ - 1 := by
      unfold size_sub
      rw [if_pos (by omega)]
    have hdec' : size_sub it.region_.reverse_id 1 = it.region_.reverse_id - 1 := by
      unfold size_sub
      rw [if_pos (by omega)]
    have hdraw := (hb 0 (it.num_in_pop_left_ - 1) g (Nat.zero_le _)).2
    unfold probe at hp
    simp only [hg, hdec, hdec'] at hp
    by_cases hacc : (uid 0 (it.num_in_pop_left_ - 1) g).1 < it.region_.reverse_id
    · rw [if_pos hacc] at hp
      simp only [Option.some.injEq, Prod.mk.injEq] at hp
      obtain ⟨_, rfl⟩ := hp
      refine ⟨⟨rfl, hpop, ?_, ?_, ?_⟩, ?_⟩
      · show it.i_ + 1 + (it.num_in_pop_left_ - 1) = n + 1
        omega
      · show it.region_.reverse_id - 1 ≤ it.num_in_pop_left_ - 1
        omega
      · show it.i_ < it.i_ + 1
        omega
      · show it.num_in_pop_left_ - 1 + 1 = it.num_in_pop_left_
        omega
    · rw [if_neg hacc] at hp
      simp only [Option.some.injEq, Prod.mk.injEq] at hp
      obtain ⟨_, rfl⟩ := hp
      refine ⟨⟨rfl, hpop, ?_, ?_, ?_⟩, ?_⟩
      · show it.i_ + 1 + (it.num_in_pop_left_ - 1) = n + 1
        omega
      · show it.region_.reverse_id ≤ it.num_in_pop_left_ - 1
        omega
      · show it.last_i_ < it.i_ + 1
        omega
      · show it.num_in_pop_left_ - 1 + 1 = it.num_in_pop_left_
        omega

/-- Every state in which a probe can start satisfies the invariant, and the probes
made so far are as many as the counter went down. -/
theorem probeReach_inv (uid : Nat → Nat → G → Nat × G) (hb : InBounds uid) (g : G)
    (n k d : Nat) (it : region_sample_iterator G) (h : ProbeReach uid g n k d it) :
    IterInv n it ∧ d + it.num_in_pop_left_ = n := by
  induction h with
  | start => exact ⟨ctor_init_inv g n k, by show 0 + n = n; omega⟩
  | step _ hrid hp ih =>
    obtain ⟨hinv, hd⟩ := ih
    obtain ⟨hinv', hdec⟩ := probe_inv uid hb n _ _ _ hinv hrid hp
    exact ⟨hinv', by omega⟩

/-- In a state that satisfies the invariant `next()` returns. -/
theorem next_returns (uid : Nat → Nat → G → Nat × G) (hb : InBounds uid) (n fuel : Nat)
    (it : region_sample_iterator G) (hinv : IterInv n it) (hfuel : n ≤ fuel) :
    ∃ it', next uid fuel it = some it' := by
  unfold next
  by_cases h0 : it.region_.reverse_id = 0
  · rw [if_pos h0]
    exact ⟨_, rfl⟩
  · rw [if_neg h0]
    have hleft := hinv.left
    have hlast := hinv.last
    obtain ⟨it', h1, _⟩ := next_loop_spec uid hb n fuel it hinv (by omega) (by omega)
    exact ⟨it', h1⟩

end Probes

/-- C26. For a population of at least 1, at least one requested region and every
randomness source whose integer draws stay within the requested bounds, one full
traversal visits exactly `min(num_regions, pop_size)` regions, never fewer, and every
visited region is non-empty (`from < to`). -/
theorem region_count_exact {G : Type} [BEq G] (uid : Nat → Nat → G → Nat × G)
    (hb : InBounds uid) (g : G) (pop_size num_regions fuel : Nat)
    (hpop : 1 ≤ pop_size) (hk : 1 ≤ num_regions) (hfuel : pop_size + 2 ≤ fuel) :
    ∃ rs, beyond_project.region_sample_iterator.regions uid fuel g pop_size num_regions
        = some rs ∧
      rs.length = min num_regions pop_size ∧ ∀ r ∈ rs, r.from_ < r.to_ := by
  obtain ⟨rs, hrs, hlen, _, hpart⟩ := regions_spec uid hb fuel g pop_size num_regions hfuel
  refine ⟨rs, hrs, ?_, fun r hr => (partition_mem _ _ _ (hpart hk hpop) r hr).2.1⟩
  rw [hlen]
  split <;> omega

/-- Witness of C26: a population of 3 with 5 requested regions. -/
theorem region_count_exact_witness :
    InBounds scripted_uid ∧ 1 ≤ 3 ∧ 1 ≤ 5 ∧ 3 + 2 ≤ 5 ∧
    ∃ rs, beyond_project.region_sample_iterator.regions scripted_uid 5 [2, 1, 1] 3 5
        = some rs ∧
      rs.length = min 5 3 ∧ ∀ r ∈ rs, r.from_ < r.to_ :=
  ⟨scripted_uid_inBounds, by decide, by decide, by decide,
    region_count_exact scripted_uid scripted_uid_inBounds [2, 1, 1] 3 5 5 (by decide)
      (by decide) (by decide)⟩

/-- C28. One probe of `next()` in a state holding the generator `g`, with
`reverse_id > 0`, remaining count `n >= 1`, previous boundary `p = last_i_` and current
position `c = i_`: the draw `r` is requested from `[0, n - 1]` and the remaining count
becomes `n - 1`; if `r < reverse_id` the current region becomes `from = p`, `to = c`
when `reverse_id - 1 > 0` and `to = pop_size` otherwise, `reverse_id` is decremented
(and `id` incremented when `p > 0`), the previous boundary becomes `c` and the loop
stops; if `r >= reverse_id` the region and the previous boundary are unchanged and the
loop goes on; in both cases the current position becomes `c + 1`. -/
theorem probe_step {G : Type} (uid : Nat → Nat → G → Nat × G)
    (it : beyond_project.region_sample_iterator G) (g : G) (hg : it.urbg_ = some g)
    (hrid : 0 < it.region_.reverse_id) (hn : 1 ≤ it.num_in_pop_left_) :
    ∃ it', probe uid it
        = some (decide ((uid 0 (it.num_in_pop_left_ - 1) g).1 < it.region_.reverse_id), it') ∧
      it'.urbg_ = some (uid 0 (it.num_in_pop_left_ - 1) g).2 ∧
      it'.num_in_pop_left_ = it.num_in_pop_left_ - 1 ∧
      it'.i_ = it.i_ + 1 ∧
      it'.pop_size_ = it.pop_size_ ∧
      ((uid 0 (it.num_in_pop_left_ - 1) g).1 < it.region_.reverse_id →
        it'.region_.from_ = it.last_i_ ∧
        it'.region_.to_ = (if 0 < it.region_.reverse_id - 1 then it.i_ else it.pop_size_) ∧
        it'.region_.reverse_id = it.region_.reverse_id - 1 ∧
        it'.region_.id = (if 0 < it.last_i_ then it.region_.id + 1 else it.region_.id) ∧
        it'.last_i_ = it.i_) ∧
      (¬ (uid 0 (it.num_in_pop_left_ - 1) g).1 < it.region_.reverse_id →
        it'.region_ = it.region_ ∧ it'.last_i_ = it.last_i_) ∧
      ∀ fuel, beyond_project.region_sample_iterator.next_loop uid (fuel + 1) it
        = (if (uid 0 (it.num_in_pop_left_ - 1) g).1 < it.region_.reverse_id then some it'
          else beyond_project.region_sample_iterator.next_loop uid fuel it') := by
  have hdec : beyond_project.size_sub it.num_in_pop_left_ 1 = it.num_in_pop_left_ - 1 := by
    unfold beyond_project.size_sub
    rw [if_pos hn]
  have hdec' : beyond_project.size_sub it.region_.reverse_id 1
      = it.region_.reverse_id - 1 := by
    unfold beyond_project.size_sub
    rw [if_pos (show 1 ≤ it.region_.reverse_id from hrid)]
  by_cases hacc : (uid 0 (it.num_in_pop_left_ - 1) g).1 < it.region_.reverse_id
  · refine ⟨{ urbg_ := some (uid 0 (it.num_in_pop_left_ - 1) g).2
              pop_size_ := it.pop_size_
              num_in_pop_left_ := it.num_in_pop_left_ - 1
              last_i_ := it.i_
              i_ := it.i_ + 1
              region_ :=
                { reverse_id := it.region_.reverse_id - 1
                  id := if it.last_i_ > 0 then it.region_.id + 1 else it.region_.id
                  from_ := it.last_i_
                  to_ := if it.region_.reverse_id - 1 > 0 then it.i_ else it.pop_size_ } },
      ?_, rfl, rfl, rfl, rfl, fun _ => ⟨rfl, rfl, rfl, rfl, rfl⟩, fun h => absurd hacc h, ?_⟩
    · simp only [probe, hg, hdec, hdec', if_pos hacc, decide_eq_true hacc]
    · intro fuel
      rw [next_loop_succ]
      simp only [probe, hg, hdec, hdec', if_pos hacc]
  · refine ⟨{ urbg_ := some (uid 0 (it.num_in_pop_left_ - 1) g).2
              pop_size_ := it.pop_size_
              num_in_pop_left_ := it.num_in_pop_left_ - 1
              last_i_ := it.last_i_
              i_ := it.i_ + 1
              region_ := it.region_ },
      ?_, rfl, rfl, rfl, rfl, fun h => absurd h hacc, fun _ => ⟨rfl, rfl⟩, ?_⟩
    · simp only [probe, hg, hdec, if_neg hacc, decide_eq_false hacc]
    · intro fuel
      rw [next_loop_succ]
      simp only [probe, hg, hdec, if_neg hacc]

/-- Witness of C28: the first probe of an iterator over a population of 10 with three
regions. -/
theorem probe_step_witness :
    (ctor_init [9, 3, 1] 10 3).urbg_ = some [9, 3, 1] ∧
    0 < (ctor_init [9, 3, 1] 10 3).region_.reverse_id ∧
    1 ≤ (ctor_init [9, 3, 1] 10 3).num_in_pop_left_ ∧
    ∃ it', probe scripted_uid (ctor_init [9, 3, 1] 10 3)
        = some (decide ((scripted_uid 0 ((ctor_init [9, 3, 1] 10 3).num_in_pop_left_ - 1)
              [9, 3, 1]).1 < (ctor_init [9, 3, 1] 10 3).region_.reverse_id), it') ∧
      it'.urbg_ = some (scripted_uid 0 ((ctor_init [9, 3, 1] 10 3).num_in_pop_left_ - 1)
        [9, 3, 1]).2 ∧
      it'.num_in_pop_left_ = (ctor_init [9, 3, 1] 10 3).num_in_pop_left_ - 1 ∧
      it'.i_ = (ctor_init [9, 3, 1] 10 3).i_ + 1 ∧
      it'.pop_size_ = (ctor_init [9, 3, 1] 10 3).pop_size_ ∧
      ((scripted_uid 0 ((ctor_init [9, 3, 1] 10 3).num_in_pop_left_ - 1) [9, 3, 1]).1
          < (ctor_init [9, 3, 1] 10 3).region_.reverse_id →
        it'.region_.from_ = (ctor_init [9, 3, 1] 10 3).last_i_ ∧
        it'.region_.to_ = (if 0 < (ctor_init [9, 3, 1] 10 3).region_.reverse_id - 1
          then (ctor_init [9, 3, 1] 10 3).i_ else (ctor_init [9, 3, 1] 10 3).pop_size_) ∧
        it'.region_.reverse_id = (ctor_init [9, 3, 1] 10 3).region_.reverse_id - 1 ∧
        it'.region_.id = (if 0 < (ctor_init [9, 3, 1] 10 3).last_i_
          then (ctor_init [9, 3, 1] 10 3).region_.id + 1
          else (ctor_init [9, 3, 1] 10 3).region_.id) ∧
        it'.last_i_ = (ctor_init [9, 3, 1] 10 3).i_) ∧
      (¬ (scripted_uid 0 ((ctor_init [9, 3, 1] 10 3).num_in_pop_left_ - 1) [9, 3, 1]).1
          < (ctor_init [9, 3, 1] 10 3).region_.reverse_id →
        it'.region_ = (ctor_init [9, 3, 1] 10 3).region_ ∧
        it'.last_i_ = (ctor_init [9, 3, 1] 10 3).last_i_) ∧
      ∀ fuel, beyond_project.region_sample_iterator.next_loop scripted_uid (fuel + 1)
          (ctor_init [9, 3, 1] 10 3)
        = (if (scripted_uid 0 ((ctor_init [9, 3, 1] 10 3).num_in_pop_left_ - 1) [9, 3, 1]).1
            < (ctor_init [9, 3, 1] 10 3).region_.reverse_id then some it'
          else beyond_project.region_sample_iterator.next_loop scripted_uid fuel it') :=
  ⟨rfl, by decide, by decide,
    probe_step scripted_uid (ctor_init [9, 3, 1] 10 3) [9, 3, 1] rfl (by decide) (by decide)⟩

/-- C29. For every population size, every number of regions `>= 2` and every randomness
source whose integer draws stay within the requested bounds: the construction and the
whole traversal return, and in every state in which a probe can start, reached after `d`
probes (one draw each), `d + num_in_pop_left_ == pop_size`, so at most `pop_size` draws
are made in all; `next()` returns from that state; and if a probe is made there
(`reverse_id > 0`) the counter is at least 1, so `--num_in_pop_left_` does not wrap. -/
theorem next_terminates_without_wrap {G : Type} [BEq G] (uid : Nat → Nat → G → Nat × G)
    (hb : InBounds uid) (g : G) (pop_size num_regions fuel : Nat) (hk : 2 ≤ num_regions)
    (hfuel : pop_size + 2 ≤ fuel) :
    (∃ it, beyond_project.region_sample_iterator.ctor uid fuel g pop_size num_regions
        = some it) ∧
    (∃ rs, beyond_project.region_sample_iterator.regions uid fuel g pop_size num_regions
        = some rs) ∧
    ∀ (d : Nat) (it : beyond_project.region_sample_iterator G),
      ProbeReach uid g pop_size num_regions d it →
        d + it.num_in_pop_left_ = pop_size ∧ d ≤ pop_size ∧
        (∃ it', beyond_project.region_sample_iterator.next uid fuel it = some it') ∧
        (0 < it.region_.reverse_id →
          1 ≤ it.num_in_pop_left_ ∧
          beyond_project.size_sub it.num_in_pop_left_ 1 + 1 = it.num_in_pop_left_) := by
  refine ⟨?_, ?_, ?_⟩
  · rw [ctor_eq_next uid fuel g pop_size num_regions hk]
    exact next_returns uid hb pop_size fuel _ (ctor_init_inv g pop_size num_regions)
      (by omega)
  · obtain ⟨rs, hrs, _⟩ := regions_spec uid hb fuel g pop_size num_regions hfuel
    exact ⟨rs, hrs⟩
  · intro d it hreach
    obtain ⟨hinv, hd⟩ := probeReach_inv uid hb g pop_size num_regions d it hreach
    refine ⟨hd, by omega, next_returns uid hb pop_size fuel it hinv (by omega), ?_⟩
    intro hrid
    have hr := hinv.rid
    refine ⟨by omega, ?_⟩
    unfold beyond_project.size_sub
    rw [if_pos (by omega)]
    omega

/-- Witness of C29: a population of 10, three regions, scripted draws. -/
theorem next_terminates_without_wrap_witness :
    InBounds scripted_uid ∧ 2 ≤ 3 ∧ 10 + 2 ≤ 12 ∧
    (∃ it, beyond_project.region_sample_iterator.ctor scripted_uid 12 [9, 3, 1, 7, 0] 10 3
        = some it) ∧
    (∃ rs, beyond_project.region_sample_iterator.regions scripted_uid 12 [9, 3, 1, 7, 0] 10 3
        = some rs) ∧
    ∀ (d : Nat) (it : beyond_project.region_sample_iterator (List Nat)),
      ProbeReach scripted_uid [9, 3, 1, 7, 0] 10 3 d it →
        d + it.num_in_pop_left_ = 10 ∧ d ≤ 10 ∧
        (∃ it', beyond_project.region_sample_iterator.next scripted_uid 12 it = some it') ∧
        (0 < it.region_.reverse_id →
          1 ≤ it.num_in_pop_left_ ∧
          beyond_project.size_sub it.num_in_pop_left_ 1 + 1 = it.num_in_pop_left_) :=
  ⟨scripted_uid_inBounds, by decide, by decide,
    next_terminates_without_wrap scripted_uid scripted_uid_inBounds [9, 3, 1, 7, 0] 10 3 12
      (by decide) (by decide)⟩

/-! ## Crossover: empty parents, sources of the regions, the crossover of `project.hpp` -/

section CrossoverMore

open beyond_project beyond_project.region_sample_iterator

variable {G G1 α : Type}

/-- On an empty population the construction and the traversal return without a draw,
whatever the distribution does. -/
theorem regions_zero_pop [BEq G] (uid : Nat → Nat → G → Nat × G) (fuel : Nat) (g : G)
    (k : Nat) (hfuel : 2 ≤ fuel) : ∃ rs, regions uid fuel g 0 k = some rs := by
  by_cases hk0 : k = 0
  · subst hk0
    refine ⟨[⟨0, 0, 0, 0⟩], ?_⟩
    simp only [regions, ctor, if_true]
    exact traverse_last uid fuel fuel _ rfl rfl hfuel
  by_cases hk1 : k ≤ 1
  · have hk : k = 1 := by omega
    subst hk
    exact ⟨_, regions_one uid fuel g 0 hfuel⟩
  · refine ⟨[], ?_⟩
    obtain ⟨f, rfl⟩ : ∃ f, fuel = f + 1 := ⟨fuel - 1, by omega⟩
    simp only [regions, ctor, if_neg hk0, if_neg hk1, next, min2_eq_min, Nat.min_zero,
      if_true, region_sample_iterator.traverse, operator_ne_end]
    simp

/-- Copying any regions from two exhausted parents writes nothing. -/
theorem copy_regions_nil : ∀ (rs : List region) (w : Bool) (out : List α),
    (copy_regions rs ⟨w, [], [], out⟩).out = out ∧
      (copy_regions rs ⟨w, [], [], out⟩).p1it = [] ∧
      (copy_regions rs ⟨w, [], [], out⟩).p2it = [] := by
  intro rs
  induction rs with
  | nil => intro w out; exact ⟨rfl, rfl, rfl⟩
  | cons r rs ih =>
    intro w out
    rw [copy_regions]
    simp only [List.drop_nil, List.take_nil, List.append_nil, ite_self]
    exact ih (!w) out

end CrossoverMore

/-- C21. For the crossover of `beyond_project.hpp`, when both parents are empty then for
every number of crossover points, every value of the tail flag and every randomness
source (whatever it draws) nothing is appended to the output: the returned sink holds
exactly the content it held on entry. -/
theorem crossover_empty_parents {G1 G2 α : Type} [BEq G2] (bd : G1 → Bool × G1)
    (uid : Nat → Nat → G2 → Nat × G2) (fuel ncrossover_points : Nat) (g1 : G1) (g2 : G2)
    (out : List α) (copy_longer_range_tail : Bool) (hfuel : 2 ≤ fuel) :
    beyond_project.crossover bd uid fuel ncrossover_points g1 g2 [] [] out
      copy_longer_range_tail = some out := by
  obtain ⟨rs, hrs⟩ := regions_zero_pop uid fuel g2
    (beyond_project.size_add ncrossover_points 1) hfuel
  have hrs' : beyond_project.region_sample_iterator.regions uid fuel g2
      (beyond_project.min_range_size ([] : List α) [])
      (beyond_project.size_add ncrossover_points 1) = some rs := hrs
  rw [crossover_of_regions bd uid fuel ncrossover_points g1 g2 [] [] out
    copy_longer_range_tail rs hrs']
  obtain ⟨h1, h2, h3⟩ := copy_regions_nil rs (bd g1).1 out
  rw [h1, h2, h3]
  simp

/-- Witness of C21: three crossover points on two empty parents. -/
theorem crossover_empty_parents_witness :
    2 ≤ 2 ∧ beyond_project.crossover scripted_bd scripted_uid 2 3 [true] [5, 1]
      ([] : List Nat) [] [7, 8] true = some [7, 8] :=
  ⟨le_refl 2, crossover_empty_parents scripted_bd scripted_uid 2 3 [true] [5, 1] [7, 8] true
    (le_refl 2)⟩

/-- C23. For the crossover of `project.hpp`, when `ncrossover_points == 0` or the
shorter parent is empty, the call returns, and the result is one of the two parents in
full, `parent1` when the parent-choice draw is `true` and `parent2` otherwise; the
parent-choice generator is left as after that one draw, and the boundary generator is
left in the state in which it was passed, whatever the sampler would do to it and
whatever the outcome of a reservation would be: no boundary draw is consumed. -/
theorem project_crossover_no_points {G1 G2 α : Type} (bd : G1 → Bool × G1)
    (sample : List Nat → Nat → G2 → List Nat × G2) (reserve_ok : Nat → Bool)
    (ncrossover_points : Nat) (g1 : G1) (g2 : G2) (parent1 parent2 : List α)
    (h : ncrossover_points = 0 ∨ min parent1.length parent2.length = 0) :
    project.crossover bd sample reserve_ok ncrossover_points g1 g2 parent1 parent2
      = some (if (bd g1).1 then parent1 else parent2, (bd g1).2, g2) := by
  have h' : min parent1.length parent2.length = 0 ∨ ncrossover_points = 0 := h.symm
  simp only [project.crossover, min2_eq_min, if_pos h']

/-- Witness of C23: no crossover point on `"AAAA"` and `"BBBB"`, with a sampler that
would use up the boundary generator and a reservation that would fail. -/
theorem project_crossover_no_points_witness :
    ((0 : Nat) = 0 ∨ min "AAAA".toList.length "BBBB".toList.length = 0) ∧
    project.crossover scripted_bd scripted_sample (reserve_within 0) 0 [true, false] [4, 7]
        "AAAA".toList "BBBB".toList
      = some (if (scripted_bd [true, false]).1 then "AAAA".toList else "BBBB".toList,
          (scripted_bd [true, false]).2, [4, 7]) :=
  ⟨Or.inl rfl, project_crossover_no_points scripted_bd scripted_sample (reserve_within 0) 0
    [true, false] [4, 7] "AAAA".toList "BBBB".toList (Or.inl rfl)⟩

section CrossoverSources

open beyond_project beyond_project.region_sample_iterator

variable {G G1 α : Type}

theorem contiguous_mem : ∀ (rs : List region) (c e : Nat), Contiguous c e rs →
    ∀ r ∈ rs, c ≤ r.from_ ∧ r.from_ ≤ r.to_ ∧ r.to_ ≤ e := by
  intro rs
  induction rs with
  | nil => intro c e _ r hr; simp at hr
  | cons r0 rs ih =>
    intro c e h r hr
    obtain ⟨h1, h2, h3⟩ := h
    rcases List.mem_cons.1 hr with rfl | hmem
    · exact ⟨Nat.le_of_eq h1.symm, by omega, contiguous_le _ _ _ h3⟩
    · have := ih _ _ h3 r hmem
      omega

/-- Copying contiguous regions, with the source of every region: the region of index
`j` is copied from the parent that the flag selects after `j` flips, at its own
positions. -/
theorem copy_regions_sources (p1 p2 : List α) :
    ∀ (rs : List region) (c e : Nat) (w : Bool) (out : List α), Contiguous c e rs →
      e ≤ p1.length → e ≤ p2.length →
      ∃ m, copy_regions rs ⟨w, p1.drop c, p2.drop c, out⟩
          = ⟨if rs.length % 2 = 0 then w else !w, p1.drop e, p2.drop e, out ++ m⟩ ∧
        m.length = e - c ∧
        ∀ (j : Nat) (r : region), rs[j]? = some r → ∀ i, r.from_ ≤ i → i < r.to_ →
          m[i - c]? = (if (if j % 2 = 0 then w else !w) then p1 else p2)[i]? := by
  intro rs
  induction rs with
  | nil =>
    intro c e w out h _ _
    have hce : c = e := h
    subst hce
    exact ⟨[], by simp [copy_regions], by simp, fun j r hj => by simp at hj⟩
  | cons r rs ih =>
    intro c e w out h h1 h2
    obtain ⟨hfrom, hle, hrest⟩ := h
    have hto := contiguous_le _ _ _ hrest
    have hsz : size_sub r.to_ r.from_ = r.to_ - c := by
      unfold size_sub
      rw [hfrom, if_pos hle]
    have hd1 : (p1.drop c).drop (r.to_ - c) = p1.drop r.to_ := by
      rw [List.drop_drop]
      congr 1
      omega
    have hd2 : (p2.drop c).drop (r.to_ - c) = p2.drop r.to_ := by
      rw [List.drop_drop]
      congr 1
      omega
    obtain ⟨m, hm, hlen, hsrc⟩ := ih r.to_ e (!w)
      (if w then out ++ (p1.drop c).take (r.to_ - c) else out ++ (p2.drop c).take (r.to_ - c))
      hrest h1 h2
    have hlenpiece : (if w then (p1.drop c).take (r.to_ - c)
        else (p2.drop c).take (r.to_ - c)).length = r.to_ - c := by
      cases w <;> simp <;> omega
    refine ⟨(if w then (p1.drop c).take (r.to_ - c) else (p2.drop c).take (r.to_ - c)) ++ m,
      ?_, ?_, ?_⟩
    · rw [copy_regions]
      simp only [hsz, hd1, hd2]
      rw [hm]
      have hpar : (if rs.length % 2 = 0 then !w else !!w)
          = (if (r :: rs).length % 2 = 0 then w else !w) := by
        rw [List.length_cons]
        rcases Nat.mod_two_eq_zero_or_one rs.length with h0 | h0
        · have h0' : (rs.length + 1) % 2 = 1 := by omega
          simp [h0, h0']
        · have h0' : (rs.length + 1) % 2 = 0 := by omega
          simp [h0, h0']
      rw [hpar]
      cases w <;> simp
    · rw [List.length_append, hlen, hlenpiece]
      omega
    · intro j r' hj i hi1 hi2
      cases j with
      | zero =>
        simp only [List.getElem?_cons_zero, Option.some.injEq] at hj
        subst hj
        rw [List.getElem?_append_left (by rw [hlenpiece]; omega)]
        have hidx : c + (i - c) = i := by omega
        cases w
        · simp only [Nat.zero_mod, if_true, Bool.false_eq_true, if_false]
          rw [List.getElem?_take_of_lt (by omega), List.getElem?_drop, hidx]
        · simp only [Nat.zero_mod, if_true]
          rw [List.getElem?_take_of_lt (by omega), List.getElem?_drop, hidx]
      | succ j =>
        simp only [List.getElem?_cons_succ] at hj
        have hmem := contiguous_mem _ _ _ hrest r' (List.getElem?_mem hj)
        rw [List.getElem?_append_right (by rw [hlenpiece]; omega), hlenpiece]
        have hidx : i - c - (r.to_ - c) = i - r.to_ := by omega
        rw [hidx, hsrc j r' hj i hi1 hi2]
        rcases Nat.mod_two_eq_zero_or_one j with h0 | h0
        · have h0' : (j + 1) % 2 = 1 := by omega
          simp [h0, h0']
        · have h0' : (j + 1) % 2 = 0 := by omega
          simp [h0, h0']

/-- The child written by `crossover`, with the source of every region. -/
theorem crossover_full_spec [BEq G] (bd : G1 → Bool × G1) (uid : Nat → Nat → G → Nat × G)
    (hb : InBounds uid) (fuel ncp : Nat) (g1 : G1) (g2 : G) (p1 p2 out : List α)
    (hfuel : min p1.length p2.length + 2 ≤ fuel) :
    ∃ rs body,
      regions uid fuel g2 (min p1.length p2.length) (size_add ncp 1) = some rs ∧
      rs.length = (if size_add ncp 1 ≤ 1 then 1
        else min (size_add ncp 1) (min p1.length p2.length)) ∧
      body.length = (if size_add ncp 1 = 0 then 0 else min p1.length p2.length) ∧
      (∀ (j : Nat) (r : region), rs[j]? = some r → ∀ i, r.from_ ≤ i → i < r.to_ →
        i < body.length ∧
        body[i]? = (if (if j % 2 = 0 then (bd g1).1 else !(bd g1).1) then p1 else p2)[i]?) ∧
      crossover bd uid fuel ncp g1 g2 p1 p2 out false = some (out ++ body) ∧
      crossover bd uid fuel ncp g1 g2 p1 p2 out true
        = some (out ++ body ++
            (if (if rs.length % 2 = 0 then !(bd g1).1 else (bd g1).1) then p1
              else p2).drop body.length) := by
  obtain ⟨rs, hrs, hrlen, hcont, _⟩ :=
    regions_spec uid hb fuel g2 (min p1.length p2.length) (size_add ncp 1) hfuel
  have he1 : (if size_add ncp 1 = 0 then 0 else min p1.length p2.length) ≤ p1.length := by
    split <;> omega
  have he2 : (if size_add ncp 1 = 0 then 0 else min p1.length p2.length) ≤ p2.length := by
    split <;> omega
  obtain ⟨m, hm, hlen, hsrc⟩ :=
    copy_regions_sources p1 p2 rs 0 _ (bd g1).1 out hcont he1 he2
  simp only [List.drop_zero, Nat.sub_zero] at hm hlen hsrc
  have hrs' : regions uid fuel g2 (min_range_size p1 p2) (size_add ncp 1) = some rs := by
    rw [min_range_size_eq]
    exact hrs
  refine ⟨rs, m, hrs, hrlen, hlen, ?_, ?_, ?_⟩
  · intro j r hj i hi1 hi2
    have hmem := contiguous_mem _ _ _ hcont r (List.getElem?_mem hj)
    exact ⟨by rw [hlen]; omega, hsrc j r hj i hi1 hi2⟩
  · rw [crossover_of_regions bd uid fuel ncp g1 g2 p1 p2 out false rs hrs', hm]
    rfl
  · rw [crossover_of_regions bd uid fuel ncp g1 g2 p1 p2 out true rs hrs', hm, hlen]
    rcases Nat.mod_two_eq_zero_or_one rs.length with h0 | h0
    · cases hw : (bd g1).1 <;> simp [h0]
    · cases hw : (bd g1).1 <;> simp [h0]

end CrossoverSources

/-- C24. For the crossover of `beyond_project.hpp`, if the traversal visits the regions
`R_0, ..., R_{n-1}` over `[0, min(|parent1|, |parent2|))`, then for every `j` and every
index `i` in `R_j` the child element at position `i` is the element at index `i` of the
starting parent when `j` is even and of the other parent when `j` is odd (the starting
parent is `parent1` when the parent-choice draw is `true`). This holds for every number
of crossover points, both values of the tail flag and all in-bounds draws. -/
theorem crossover_region_sources {G1 G2 α : Type} [BEq G2] (bd : G1 → Bool × G1)
    (uid : Nat → Nat → G2 → Nat × G2) (hb : InBounds uid) (fuel ncrossover_points : Nat)
    (g1 : G1) (g2 : G2) (parent1 parent2 out : List α) (copy_longer_range_tail : Bool)
    (hfuel : min parent1.length parent2.length + 2 ≤ fuel) :
    ∃ rs child,
      beyond_project.region_sample_iterator.regions uid fuel g2
        (min parent1.length parent2.length) (beyond_project.size_add ncrossover_points 1)
        = some rs ∧
      beyond_project.crossover bd uid fuel ncrossover_points g1 g2 parent1 parent2 out
        copy_longer_range_tail = some (out ++ child) ∧
      ∀ (j : Nat) (r : beyond_project.region), rs[j]? = some r →
        ∀ i, r.from_ ≤ i → i < r.to_ →
          i < child.length ∧
          child[i]? = (if j % 2 = 0 then (if (bd g1).1 then parent1 else parent2)
            else (if (bd g1).1 then parent2 else parent1))[i]? := by
  obtain ⟨rs, body, hrs, _, _, hsrc, hfalse, htrue⟩ :=
    crossover_full_spec bd uid hb fuel ncrossover_points g1 g2 parent1 parent2 out hfuel
  have hsel : ∀ j : Nat,
      (if (if j % 2 = 0 then (bd g1).1 else !(bd g1).1) then parent1 else parent2)
        = (if j % 2 = 0 then (if (bd g1).1 then parent1 else parent2)
            else (if (bd g1).1 then parent2 else parent1)) := by
    intro j
    rcases Nat.mod_two_eq_zero_or_one j with h0 | h0 <;> cases (bd g1).1 <;> simp [h0]
  cases copy_longer_range_tail with
  | false =>
    refine ⟨rs, body, hrs, hfalse, ?_⟩
    intro j r hj i hi1 hi2
    obtain ⟨hlt, hval⟩ := hsrc j r hj i hi1 hi2
    exact ⟨hlt, by rw [hval, hsel]⟩
  | true =>
    refine ⟨rs, body ++ (if (if rs.length % 2 = 0 then !(bd g1).1 else (bd g1).1)
      then parent1 else parent2).drop body.length, hrs,
      by rw [htrue, List.append_assoc], ?_⟩
    intro j r hj i hi1 hi2
    obtain ⟨hlt, hval⟩ := hsrc j r hj i hi1 hi2
    refine ⟨by rw [List.length_append]; omega, ?_⟩
    rw [List.getElem?_append_left hlt, hval, hsel]

/-- Witness of C24: two crossover points on two parents of length 6. -/
theorem crossover_region_sources_witness :
    InBounds scripted_uid ∧
    min [1, 2, 3, 4, 5, 6].length [11, 12, 13, 14, 15, 16].length + 2 ≤ 8 ∧
    ∃ rs child,
      beyond_project.region_sample_iterator.regions scripted_uid 8 [1, 4, 0, 3]
        (min [1, 2, 3, 4, 5, 6].length [11, 12, 13, 14, 15, 16].length)
        (beyond_project.size_add 2 1) = some rs ∧
      beyond_project.crossover scripted_bd scripted_uid 8 2 [false] [1, 4, 0, 3]
        [1, 2, 3, 4, 5, 6] [11, 12, 13, 14, 15, 16] [] true = some ([] ++ child) ∧
      ∀ (j : Nat) (r : beyond_project.region), rs[j]? = some r →
        ∀ i, r.from_ ≤ i → i < r.to_ →
          i < child.length ∧
          child[i]? = (if j % 2 = 0
            then (if (scripted_bd [false]).1 then [1, 2, 3, 4, 5, 6]
              else [11, 12, 13, 14, 15, 16])
            else (if (scripted_bd [false]).1 then [11, 12, 13, 14, 15, 16]
              else [1, 2, 3, 4, 5, 6]))[i]? :=
  ⟨scripted_uid_inBounds, by decide,
    crossover_region_sources scripted_bd scripted_uid scripted_uid_inBounds 8 2 [false]
      [1, 4, 0, 3] [1, 2, 3, 4, 5, 6] [11, 12, 13, 14, 15, 16] [] true (by decide)⟩

/-- C27. For the crossover of `beyond_project.hpp` with the tail flag set and
`min(|parent1|, |parent2|) >= 1`, for every number of crossover points and all
in-bounds draws: there is a last region, its elements are copied from a parent `P` (the
starting parent when the number of regions is odd, the other one when it is even), and
the tail appended after the regions is the remainder of that same parent from the
cursor on; so the child's length is the length of `P`: it is `|parent1|` or `|parent2|`,
and it is `min(|parent1|, |parent2|)` whenever `P` is the shorter parent. -/
theorem crossover_tail_continues_last_region {G1 G2 α : Type} [BEq G2]
    (bd : G1 → Bool × G1) (uid : Nat → Nat → G2 → Nat × G2) (hb : InBounds uid)
    (fuel ncrossover_points : Nat) (g1 : G1) (g2 : G2) (parent1 parent2 out : List α)
    (hmin : 1 ≤ min parent1.length parent2.length)
    (hfuel : min parent1.length parent2.length + 2 ≤ fuel) :
    ∃ rs last body P,
      beyond_project.region_sample_iterator.regions uid fuel g2
        (min parent1.length parent2.length) (beyond_project.size_add ncrossover_points 1)
        = some rs ∧
      rs[rs.length - 1]? = some last ∧
      P = (if (rs.length - 1) % 2 = 0 then (if (bd g1).1 then parent1 else parent2)
        else (if (bd g1).1 then parent2 else parent1)) ∧
      beyond_project.crossover bd uid fuel ncrossover_points g1 g2 parent1 parent2 out false
        = some (out ++ body) ∧
      (∀ i, last.from_ ≤ i → i < last.to_ → i < body.length ∧ body[i]? = P[i]?) ∧
      beyond_project.crossover bd uid fuel ncrossover_points g1 g2 parent1 parent2 out true
        = some (out ++ body ++ P.drop body.length) ∧
      (body ++ P.drop body.length).length = P.length ∧
      ((body ++ P.drop body.length).length = parent1.length ∨
        (body ++ P.drop body.length).length = parent2.length) ∧
      (P.length = min parent1.length parent2.length →
        (body ++ P.drop body.length).length = min parent1.length parent2.length) := by
  obtain ⟨rs, body, hrs, hrlen, hlen, hsrc, hfalse, htrue⟩ :=
    crossover_full_spec bd uid hb fuel ncrossover_points g1 g2 parent1 parent2 out hfuel
  have hpos : 1 ≤ rs.length := by
    rw [hrlen]
    split <;> omega
  obtain ⟨last, hlast⟩ : ∃ last, rs[rs.length - 1]? = some last :=
    ⟨rs[rs.length - 1], List.getElem?_eq_getElem (by omega)⟩
  have hP : (if (if rs.length % 2 = 0 then !(bd g1).1 else (bd g1).1) then parent1
        else parent2)
      = (if (rs.length - 1) % 2 = 0 then (if (bd g1).1 then parent1 else parent2)
        else (if (bd g1).1 then parent2 else parent1)) := by
    rcases Nat.mod_two_eq_zero_or_one rs.length with h0 | h0
    · have h0' : (rs.length - 1) % 2 = 1 := by omega
      cases (bd g1).1 <;> simp [h0, h0']
    · have h0' : (rs.length - 1) % 2 = 0 := by omega
      cases (bd g1).1 <;> simp [h0, h0']
  have hP' : (if (if (rs.length - 1) % 2 = 0 then (bd g1).1 else !(bd g1).1) then parent1
        else parent2)
      = (if (rs.length - 1) % 2 = 0 then (if (bd g1).1 then parent1 else parent2)
        else (if (bd g1).1 then parent2 else parent1)) := by
    rcases Nat.mod_two_eq_zero_or_one (rs.length - 1) with h0 | h0 <;>
      cases (bd g1).1 <;> simp [h0]
  have hbody : body.length ≤ min parent1.length parent2.length := by
    rw [hlen]
    split <;> omega
  have hPlen : ∀ P : List α, P = parent1 ∨ P = parent2 →
      (body ++ P.drop body.length).length = P.length := by
    intro P hPor
    rw [List.length_append, List.length_drop]
    rcases hPor with rfl | rfl <;> omega
  have hPor : (if (rs.length - 1) % 2 = 0 then (if (bd g1).1 then parent1 else parent2)
        else (if (bd g1).1 then parent2 else parent1)) = parent1 ∨
      (if (rs.length - 1) % 2 = 0 then (if (bd g1).1 then parent1 else parent2)
        else (if (bd g1).1 then parent2 else parent1)) = parent2 := by
    rcases Nat.mod_two_eq_zero_or_one (rs.length - 1) with h0 | h0 <;>
      cases (bd g1).1 <;> simp [h0]
  refine ⟨rs, last, body, _, hrs, hlast, rfl, hfalse, ?_, ?_, hPlen _ hPor, ?_, ?_⟩
  · intro i hi1 hi2
    obtain ⟨hlt, hval⟩ := hsrc _ last hlast i hi1 hi2
    exact ⟨hlt, by rw [hval, hP']⟩
  · rw [htrue, hP]
  · rw [hPlen _ hPor]
    rcases hPor with h | h
    · exact Or.inl (by rw [h])
    · exact Or.inr (by rw [h])
  · intro h
    rw [hPlen _ hPor]
    exact h

/-- Witness of C27: parents of lengths 2 and 5, one crossover point. -/
theorem crossover_tail_continues_last_region_witness :
    InBounds scripted_uid ∧ 1 ≤ min [1, 2].length [11, 12, 13, 14, 15].length ∧
    min [1, 2].length [11, 12, 13, 14, 15].length + 2 ≤ 4 ∧
    ∃ rs last body P,
      beyond_project.region_sample_iterator.regions scripted_uid 4 [0, 0]
        (min [1, 2].length [11, 12, 13, 14, 15].length) (beyond_project.size_add 1 1)
        = some rs ∧
      rs[rs.length - 1]? = some last ∧
      P = (if (rs.length - 1) % 2 = 0
        then (if (scripted_bd [true]).1 then [1, 2] else [11, 12, 13, 14, 15])
        else (if (scripted_bd [true]).1 then [11, 12, 13, 14, 15] else [1, 2])) ∧
      beyond_project.crossover scripted_bd scripted_uid 4 1 [true] [0, 0] [1, 2]
        [11, 12, 13, 14, 15] [] false = some ([] ++ body) ∧
      (∀ i, last.from_ ≤ i → i < last.to_ → i < body.length ∧ body[i]? = P[i]?) ∧
      beyond_project.crossover scripted_bd scripted_uid 4 1 [true] [0, 0] [1, 2]
        [11, 12, 13, 14, 15] [] true = some ([] ++ body ++ P.drop body.length) ∧
      (body ++ P.drop body.length).length = P.length ∧
      ((body ++ P.drop body.length).length = [1, 2].length ∨
        (body ++ P.drop body.length).length = [11, 12, 13, 14, 15].length) ∧
      (P.length = min [1, 2].length [11, 12, 13, 14, 15].length →
        (body ++ P.drop body.length).length
          = min [1, 2].length [11, 12, 13, 14, 15].length) :=
  ⟨scripted_uid_inBounds, by decide, by decide,
    crossover_tail_continues_last_region scripted_bd scripted_uid scripted_uid_inBounds 4 1
      [true] [0, 0] [1, 2] [11, 12, 13, 14, 15] [] (by decide) (by decide)⟩

section ProjectCrossover

variable {G G1 α : Type}

theorem adjacent_difference_eq (xs : List Nat) :
    project.adjacent_difference xs = project.adjacent_difference_from 0 xs := by
  cases xs with
  | nil => rfl
  | cons x xs => simp [project.adjacent_difference, project.adjacent_difference_from,
      beyond_project.size_sub]

/-- The loop of the crossover of `project.hpp` on the offsets of increasing crossover
indices that lie in `[prev, e]`, started with both iterators at `prev`: both iterators
end at the last index `cur`, exactly `cur - prev` elements are written, each one taken
from one of the parents at its own position, and the flag has been flipped once per
index. -/
theorem project_loop_spec (p1 p2 : List α) :
    ∀ (xs : List Nat) (prev e : Nat) (w : Bool) (out : List α),
      List.Pairwise (fun x y => x < y) xs → (∀ x ∈ xs, prev ≤ x ∧ x ≤ e) → prev ≤ e →
      e ≤ p1.length → e ≤ p2.length →
      ∃ m cur, project.crossover_loop (project.adjacent_difference_from prev xs)
            ⟨w, p1.drop prev, p2.drop prev, out⟩
          = ⟨if xs.length % 2 = 0 then w else !w, p1.drop cur, p2.drop cur, out ++ m⟩ ∧
        prev ≤ cur ∧ cur ≤ e ∧ m.length = cur - prev ∧
        Mix (p1.drop prev) (p2.drop prev) m := by
  intro xs
  induction xs with
  | nil =>
    intro prev e w out _ _ hpe _ _
    exact ⟨[], prev, by simp [project.crossover_loop, project.adjacent_difference_from],
      le_refl _, hpe, by simp, fun i v hv => by simp at hv⟩
  | cons x xs ih =>
    intro prev e w out hpw hmem hpe h1 h2
    obtain ⟨hx1, hx2⟩ := hmem x (List.mem_cons_self _ _)
    rw [List.pairwise_cons] at hpw
    have hsz : beyond_project.size_sub x prev = x - prev := by
      unfold beyond_project.size_sub
      rw [if_pos hx1]
    have hd1 : (p1.drop prev).drop (x - prev) = p1.drop x := by
      rw [List.drop_drop]
      congr 1
      omega
    have hd2 : (p2.drop prev).drop (x - prev) = p2.drop x := by
      rw [List.drop_drop]
      congr 1
      omega
    obtain ⟨m, cur, hm, hc1, hc2, hlen, hmix⟩ := ih x e (!w)
      (if w then out ++ (p1.drop prev).take (x - prev)
        else out ++ (p2.drop prev).take (x - prev))
      hpw.2
      (fun y hy => ⟨Nat.le_of_lt (hpw.1 y hy), (hmem y (List.mem_cons_of_mem _ hy)).2⟩)
      hx2 h1 h2
    have hlenpiece : (if w then (p1.drop prev).take (x - prev)
        else (p2.drop prev).take (x - prev)).length = x - prev := by
      cases w <;> simp <;> omega
    refine ⟨(if w then (p1.drop prev).take (x - prev)
        else (p2.drop prev).take (x - prev)) ++ m, cur, ?_, by omega, hc2, ?_, ?_⟩
    · rw [project.adjacent_difference_from, project.crossover_loop]
      simp only [hsz, hd1, hd2]
      rw [hm]
      have hpar : (if xs.length % 2 = 0 then !w else !!w)
          = (if (x :: xs).length % 2 = 0 then w else !w) := by
        rw [List.length_cons]
        rcases Nat.mod_two_eq_zero_or_one xs.length with h0 | h0
        · have h0' : (xs.length + 1) % 2 = 1 := by omega
          simp [h0, h0']
        · have h0' : (xs.length + 1) % 2 = 0 := by omega
          simp [h0, h0']
      rw [hpar]
      cases w <;> simp
    · rw [List.length_append, hlen, hlenpiece]
      omega
    · apply mix_append
      · cases w
        · exact mix_take_right _ _ _
        · exact mix_take_left _ _ _
      · rw [hlenpiece, hd1, hd2]
        exact hmix

theorem mix_left (p1 p2 : List α) : Mix p1 p2 p1 := fun _ _ hv => Or.inl hv

theorem mix_right (p1 p2 : List α) : Mix p1 p2 p2 := fun _ _ hv => Or.inr hv

/-- The child of the crossover of `project.hpp` for increasing crossover indices, when
the call returns early or its reservation succeeds. -/
theorem project_crossover_spec (bd : G1 → Bool × G1)
    (sample : List Nat → Nat → G → List Nat × G) (reserve_ok : Nat → Bool) (ncp : Nat)
    (g1 : G1) (g2 : G) (p1 p2 : List α)
    (hr : ncp = 0 ∨ min p1.length p2.length = 0 ∨ reserve_ok ncp = true)
    (hs : List.Sublist (sample (List.range' 1 (min p1.length p2.length - 1)) ncp g2).1
      (List.range' 1 (min p1.length p2.length - 1))) :
    ∃ child g2', project.crossover bd sample reserve_ok ncp g1 g2 p1 p2
        = some (child, (bd g1).2, g2') ∧
      Mix p1 p2 child ∧ (child.length = p1.length ∨ child.length = p2.length) := by
  by_cases h : min p1.length p2.length = 0 ∨ ncp = 0
  · refine ⟨if (bd g1).1 then p1 else p2, g2, ?_, ?_⟩
    · simp only [project.crossover, min2_eq_min, if_pos h]
    · cases (bd g1).1
      · exact ⟨mix_right _ _, Or.inr rfl⟩
      · exact ⟨mix_left _ _, Or.inl rfl⟩
  · have hr' : reserve_ok ncp = true := by
      rcases hr with hr | hr | hr
      · exact absurd (Or.inr hr) h
      · exact absurd (Or.inl hr) h
      · exact hr
    have hpw : List.Pairwise (fun x y => x < y)
        (sample (List.range' 1 (min p1.length p2.length - 1)) ncp g2).1 :=
      List.Pairwise.sublist hs (List.pairwise_lt_range' 1 _)
    have hmem : ∀ x ∈ (sample (List.range' 1 (min p1.length p2.length - 1)) ncp g2).1,
        0 ≤ x ∧ x ≤ min p1.length p2.length - 1 := by
      intro x hx
      have := hs.subset hx
      rw [List.mem_range'_1] at this
      omega
    obtain ⟨m, cur, hm, _, hc2, hlen, hmix⟩ := project_loop_spec p1 p2 _ 0
      (min p1.length p2.length - 1) (bd g1).1 [] hpw hmem (Nat.zero_le _) (by omega)
      (by omega)
    simp only [List.drop_zero, Nat.sub_zero] at hm hlen hmix
    simp only [project.crossover, min2_eq_min, if_neg h, hr', if_true, adjacent_difference_eq,
      hm, List.nil_append]
    refine ⟨_, _, rfl, ?_⟩
    generalize (if (sample (List.range' 1 (min p1.length p2.length - 1)) ncp g2).1.length
      % 2 = 0 then (bd g1).1 else !(bd g1).1) = sel
    cases sel
    · simp only [Bool.false_eq_true, if_false]
      refine ⟨mix_append _ _ _ _ hmix (by rw [hlen]; exact mix_drop_right _ _ _), Or.inr ?_⟩
      rw [List.length_append, List.length_drop, hlen]
      omega
    · simp only [if_true]
      refine ⟨mix_append _ _ _ _ hmix (by rw [hlen]; exact mix_drop_left _ _ _), Or.inl ?_⟩
      rw [List.length_append, List.length_drop, hlen]
      omega

end ProjectCrossover

/-- C22 (fails as stated). With `ncrossover_points = 2^64 - 1`, which is more than the
`max_size()` of any `std::vector<std::size_t>` (here `2^60 - 1`), the reservation of
line 216 throws `std::length_error` and the crossover of `project.hpp` returns no
child, although the parents `[1, 2, 3, 4]` and `[11, 12, 13, 14]` are not empty. -/
theorem project_crossover_reserve_counterexample :
    project.crossover scripted_bd scripted_sample (reserve_within (2 ^ 60 - 1)) (2 ^ 64 - 1)
      [false] [1] [1, 2, 3, 4] [11, 12, 13, 14] = none := by
  decide

/-- C22, amended. For the value-returning crossover of `project.hpp`, for every pair of
parents, every parent-choice draw, every sample of crossover indices that is an
increasing selection from `[1, min(|parent1|, |parent2|) - 1]`, and every number of
crossover points for which the reservation of the offsets succeeds (or no reservation
is made: `ncrossover_points == 0` or an empty parent), the call returns a child,
`child[i]` equals `parent1[i]` or `parent2[i]` for every `i < min(|parent1|, |parent2|)`,
and the child's length equals `|parent1|` or `|parent2|`. -/
theorem project_crossover_elements_from_parents {G1 G2 α : Type} (bd : G1 → Bool × G1)
    (sample : List Nat → Nat → G2 → List Nat × G2) (reserve_ok : Nat → Bool)
    (ncrossover_points : Nat) (g1 : G1) (g2 : G2) (parent1 parent2 : List α)
    (hr : ncrossover_points = 0 ∨ min parent1.length parent2.length = 0 ∨
      reserve_ok ncrossover_points = true)
    (hs : List.Sublist
      (sample (List.range' 1 (min parent1.length parent2.length - 1)) ncrossover_points g2).1
      (List.range' 1 (min parent1.length parent2.length - 1))) :
    ∃ child g2',
      project.crossover bd sample reserve_ok ncrossover_points g1 g2 parent1 parent2
        = some (child, (bd g1).2, g2') ∧
      (∀ (i : Nat) (v : α), i < min parent1.length parent2.length → child[i]? = some v →
        parent1[i]? = some v ∨ parent2[i]? = some v) ∧
      (child.length = parent1.length ∨ child.length = parent2.length) := by
  obtain ⟨child, g2', hc, hmix, hlen⟩ :=
    project_crossover_spec bd sample reserve_ok ncrossover_points g1 g2 parent1 parent2 hr hs
  exact ⟨child, g2', hc, fun i v _ hv => hmix i v hv, hlen⟩

/-- Witness of C22: two crossover points on parents of lengths 6 and 8. -/
theorem project_crossover_elements_from_parents_witness :
    ((2 : Nat) = 0 ∨
      min [1, 2, 3, 4, 5, 6].length [11, 12, 13, 14, 15, 16, 17, 18].length = 0 ∨
      reserve_within (2 ^ 60 - 1) 2 = true) ∧
    List.Sublist
      (scripted_sample
        (List.range' 1 (min [1, 2, 3, 4, 5, 6].length [11, 12, 13, 14, 15, 16, 17, 18].length - 1))
        2 [1]).1
      (List.range' 1 (min [1, 2, 3, 4, 5, 6].length [11, 12, 13, 14, 15, 16, 17, 18].length - 1)) ∧
    ∃ child g2',
      project.crossover scripted_bd scripted_sample (reserve_within (2 ^ 60 - 1)) 2 [false]
          [1] [1, 2, 3, 4, 5, 6] [11, 12, 13, 14, 15, 16, 17, 18]
        = some (child, (scripted_bd [false]).2, g2') ∧
      (∀ (i : Nat) (v : Nat),
        i < min [1, 2, 3, 4, 5, 6].length [11, 12, 13, 14, 15, 16, 17, 18].length →
        child[i]? = some v →
        [1, 2, 3, 4, 5, 6][i]? = some v ∨ [11, 12, 13, 14, 15, 16, 17, 18][i]? = some v) ∧
      (child.length = [1, 2, 3, 4, 5, 6].length ∨
        child.length = [11, 12, 13, 14, 15, 16, 17, 18].length) :=
  ⟨Or.inr (Or.inr (by decide)), (scripted_sample_ok _ 2 [1]).1,
    project_crossover_elements_from_parents scripted_bd scripted_sample
      (reserve_within (2 ^ 60 - 1)) 2 [false] [1] [1, 2, 3, 4, 5, 6]
      [11, 12, 13, 14, 15, 16, 17, 18] (Or.inr (Or.inr (by decide)))
      (scripted_sample_ok _ 2 [1]).1⟩

/-- C25, the code at failing inputs: with a parent-choice draw of `false` both
crossovers take the first span of the child, and with no crossover point the whole
child, from `parent2`, and with a draw of `true` from `parent1`; the comments of both
functions say that `false` is `parent1` and `true` is `parent2`. -/
theorem crossover_flag_selects_other_parent :
    beyond_project.crossover scripted_bd scripted_uid 6 0 [false] [] "AAAA".toList
        "BBBB".toList [] true = some "BBBB".toList ∧
      beyond_project.crossover scripted_bd scripted_uid 6 0 [true] [] "AAAA".toList
        "BBBB".toList [] true = some "AAAA".toList ∧
      beyond_project.crossover scripted_bd scripted_uid 6 1 [false] [3, 0] "AAAA".toList
        "BBBB".toList [] true = some "BBAA".toList ∧
      project.crossover scripted_bd scripted_sample (reserve_within (2 ^ 60 - 1)) 0 [false]
        [] "AAAA".toList "BBBB".toList = some ("BBBB".toList, [], []) ∧
      project.crossover scripted_bd scripted_sample (reserve_within (2 ^ 60 - 1)) 0 [true]
        [] "AAAA".toList "BBBB".toList = some ("AAAA".toList, [], []) ∧
      project.crossover scripted_bd scripted_sample (reserve_within (2 ^ 60 - 1)) 1 [false]
        [1] "AAAA".toList "BBBB".toList = some ("BBAA".toList, [], []) := by
  decide

/-! ## Bounds and loop invariant of the edit distance -/

section EditBounds

variable {α : Type} [DecidableEq α]

theorem lev_le_max (a b : List α) : lev a b ≤ max a.length b.length := by
  induction a generalizing b with
  | nil => rw [lev_nil_left]; simp
  | cons x a iha =>
    cases b with
    | nil => rw [lev_nil_right]; simp
    | cons y b =>
      rw [lev_cons_cons]
      have h := iha b
      have hc : (if x = y then 0 else 1) ≤ 1 := by split <;> omega
      have h3 : min (lev a (y :: b) + 1)
          (min (lev (x :: a) b + 1) (lev a b + (if x = y then 0 else 1)))
          ≤ lev a b + (if x = y then 0 else 1) :=
        le_trans (min_le_right _ _) (min_le_right _ _)
      simp only [List.length_cons]
      omega

theorem lev_ge_diff (a b : List α) :
    a.length ≤ lev a b + b.length ∧ b.length ≤ lev a b + a.length := by
  induction a generalizing b with
  | nil => rw [lev_nil_left]; simp
  | cons x a iha =>
    induction b with
    | nil => rw [lev_nil_right]; simp
    | cons y b ihb =>
      rw [lev_cons_cons]
      have h1 := iha (y :: b)
      have h2 := iha b
      have h3 := ihb
      simp only [List.length_cons] at h1 h3 ⊢
      generalize (if x = y then 0 else 1) = c
      omega

theorem lev_eq_zero (a b : List α) (h : lev a b = 0) : a = b := by
  induction a generalizing b with
  | nil =>
    rw [lev_nil_left] at h
    exact (List.length_eq_zero.1 h).symm
  | cons x a iha =>
    cases b with
    | nil =>
      rw [lev_nil_right] at h
      simp at h
    | cons y b =>
      rw [lev_cons_cons] at h
      by_cases hxy : x = y
      · subst hxy
        simp only [if_true, Nat.add_zero] at h
        have h0 : lev a b = 0 := by omega
        rw [iha b h0]
      · simp only [if_neg hxy] at h
        omega

/-- Every entry of a right row is at most the larger of the two lengths. -/
theorem rowOK_le {A b : List α} {row : List Nat} (h : RowOK A b row) :
    ∀ x ∈ row, x ≤ max A.length b.length := by
  intro x hx
  obtain ⟨k, hk⟩ := List.mem_iff_getElem?.1 hx
  have hklt : k < row.length := by
    by_contra hge
    rw [List.getElem?_eq_none (by omega)] at hk
    simp at hk
  have hkb : k ≤ b.length := by
    have := h.1
    omega
  have hval := h.2 k hkb
  rw [List.getD_eq_getElem?_getD, hk] at hval
  simp only [Option.getD_some] at hval
  rw [hval]
  have := lev_le_max A (b.take k)
  simp only [List.length_take] at this
  omega

theorem outer_eq_rows_after (b : List α) :
    ∀ (as : List α) (i1 : Nat) (prev cur : List Nat),
      beyond_project.levenshtein_outer b as i1 prev cur = (rows_after b as i1 prev cur).1 := by
  intro as
  induction as with
  | nil => intro i1 prev cur; rfl
  | cons x as ih =>
    intro i1 prev cur
    rw [beyond_project.levenshtein_outer, rows_after]
    exact ih _ _ _

theorem rows_after_append (b : List α) :
    ∀ (A B : List α) (i1 : Nat) (prev cur : List Nat),
      rows_after b (A ++ B) i1 prev cur
        = rows_after b B (i1 + A.length) (rows_after b A i1 prev cur).1
            (rows_after b A i1 prev cur).2 := by
  intro A
  induction A with
  | nil => intro B i1 prev cur; rfl
  | cons x A ih =>
    intro B i1 prev cur
    have h := ih B (i1 + 1)
      (beyond_project.levenshtein_inner x prev b 0 (cur.set 0 i1)) prev
    have hidx : i1 + 1 + A.length = i1 + (x :: A).length := by
      rw [List.length_cons]
      omega
    rw [hidx] at h
    exact h

/-- The invariant of the outer loop, on both rows: the previous row is right for the
elements processed, the current row has the right length and its entries are bounded. -/
theorem rows_after_spec (b : List α) (M : Nat) :
    ∀ (as A : List α) (i1 : Nat) (prev cur : List Nat), i1 = A.length + 1 →
      RowOK A b prev → cur.length = b.length + 1 → (∀ x ∈ cur, x ≤ M) →
      max (A.length + as.length) b.length ≤ M →
      RowOK (A ++ as) b (rows_after b as i1 prev cur).1 ∧
        (rows_after b as i1 prev cur).2.length = b.length + 1 ∧
        ∀ x ∈ (rows_after b as i1 prev cur).2, x ≤ M := by
  intro as
  induction as with
  | nil =>
    intro A i1 prev cur _ hprev hcur hle _
    simpa [rows_after] using ⟨hprev, hcur, hle⟩
  | cons ai as ih =>
    intro A i1 prev cur hi hprev hcur hle hM
    rw [rows_after]
    have hrow : RowOK (A ++ [ai]) b
        (beyond_project.levenshtein_inner ai prev b 0 (cur.set 0 i1)) := by
      apply inner_spec A ai prev b hprev b 0 _ (by simp) (by simpa using hcur)
      intro k hk
      have hk0 : k = 0 := by omega
      subst hk0
      rw [List.getD_eq_getElem?_getD, List.getElem?_set_self (by omega)]
      simp [lev_nil_right, hi]
    have hprevle : ∀ x ∈ prev, x ≤ M := by
      intro x hx
      have := rowOK_le hprev x hx
      simp only [List.length_cons] at hM
      omega
    have := ih (A ++ [ai]) (i1 + 1) _ prev (by simp [hi]) hrow hprev.1 hprevle
      (by simp only [List.length_append, List.length_cons, List.length_nil] at hM ⊢; omega)
    simpa using this

/-- The rows after the first `i` elements of `a`. -/
theorem rows_at_spec (a b : List α) (i : Nat) :
    RowOK (a.take i) b (rows_at a b i).1 ∧ (rows_at a b i).2.length = b.length + 1 ∧
      ∀ x ∈ (rows_at a b i).2, x ≤ max a.length b.length := by
  unfold rows_at
  simp only [range_size_eq_length]
  have h := rows_after_spec b (max a.length b.length) (a.take i) [] 1
    (List.range (b.length + 1)) (List.replicate (b.length + 1) 0) (by simp) (rowOK_iota b)
    (by simp) (by
      intro x hx
      rw [List.mem_replicate] at hx
      omega) (by
      simp only [List.length_nil, List.length_take]
      omega)
  simpa using h

/-- The run of `levenshtein` goes through the rows `rows_at a b i`. -/
theorem levenshtein_through_rows (a b : List α) (i : Nat) :
    beyond_project.levenshtein a b
      = (beyond_project.levenshtein_outer b (a.drop i) ((a.take i).length + 1)
          (rows_at a b i).1 (rows_at a b i).2).getLastD 0 := by
  unfold beyond_project.levenshtein rows_at
  simp only []
  conv_lhs => rw [← List.take_append_drop i a]
  rw [outer_eq_rows_after, rows_after_append, ← outer_eq_rows_after]
  have hidx : 1 + (a.take i).length = (a.take i).length + 1 := by omega
  rw [hidx]

theorem project_outer_take (a b : List α) :
    ∀ (n i : Nat) (prev cur : List Nat), i + n ≤ a.length →
      project.levenshtein_outer a b b.length n i prev cur
        = beyond_project.levenshtein_outer b ((a.drop i).take n) (i + 1) prev cur := by
  intro n
  induction n with
  | zero =>
    intro i prev cur _
    rw [List.take_zero]
    rfl
  | succ n ih =>
    intro i prev cur hi
    have hlt : i < a.length := by omega
    rw [List.drop_eq_getElem_cons hlt, List.take_succ_cons]
    unfold project.levenshtein_outer beyond_project.levenshtein_outer
    simp only
    rw [project_inner_eq a b i a[i] (List.getElem?_eq_getElem hlt) prev b.length 0 _
      (by simp), ih (i + 1) _ _ (by omega)]
    rfl

end EditBounds

/-- C31. For all finite sequences `a` and `b`, in both variants, the absolute difference
of `|a|` and `|b|` is at most `levenshtein(a, b)`, which is at most `max(|a|, |b|)`; and
after any number `i` of iterations of the outer loop no entry of either row exceeds
`max(|a|, |b|)` (the run goes through these rows). The costs computed from the entries
add at most one to them, so the `size_t` arithmetic does not wrap as long as
`max(|a|, |b|) + 1` is representable. -/
theorem levenshtein_bounds {α : Type} [DecidableEq α] (a b : List α) (i : Nat) :
    (a.length - b.length ≤ beyond_project.levenshtein a b ∧
      b.length - a.length ≤ beyond_project.levenshtein a b ∧
      beyond_project.levenshtein a b ≤ max a.length b.length) ∧
    (a.length - b.length ≤ project.levenshtein a b ∧
      b.length - a.length ≤ project.levenshtein a b ∧
      project.levenshtein a b ≤ max a.length b.length) ∧
    (∀ x ∈ (rows_at a b i).1, x ≤ max a.length b.length) ∧
    (∀ x ∈ (rows_at a b i).2, x ≤ max a.length b.length) ∧
    beyond_project.levenshtein a b
      = (beyond_project.levenshtein_outer b (a.drop i) ((a.take i).length + 1)
          (rows_at a b i).1 (rows_at a b i).2).getLastD 0 := by
  have h1 := lev_ge_diff a b
  have h2 := lev_le_max a b
  obtain ⟨hrow, _, hcur⟩ := rows_at_spec a b i
  refine ⟨?_, ?_, ?_, hcur, levenshtein_through_rows a b i⟩
  · rw [beyond_levenshtein_eq_lev]
    exact ⟨by omega, by omega, h2⟩
  · rw [project_levenshtein_eq_lev]
    exact ⟨by omega, by omega, h2⟩
  · intro x hx
    have := rowOK_le hrow x hx
    simp only [List.length_take] at this
    omega

/-- C32. For all finite sequences `a` and `b`, `levenshtein(a, b) == 0` implies
`a == b`. -/
theorem levenshtein_zero_imp_eq {α : Type} [DecidableEq α] (a b : List α)
    (h : beyond_project.levenshtein a b = 0) : a = b := by
  rw [beyond_levenshtein_eq_lev] at h
  exact lev_eq_zero a b h

/-- Witness of C32: the sequence `[1, 2, 3]` against itself. -/
theorem levenshtein_zero_imp_eq_witness :
    beyond_project.levenshtein [1, 2, 3] [1, 2, 3] = 0 ∧ [1, 2, 3] = [1, 2, 3] :=
  ⟨by decide, levenshtein_zero_imp_eq [1, 2, 3] [1, 2, 3] (by decide)⟩

/-- C33. Loop invariant of `levenshtein`: before any element of `a` is processed
`prev_row[j] == j` for all `0 <= j <= |b|`; after the outer loop has processed the
first `i` elements of `a` (and the rows were swapped) `prev_row[j]` is the edit distance
between `a[0..i)` and `b[0..j)` for every `0 <= j <= |b|`; both rows have length
`|b| + 1`; and the run of `levenshtein` goes through these rows. The outer loop of
`project.hpp` has the same previous row after `i` iterations. -/
theorem levenshtein_loop_invariant {α : Type} [DecidableEq α] (a b : List α) (i : Nat) :
    (rows_at a b 0).1 = List.range (b.length + 1) ∧
    (∀ j, j ≤ b.length → (rows_at a b 0).1.getD j 0 = j) ∧
    (rows_at a b i).1.length = b.length + 1 ∧
    (rows_at a b i).2.length = b.length + 1 ∧
    (∀ j, j ≤ b.length → (rows_at a b i).1.getD j 0 = lev (a.take i) (b.take j)) ∧
    beyond_project.levenshtein a b
      = (beyond_project.levenshtein_outer b (a.drop i) ((a.take i).length + 1)
          (rows_at a b i).1 (rows_at a b i).2).getLastD 0 ∧
    (i ≤ a.length →
      project.levenshtein_outer a b b.length i 0 (List.range (b.length + 1))
        (List.replicate (b.length + 1) 0) = (rows_at a b i).1) := by
  obtain ⟨hrow, hcur, _⟩ := rows_at_spec a b i
  have h0 : (rows_at a b 0).1 = List.range (b.length + 1) := by
    simp [rows_at, rows_after, range_size_eq_length]
  refine ⟨h0, ?_, hrow.1, hcur, hrow.2, levenshtein_through_rows a b i, ?_⟩
  · intro j hj
    rw [h0, List.getD_eq_getElem?_getD, List.getElem?_range (by omega)]
    rfl
  · intro hi
    rw [project_outer_take a b i 0 _ _ (by omega), outer_eq_rows_after]
    simp [rows_at, range_size_eq_length]

/-- C34. For the crossover of `beyond_project.hpp` called with the tail flag false, when
`ncrossover_points + 1` does not wrap to 0, for all parents and all in-bounds draws
exactly `min(|parent1|, |parent2|)` elements are appended to the output. -/
theorem crossover_without_tail_length {G1 G2 α : Type} [BEq G2] (bd : G1 → Bool × G1)
    (uid : Nat → Nat → G2 → Nat × G2) (hb : InBounds uid) (fuel ncrossover_points : Nat)
    (g1 : G1) (g2 : G2) (parent1 parent2 out : List α)
    (hwrap : ncrossover_points + 1 < 2 ^ 64)
    (hfuel : min parent1.length parent2.length + 2 ≤ fuel) :
    ∃ child, beyond_project.crossover bd uid fuel ncrossover_points g1 g2 parent1 parent2
        out false = some (out ++ child) ∧
      child.length = min parent1.length parent2.length := by
  obtain ⟨_, body, _, _, hlen, _, hfalse, _⟩ :=
    crossover_full_spec bd uid hb fuel ncrossover_points g1 g2 parent1 parent2 out hfuel
  refine ⟨body, hfalse, ?_⟩
  rw [hlen, if_neg]
  unfold beyond_project.size_add beyond_project.SIZE_MOD
  rw [Nat.mod_eq_of_lt hwrap]
  omega

/-- Witness of C34: two crossover points on parents of lengths 6 and 3. -/
theorem crossover_without_tail_length_witness :
    InBounds scripted_uid ∧ 2 + 1 < 2 ^ 64 ∧
    min [1, 2, 3, 4, 5, 6].length [11, 12, 13].length + 2 ≤ 5 ∧
    ∃ child, beyond_project.crossover scripted_bd scripted_uid 5 2 [true] [2, 0, 0]
        [1, 2, 3, 4, 5, 6] [11, 12, 13] [9] false = some ([9] ++ child) ∧
      child.length = min [1, 2, 3, 4, 5, 6].length [11, 12, 13].length :=
  ⟨scripted_uid_inBounds, by decide, by decide,
    crossover_without_tail_length scripted_bd scripted_uid scripted_uid_inBounds 5 2 [true]
      [2, 0, 0] [1, 2, 3, 4, 5, 6] [11, 12, 13] [9] (by decide) (by decide)⟩

/-- C37. For every pair of finite ranges `r1` and `r2`, `min_range_size(r1, r2)` equals
`min(|r1|, |r2|)`, both in the branch that advances all iterators in lock step until
the first reaches its end and in the branch that takes the `min` of the ranges' sizes;
and `range_size(r)` equals the number of elements of `r`. -/
theorem min_range_size_is_min {α : Type} (r1 r2 r : List α) :
    beyond_project.min_range_size r1 r2 = min r1.length r2.length ∧
      beyond_project.min_range_size_sized r1 r2 = min r1.length r2.length ∧
      beyond_project.range_size r = r.length :=
  ⟨min_range_size_eq r1 r2, min2_eq_min _ _, range_size_eq_length r⟩

/-! ## The variadic `min` -/

section VariadicMin

variable {T : Type} [LinearOrder T]

/-- The variadic `min` is the left fold of the binary `min(a, b) = (b < a) ? b : a`. -/
theorem min_eq_foldl (a : T) (rest : List T) :
    project.min a rest = rest.foldl (fun x y => if y < x then y else x) a := by
  induction rest generalizing a with
  | nil => rfl
  | cons b t ih =>
    cases t with
    | nil => rfl
    | cons c r =>
      rw [project.min, ih]
      rfl

/-- The binary `min` of the source is the minimum of the order. -/
theorem ite_lt_eq_min (x y : T) : (if y < x then y else x) = Min.min x y := by
  split
  · rw [min_eq_right (le_of_lt (by assumption))]
  · rw [min_eq_left (not_lt.mp (by assumption))]

/-- The left fold of the binary `min` is one of the folded values and a lower bound of
all of them. -/
theorem foldl_min_spec (a : T) (rest : List T) :
    rest.foldl (fun x y => if y < x then y else x) a ∈ a :: rest ∧
      ∀ x ∈ a :: rest, rest.foldl (fun x y => if y < x then y else x) a ≤ x := by
  induction rest generalizing a with
  | nil => exact ⟨List.mem_cons_self _ _, fun x hx => by simp at hx; rw [hx]; exact le_refl _⟩
  | cons b t ih =>
    obtain ⟨hmem, hle⟩ := ih (if b < a then b else a)
    rw [List.foldl_cons]
    have hm : (if b < a then b else a) ≤ a ∧ (if b < a then b else a) ≤ b := by
      rw [ite_lt_eq_min]
      exact ⟨min_le_left _ _, min_le_right _ _⟩
    refine ⟨?_, ?_⟩
    · rcases List.mem_cons.mp hmem with h | h
      · rw [h]
        split
        · exact List.mem_cons_of_mem _ (List.mem_cons_self _ _)
        · exact List.mem_cons_self _ _
      · exact List.mem_cons_of_mem _ (List.mem_cons_of_mem _ h)
    · intro x hx
      rcases List.mem_cons.mp hx with h | h
      · rw [h]
        exact le_trans (hle _ (List.mem_cons_self _ _)) hm.1
      · rcases List.mem_cons.mp h with h | h
        · rw [h]
          exact le_trans (hle _ (List.mem_cons_self _ _)) hm.2
        · exact hle _ (List.mem_cons_of_mem _ h)

end VariadicMin

/-- C36. For every non-empty argument list `a, rest...` of values of one totally ordered
type, the variadic `min` returns one of its arguments, the returned value is less than
or equal to every argument, and it equals the left fold of the binary `min` over the
argument list (the binary `min` being `(b < a) ? b : a`, the minimum of the order). The
two- and three-argument forms used by `levenshtein` are instances. -/
theorem variadic_min_is_fold {T : Type} [LinearOrder T] (a : T) (rest : List T) :
    project.min a rest ∈ a :: rest ∧
    (∀ x ∈ a :: rest, project.min a rest ≤ x) ∧
    project.min a rest = rest.foldl (fun x y => if y < x then y else x) a ∧
    project.min a rest = rest.foldl Min.min a ∧
    (∀ x y z : Nat, project.min2 x y = project.min x [y] ∧
      project.min3 x y z = project.min x [y, z]) := by
  have h := foldl_min_spec a rest
  rw [← min_eq_foldl] at h
  refine ⟨h.1, h.2, min_eq_foldl a rest, ?_, fun x y z => ⟨rfl, rfl⟩⟩
  rw [min_eq_foldl]
  congr 1
  funext x y
  exact ite_lt_eq_min x y

/-- C35 (fails for `project_sina.hpp`). With one crossover point drawn at index 2, the
starting parent `parent1 = [1, 2, 3, 4]` and `parent2 = [11, 12, 13, 14]`, the crossover
of `project_sina.hpp` returns `[1, 2, 1, 2]`: at the crossover point the parent iterator
is set to the beginning of a parent, not to position `i`, so the child element at
position 2 is `parent1[0]`, which is neither `parent1[2]` nor `parent2[2]`. Hence it is
not true that for all draws every child element at a position `i < min(|parent1|,
|parent2|)` equals `parent1[i]` or `parent2[i]`. -/
theorem sina_crossover_foreign_element :
    project_sina.crossover scripted_uid scripted_uid 1 [0] [2] [1, 2, 3, 4] [11, 12, 13, 14]
      = some [1, 2, 1, 2] ∧
    ¬ ∀ (ncrossover_points : Nat) (g1 g2 : List Nat) (parent1 parent2 child : List Nat),
      project_sina.crossover scripted_uid scripted_uid ncrossover_points g1 g2 parent1
          parent2 = some child →
        ∀ i, i < min parent1.length parent2.length →
          child[i]? = parent1[i]? ∨ child[i]? = parent2[i]? := by
  refine ⟨by decide, fun h => ?_⟩
  have h2 := h 1 [0] [2] [1, 2, 3, 4] [11, 12, 13, 14] [1, 2, 1, 2] (by decide) 2 (by decide)
  revert h2
  decide

/-! ## The state invariant of the region sampling iterator -/

section ProbeStates

open beyond_project beyond_project.region_sample_iterator

variable {G : Type}

/-- A probe does not change `pop_size_`, and a probe that finds no boundary does not
change the current region. -/
theorem probe_keeps (uid : Nat → Nat → G → Nat × G) (it it' : region_sample_iterator G)
    (found : Bool) (hp : probe uid it = some (found, it')) :
    it'.pop_size_ = it.pop_size_ ∧ (found = false → it'.region_ = it.region_) := by
  unfold probe at hp
  rcases hg : it.urbg_ with _ | g
  · simp [hg] at hp
  · simp only [hg] at hp
    split at hp
    · simp only [Option.some.injEq, Prod.mk.injEq] at hp
      obtain ⟨rfl, rfl⟩ := hp
      exact ⟨rfl, fun h => by simp at h⟩
    · simp only [Option.some.injEq, Prod.mk.injEq] at hp
      obtain ⟨_, rfl⟩ := hp
      exact ⟨rfl, fun _ => rfl⟩

/-- The loop of `next()`, started in a state in which a probe can start and with a
region still to find, returns a state in which a probe can start; and it does not
change `pop_size_`. -/
theorem next_loop_reach (uid : Nat → Nat → G → Nat × G) (g : G) (n k : Nat) :
    ∀ (fuel d : Nat) (it it' : region_sample_iterator G), ProbeReach uid g n k d it →
      0 < it.region_.reverse_id → next_loop uid fuel it = some it' →
      ∃ d', ProbeReach uid g n k d' it' := by
  intro fuel
  induction fuel with
  | zero =>
    intro d it it' _ _ h
    simp [next_loop] at h
  | succ fuel ih =>
    intro d it it' hreach hrid h
    rw [next_loop_succ] at h
    rcases hp : probe uid it with _ | ⟨found, it1⟩
    · simp [hp] at h
    · cases found with
      | true =>
        simp only [hp, Option.some.injEq] at h
        exact ⟨d + 1, h ▸ ProbeReach.step hreach hrid hp⟩
      | false =>
        simp only [hp] at h
        have hreg := (probe_keeps uid it it1 false hp).2 rfl
        exact ih (d + 1) it1 it' (ProbeReach.step hreach hrid hp) (by rw [hreg]; exact hrid) h

/-- The function `next()` does not change `pop_size_`. -/
theorem next_pop_size (uid : Nat → Nat → G → Nat × G) :
    ∀ (fuel : Nat) (it it' : region_sample_iterator G), next uid fuel it = some it' →
      it'.pop_size_ = it.pop_size_ := by
  have hloop : ∀ (fuel : Nat) (it it' : region_sample_iterator G),
      next_loop uid fuel it = some it' → it'.pop_size_ = it.pop_size_ := by
    intro fuel
    induction fuel with
    | zero =>
      intro it it' h
      simp [next_loop] at h
    | succ fuel ih =>
      intro it it' h
      rw [next_loop_succ] at h
      rcases hp : probe uid it with _ | ⟨found, it1⟩
      · simp [hp] at h
      · have hk := (probe_keeps uid it it1 found hp).1
        cases found with
        | true =>
          simp only [hp, Option.some.injEq] at h
          rw [← h, hk]
        | false =>
          simp only [hp] at h
          rw [ih it1 it' h, hk]
  intro fuel it it' h
  unfold next at h
  split at h
  · simp only [Option.some.injEq] at h
    rw [← h]
  · exact hloop fuel it it' h

end ProbeStates

/-- C38. State invariant of `region_sample_iterator` for `num_regions >= 2` and
`pop_size >= 1` under in-bounds draws: the state the
constructor returns is a state in which a probe can start, an increment made in such a
state with a region still to find returns such a state again, and `next()` never changes
`pop_size_`; in every such state `pop_size_ == pop_size`,
`reverse_id <= num_in_pop_left_ <= pop_size`, `i_ == pop_size - num_in_pop_left_ + 1`
and `last_i_ < i_`, and before each probe (`reverse_id > 0`) `i_ <= pop_size`. -/
theorem iterator_state_invariant {G : Type} (uid : Nat → Nat → G → Nat × G)
    (hb : InBounds uid) (g : G) (pop_size num_regions : Nat) (hk : 2 ≤ num_regions)
    (hpop : 1 ≤ pop_size) :
    (∀ (fuel : Nat) (it : beyond_project.region_sample_iterator G),
      beyond_project.region_sample_iterator.ctor uid fuel g pop_size num_regions = some it →
        ∃ d, ProbeReach uid g pop_size num_regions d it) ∧
    (∀ (fuel d : Nat) (it it' : beyond_project.region_sample_iterator G),
      ProbeReach uid g pop_size num_regions d it → 0 < it.region_.reverse_id →
      beyond_project.region_sample_iterator.next uid fuel it = some it' →
        ∃ d', ProbeReach uid g pop_size num_regions d' it') ∧
    (∀ (fuel : Nat) (it it' : beyond_project.region_sample_iterator G),
      beyond_project.region_sample_iterator.next uid fuel it = some it' →
        it'.pop_size_ = it.pop_size_) ∧
    ∀ (d : Nat) (it : beyond_project.region_sample_iterator G),
      ProbeReach uid g pop_size num_regions d it →
        it.pop_size_ = pop_size ∧
        it.region_.reverse_id ≤ it.num_in_pop_left_ ∧
        it.num_in_pop_left_ ≤ pop_size ∧
        it.i_ = pop_size - it.num_in_pop_left_ + 1 ∧
        it.last_i_ < it.i_ ∧
        (0 < it.region_.reverse_id → it.i_ ≤ pop_size) := by
  refine ⟨?_, ?_, next_pop_size uid, ?_⟩
  · intro fuel it h
    rw [ctor_eq_next uid fuel g pop_size num_regions hk] at h
    unfold beyond_project.region_sample_iterator.next at h
    split at h
    · next h0 =>
      have hmin : project.min2 num_regions pop_size = 0 := h0
      rw [min2_eq_min] at hmin
      omega
    · next h0 =>
      exact next_loop_reach uid g pop_size num_regions fuel 0 _ it ProbeReach.start
        (Nat.pos_of_ne_zero h0) h
  · intro fuel d it it' hreach hrid h
    unfold beyond_project.region_sample_iterator.next at h
    rw [if_neg (by omega)] at h
    exact next_loop_reach uid g pop_size num_regions fuel d it it' hreach hrid h
  · intro d it hreach
    obtain ⟨hinv, hd⟩ := probeReach_inv uid hb g pop_size num_regions d it hreach
    have h1 := hinv.left
    have h2 := hinv.rid
    exact ⟨hinv.pop, h2, by omega, by omega, hinv.last, fun h => by omega⟩

/-- Witness of C38: a population of 10, three regions, scripted draws. -/
theorem iterator_state_invariant_witness :
    InBounds scripted_uid ∧ 2 ≤ 3 ∧ 1 ≤ 10 ∧
    (∀ (fuel : Nat) (it : beyond_project.region_sample_iterator (List Nat)),
      beyond_project.region_sample_iterator.ctor scripted_uid fuel [9, 3, 1, 7, 0] 10 3
          = some it →
        ∃ d, ProbeReach scripted_uid [9, 3, 1, 7, 0] 10 3 d it) ∧
    (∀ (fuel d : Nat) (it it' : beyond_project.region_sample_iterator (List Nat)),
      ProbeReach scripted_uid [9, 3, 1, 7, 0] 10 3 d it → 0 < it.region_.reverse_id →
      beyond_project.region_sample_iterator.next scripted_uid fuel it = some it' →
        ∃ d', ProbeReach scripted_uid [9, 3, 1, 7, 0] 10 3 d' it') ∧
    (∀ (fuel : Nat) (it it' : beyond_project.region_sample_iterator (List Nat)),
      beyond_project.region_sample_iterator.next scripted_uid fuel it = some it' →
        it'.pop_size_ = it.pop_size_) ∧
    ∀ (d : Nat) (it : beyond_project.region_sample_iterator (List Nat)),
      ProbeReach scripted_uid [9, 3, 1, 7, 0] 10 3 d it →
        it.pop_size_ = 10 ∧
        it.region_.reverse_id ≤ it.num_in_pop_left_ ∧
        it.num_in_pop_left_ ≤ 10 ∧
        it.i_ = 10 - it.num_in_pop_left_ + 1 ∧
        it.last_i_ < it.i_ ∧
        (0 < it.region_.reverse_id → it.i_ ≤ 10) :=
  ⟨scripted_uid_inBounds, by decide, by decide,
    iterator_state_invariant scripted_uid scripted_uid_inBounds [9, 3, 1, 7, 0] 10 3
      (by decide) (by decide)⟩

/-! ## The distance of a sequence to itself, for an element type with its own `operator!=` -/

section SelfDistance

open beyond_project

variable {α : Type}

theorem min3_zero (x y : Nat) : project.min3 x y 0 = 0 := by
  unfold project.min3 project.min2
  split_ifs <;> omega

theorem inner_by_length (ne : α → α → Bool) (ai : α) (prev : List Nat) :
    ∀ (bs : List α) (j : Nat) (cur : List Nat),
      (levenshtein_inner_by ne ai prev bs j cur).length = cur.length := by
  intro bs
  induction bs with
  | nil => intro j cur; rfl
  | cons bj bs ih =>
    intro j cur
    rw [levenshtein_inner_by, ih, List.length_set]

/-- The inner loop started at offset `j` leaves the entries `0 .. j` of the current row
as they are. -/
theorem inner_by_getD_le (ne : α → α → Bool) (ai : α) (prev : List Nat) :
    ∀ (bs : List α) (j : Nat) (cur : List Nat) (m : Nat), m ≤ j →
      (levenshtein_inner_by ne ai prev bs j cur).getD m 0 = cur.getD m 0 := by
  intro bs
  induction bs with
  | nil => intro j cur m _; rfl
  | cons bj bs ih =>
    intro j cur m hm
    rw [levenshtein_inner_by, ih (j + 1) _ m (by omega)]
    simp only [List.getD_eq_getElem?_getD]
    rw [List.getElem?_set_ne (by omega)]

/-- Where the element `ai` meets an element `x` of `b` with `!(ai != x)` and the previous
row has a 0 in the column before, the inner loop writes a 0. -/
theorem inner_by_diag (ne : α → α → Bool) (ai : α) (prev : List Nat) :
    ∀ (bs : List α) (j : Nat) (cur : List Nat) (k : Nat) (x : α), bs[k]? = some x →
      ne ai x = false → prev.getD (j + k) 0 = 0 → j + k + 1 < cur.length →
      (levenshtein_inner_by ne ai prev bs j cur).getD (j + k + 1) 0 = 0 := by
  intro bs
  induction bs with
  | nil =>
    intro j cur k x h
    simp at h
  | cons bj bs ih =>
    intro j cur k x h hne hprev hlen
    cases k with
    | zero =>
      simp only [List.getElem?_cons_zero, Option.some.injEq] at h
      subst h
      simp only [Nat.add_zero] at hprev hlen ⊢
      rw [levenshtein_inner_by, inner_by_getD_le ne ai prev bs (j + 1) _ (j + 1) (le_refl _),
        List.getD_eq_getElem?_getD, List.getElem?_set_self hlen]
      simp only [hprev, hne, Bool.false_eq_true, if_false, Nat.add_zero, Option.getD_some]
      exact min3_zero _ _
    | succ k =>
      simp only [List.getElem?_cons_succ] at h
      rw [levenshtein_inner_by]
      have hidx : j + (k + 1) = j + 1 + k := by omega
      rw [hidx] at hprev hlen ⊢
      exact ih (j + 1) _ k x h hne hprev (by rw [List.length_set]; exact hlen)

/-- Along the outer loop on `b` against itself, the row keeps a 0 in the column of the
number of elements processed. -/
theorem outer_by_diag (ne : α → α → Bool) (b : List α) (hb : ∀ x ∈ b, ne x x = false) :
    ∀ (as pre : List α) (idp : Nat) (prev cur : List Nat), b = pre ++ as →
      prev.length = b.length + 1 → cur.length = b.length + 1 →
      prev.getD pre.length 0 = 0 →
      (levenshtein_outer_by ne b as idp prev cur).length = b.length + 1 ∧
        (levenshtein_outer_by ne b as idp prev cur).getD b.length 0 = 0 := by
  intro as
  induction as with
  | nil =>
    intro pre idp prev cur hsplit hprev _ hd
    rw [List.append_nil] at hsplit
    rw [levenshtein_outer_by, hsplit]
    rw [hsplit] at hprev
    exact ⟨hprev, hd⟩
  | cons ai as ih =>
    intro pre idp prev cur hsplit hprev hcur hd
    rw [levenshtein_outer_by]
    have hmem : ai ∈ b := by
      rw [hsplit]
      simp
    have hget : b[pre.length]? = some ai := by
      rw [hsplit, List.getElem?_append_right (le_refl _), Nat.sub_self,
        List.getElem?_cons_zero]
    have hlt : pre.length < b.length := by
      rw [hsplit, List.length_append, List.length_cons]
      omega
    have hdiag := inner_by_diag ne ai prev b 0 (cur.set 0 idp) pre.length ai hget
      (hb ai hmem) (by rw [Nat.zero_add]; exact hd)
      (by rw [List.length_set, hcur]; omega)
    rw [Nat.zero_add] at hdiag
    apply ih (pre ++ [ai]) (idp + 1) _ prev
    · rw [hsplit]
      simp
    · rw [inner_by_length, List.length_set, hcur]
    · exact hprev
    · rw [List.length_append, List.length_singleton]
      exact hdiag

/-- On a type with decidable equality whose `!=` is the inequality, `levenshtein_by` is
`levenshtein`. -/
theorem levenshtein_by_decide [DecidableEq α] (a b : List α) :
    levenshtein_by (fun x y => decide (x ≠ y)) a b = beyond_project.levenshtein a b := by
  have hinner : ∀ (ai : α) (prev : List Nat) (bs : List α) (j : Nat) (cur : List Nat),
      levenshtein_inner_by (fun x y => decide (x ≠ y)) ai prev bs j cur
        = levenshtein_inner ai prev bs j cur := by
    intro ai prev bs
    induction bs with
    | nil => intro j cur; rfl
    | cons bj bs ih =>
      intro j cur
      rw [levenshtein_inner_by, levenshtein_inner, ih]
      simp
  have houter : ∀ (as : List α) (idp : Nat) (prev cur : List Nat),
      levenshtein_outer_by (fun x y => decide (x ≠ y)) b as idp prev cur
        = levenshtein_outer b as idp prev cur := by
    intro as
    induction as with
    | nil => intro idp prev cur; rfl
    | cons ai as ih =>
      intro idp prev cur
      rw [levenshtein_outer_by, levenshtein_outer, hinner, ih]
  rw [levenshtein_by, beyond_project.levenshtein, houter]

end SelfDistance

/-- C3 (fails as stated). On the sequence `{1.0, NaN, 2.0}` of `double`, whose `!=` makes
a NaN differ from itself, `levenshtein(a, a)` is 1, not 0. -/
theorem levenshtein_self_counterexample :
    beyond_project.levenshtein_by double_ne
      [double_value.of_int 1, double_value.nan, double_value.of_int 2]
      [double_value.of_int 1, double_value.nan, double_value.of_int 2] = 1 := by
  decide

/-- C3, amended. For every finite sequence `a` all of whose elements `x` satisfy
`!(x != x)` for the `operator!=` of the element type (so for every element type whose
`!=` is the negation of an equality), `levenshtein(a, a) == 0`. -/
theorem levenshtein_self_eq_zero {α : Type} (ne : α → α → Bool) (a : List α)
    (h : ∀ x ∈ a, ne x x = false) : beyond_project.levenshtein_by ne a a = 0 := by
  obtain ⟨hlen, hd⟩ := outer_by_diag ne a h a [] 1
    (List.range (beyond_project.range_size a + 1))
    (List.replicate (beyond_project.range_size a + 1) 0) rfl
    (by rw [List.length_range, range_size_eq_length])
    (by rw [List.length_replicate, range_size_eq_length])
    (by simp [List.getD_eq_getElem?_getD])
  rw [beyond_project.levenshtein_by, List.getLastD_eq_getLast?, List.getLast?_eq_getElem?,
    hlen]
  rw [List.getD_eq_getElem?_getD] at hd
  simpa using hd

/-- Witness of C3: a sequence of doubles without a NaN. -/
theorem levenshtein_self_eq_zero_witness :
    (∀ x ∈ [double_value.of_int 1, double_value.of_int 2, double_value.of_int 2],
      double_ne x x = false) ∧
    beyond_project.levenshtein_by double_ne
      [double_value.of_int 1, double_value.of_int 2, double_value.of_int 2]
      [double_value.of_int 1, double_value.of_int 2, double_value.of_int 2] = 0 :=
  ⟨by decide, levenshtein_self_eq_zero double_ne
    [double_value.of_int 1, double_value.of_int 2, double_value.of_int 2] (by decide)⟩
